import Mathlib

/-!
# Parallel matrix multiplication (`matrix_mult.c`)

A shallow embedding of the multiplication kernel, the three strategies and the
verifier of `matrix_mult.c`, followed by theorems about them.

Conventions of the embedding.

* A `double *` buffer is a `List α`; a load or store outside the buffer is
  undefined behaviour in C and is `none` here, so every function returns an
  `Option`.
* The element type `α` is kept abstract: the code only uses `0`, `+`, `*` and
  `!=` on it, which are the `Zero`, `Add`, `Mul` and `BEq` instances.  The
  general theorems hold for every such type.  `F64` below is the element type of
  the code, IEEE-754 binary64 with round to nearest, ties to even; the concrete
  runs are on it.
* A C `int` is an `Int`.  `/` is C's truncating division (`Int.tdiv`); dividing
  by zero is undefined and is `none`.
* The program is embedded twice.  The functions under the names of the source
  (`multiply_chunk`, `verify`, ...) compute on exact integers, as the code does
  as long as no `int` overflows.  The functions with the suffix `32`
  (`multiply_chunk32`, `verify32`, ...) are the code with the `int` operations
  that can overflow reduced to 32 bits, two's complement: the index
  `i * dim + k`, the bound `row_start + chunk`, the size `dim * dim` and the loop
  counters.  The two agree up to `dim = 46340`, and differ from `dim = 46341` on.
  A theorem whose statement depends on this arithmetic is stated on the
  functions with the suffix `32`, and its proof goes through the exact
  functions.
* The arithmetic of the row partition (lines 70-79 and 94-106) is written with
  exact operations in both: for `dim ≥ 1` and `num_workers ≥ 1` all its values lie
  between `0` and the larger of `dim` and `num_workers`.
* The fields of a `struct timeval` are 64-bit integers, two's complement.
* `for (int i = lo; i < hi; ++i) body` is `forRange lo hi body`.
* The workers of the two parallel strategies are run one after the other, in
  the order in which the code creates them.
-/

namespace MatrixMult

/-! ## Memory and control -/

/-- Read `m[idx]`; `none` when `idx` is outside the buffer. -/
def load {α : Type} (m : List α) (idx : Int) : Option α :=
  if idx < 0 then none else m[idx.toNat]?

/-- Perform `m[idx] = v`; `none` when `idx` is outside the buffer. -/
def store {α : Type} (m : List α) (idx : Int) (v : α) : Option (List α) :=
  if idx < 0 then none
  else if idx.toNat < m.length then some (m.set idx.toNat v) else none

/-- Run `body i` for `n` consecutive values of `i`, starting at `i`. -/
def forCount {σ : Type} (body : Int → σ → Option σ) : Nat → Int → σ → Option σ
  | 0, _, s => some s
  | n + 1, i, s => (body i s).bind (forCount body n (i + 1))

/-- The loop `for (int i = lo; i < hi; ++i) body`: it runs `hi - lo` times when
`lo < hi` and not at all otherwise. -/
def forRange {σ : Type} (lo hi : Int) (body : Int → σ → Option σ) (s : σ) : Option σ :=
  forCount body (hi - lo).toNat lo s

/-- The C expression `x / y` on `int`. -/
def cdiv (x y : Int) : Option Int :=
  if y = 0 then none else some (Int.tdiv x y)

/-- The function `mmap_checked` (lines 17-24), called for `n` elements: a fresh
shared region, which an anonymous mapping fills with zeros.  `mmap` refuses a
length of zero, and `mmap_checked` then ends the process.  A negative `n` is a
negative `int` converted to `size_t`, a length of more than `2 ^ 63` bytes, which
`mmap` refuses too. -/
def mmap_checked {α : Type} [Zero α] (n : Int) : Option (List α) :=
  if n ≤ 0 then none else some (List.replicate n.toNat (0 : α))

/-- The call `memcpy(dst, src, n * sizeof(double))`.  A negative `n` is a
negative `int` converted to `size_t`: the copy runs past the end of both
buffers. -/
def memcpy {α : Type} (dst src : List α) (n : Int) : Option (List α) :=
  if n < 0 then none
  else if n.toNat ≤ src.length ∧ n.toNat ≤ dst.length then
    some (src.take n.toNat ++ dst.drop n.toNat)
  else none

/-! ## The program -/

section Program

variable {α : Type} [Zero α] [Add α] [Mul α]

/-- The innermost loop of `multiply_chunk` (lines 55-58), on exact integers:
the value of `sum` when the loop over `k` ends. -/
def dot_loop (a b : List α) (dim i j : Int) : Option α :=
  forRange 0 dim (fun k sum => do
    let x ← load a (i * dim + k)
    let y ← load b (k * dim + j)
    pure (sum + x * y)) (0 : α)

/-- The loop nest of `multiply_chunk` (lines 52-62), on exact integers, with the
assignment `c[i * dim + j] = sum` handed to `st`.  With `st := store` this is
`multiply_chunk`; with a handler that records its index argument it yields the
sequence of stores the function performs. -/
def multiply_chunk_with {σ : Type} (st : σ → Int → α → Option σ)
    (a b : List α) (c : σ) (dim row_start chunk : Int) : Option σ :=
  forRange row_start (row_start + chunk) (fun i c =>
    forRange 0 dim (fun j c => do
      let sum ← dot_loop a b dim i j
      st c (i * dim + j) sum) c) c

/-- The function `multiply_chunk` (lines 52-62), on exact integers. -/
def multiply_chunk (a b c : List α) (dim row_start chunk : Int) : Option (List α) :=
  multiply_chunk_with store a b c dim row_start chunk

/-- The indices that `multiply_chunk` stores to on exact integers, in program
order. -/
def multiply_chunk_stores (a b : List α) (dim row_start chunk : Int) : Option (List Int) :=
  multiply_chunk_with (fun log idx _ => some (log ++ [idx])) a b [] dim row_start chunk

/-- The function `multiply_serial` (lines 64-66), on exact integers. -/
def multiply_serial (a b c : List α) (dim _num_workers : Int) : Option (List α) :=
  multiply_chunk a b c dim 0 dim

/-- The partitioning skeleton of `multiply_parallel_processes` (lines 70-82):
`run s row_start chunk` stands for a worker executing on the rows
`[row_start, row_start + chunk)`.  The first `num_workers - 1` calls are the
forked children, the last one is the parent. -/
def processes_with {σ : Type} (run : σ → Int → Int → Option σ)
    (dim num_workers : Int) (s : σ) : Option σ := do
  let num_procs := num_workers - 1
  let chunk_size ← cdiv dim num_workers
  let (s, row_start) ← forRange 0 num_procs (fun _ (st : σ × Int) => do
    let s ← run st.1 st.2 chunk_size
    pure (s, st.2 + chunk_size)) (s, 0)
  run s row_start (dim - row_start)

/-- The function `multiply_parallel_processes` (lines 68-85), on exact
integers.  The children write to the shared region, so what they store is
there when the parent reads it. -/
def multiply_parallel_processes (a b c : List α) (dim num_workers : Int) :
    Option (List α) := do
  let c_shared ← mmap_checked (dim * dim)
  let c_shared ← processes_with (fun sh r n => multiply_chunk a b sh dim r n)
    dim num_workers c_shared
  memcpy c c_shared (dim * dim)

/-- The row ranges `(row_start, chunk)` that `multiply_parallel_processes`
hands to its workers, in order: the children first, the parent last. -/
def process_ranges (dim num_workers : Int) : Option (List (Int × Int)) :=
  processes_with (fun log r n => some (log ++ [(r, n)])) dim num_workers []

/-- The record `Args` of `matrix_mult.h`.  Its field `c` points to the output
buffer, which is the state the tasks are run on. -/
structure Args (α : Type) where
  a : List α
  b : List α
  dim : Int
  row_start : Int
  chunk : Int

/-- The function `task` (lines 87-91), on exact integers. -/
def task (args : Args α) (c : List α) : Option (List α) :=
  multiply_chunk args.a args.b c args.dim args.row_start args.chunk

/-- The descriptor loop of `multiply_parallel_threads` (lines 95-107): the
array `arg_set` once the loop has filled entries `0 .. num_workers - 1`. -/
def thread_args (a b : List α) (dim num_workers : Int) : Option (List (Args α)) := do
  let chunk ← cdiv dim num_workers
  let (arg_set, _) ← forRange 0 num_workers
    (fun i (st : List (Args α) × Int) =>
      some (st.1 ++ [{ a := a, b := b, dim := dim, row_start := st.2,
                       chunk := if i = num_workers - 1 then dim - st.2 else chunk }],
            st.2 + chunk)) ([], 0)
  pure arg_set

/-- The function `multiply_parallel_threads` (lines 93-118), on exact integers:
the created threads run `task` on descriptors `0 .. num_threads - 1`, then the
caller runs `task` on descriptor `id`, the value the creation loop leaves in
`id`. -/
def multiply_parallel_threads (a b c : List α) (dim num_workers : Int) :
    Option (List α) := do
  let num_threads := num_workers - 1
  let arg_set ← thread_args a b dim num_workers
  let c ← forRange 0 num_threads (fun id c => do
    let args ← load arg_set id
    task args c) c
  let id := max 0 num_threads
  let args ← load arg_set id
  task args c

/-- The constant `SUCCESS` of `matrix_mult.h`. -/
def SUCCESS : Int := 0

/-- The constant `FAILURE` of `matrix_mult.h`. -/
def FAILURE : Int := -1

/-- The loop of `verify` (lines 121-125), on exact integers, with `n`
iterations left, at index `i`; it returns as soon as two elements compare
unequal. -/
def verify_loop [BEq α] (m1 m2 : List α) : Nat → Int → Option Int
  | 0, _ => some SUCCESS
  | n + 1, i => do
    let x ← load m1 i
    let y ← load m2 i
    if x != y then some FAILURE else verify_loop m1 m2 n (i + 1)

/-- The function `verify` (lines 120-127), on exact integers. -/
def verify [BEq α] (m1 m2 : List α) (dim : Int) : Option Int :=
  verify_loop m1 m2 (dim * dim - 0).toNat 0

end Program

/-! ## The element type `double` -/

/-- An IEEE-754 binary64 value, the C type `double`, as its three bit fields:
the sign bit, the 11-bit biased exponent and the 52-bit fraction. -/
structure F64 where
  sign : Bool
  exp : Nat
  frac : Nat
  deriving DecidableEq, Repr

namespace F64

/-- A NaN: exponent field all ones and a non-zero fraction. -/
def isNaN (x : F64) : Bool := x.exp == 2047 && x.frac != 0

/-- An infinity: exponent field all ones and a zero fraction. -/
def isInf (x : F64) : Bool := x.exp == 2047 && x.frac == 0

/-- A zero of either sign. -/
def isZero (x : F64) : Bool := x.exp == 0 && x.frac == 0

/-- The NaN that stands for the result of every invalid operation; the sign and
the payload of a NaN are not tracked. -/
def nan : F64 := ⟨false, 2047, 2 ^ 51⟩

/-- The infinity of the given sign. -/
def inf (sign : Bool) : F64 := ⟨sign, 2047, 0⟩

/-- The integer significand of a finite value. -/
def sig (x : F64) : Nat := if x.exp = 0 then x.frac else 2 ^ 52 + x.frac

/-- The exponent of the last significand bit of a finite value, which is
`(-1)^sign * sig * 2^expo`. -/
def expo (x : F64) : Int := (if x.exp = 0 then 1 else (x.exp : Int)) - 1075

/-- The number of binary digits of `m`, for `m < 2 ^ 2 ^ level`, by bisection. -/
def bitLenFast : Nat → Nat → Nat
  | 0, m => if m = 0 then 0 else 1
  | level + 1, m =>
    if 1 <<< (1 <<< level) ≤ m then (1 <<< level) + bitLenFast level (m >>> (1 <<< level))
    else bitLenFast level m

/-- The number of binary digits of `m`, by at most `fuel` halvings. -/
def bitLenSlow : Nat → Nat → Nat
  | 0, _ => 0
  | fuel + 1, m => if m = 0 then 0 else bitLenSlow fuel (m / 2) + 1

/-- The number of binary digits of `m`: `2 ^ (bitLen m - 1) ≤ m < 2 ^ bitLen m`
for `m > 0`. -/
def bitLen (m : Nat) : Nat :=
  if m < 1 <<< 4096 then bitLenFast 12 m else bitLenSlow m m

/-- Pack a significand `q ≤ 2^53` whose last bit has exponent `e ≥ -1074`. -/
def encode (sign : Bool) (q : Nat) (e : Int) : F64 :=
  if q < 2 ^ 52 then ⟨sign, 0, q⟩
  else
    let (q, e) := if q = 2 ^ 53 then (2 ^ 52, e + 1) else (q, e)
    if e + 1075 ≥ 2047 then inf sign else ⟨sign, (e + 1075).toNat, q - 2 ^ 52⟩

/-- Round the exact value `(-1)^sign * m * 2^e` to the nearest binary64 value,
ties to even (the default rounding mode). -/
def round (sign : Bool) (m : Nat) (e : Int) : F64 :=
  if m = 0 then ⟨sign, 0, 0⟩
  else
    let e' : Int := max (e + bitLen m - 53) (-1074)
    if e' ≤ e then encode sign (m <<< (e - e').toNat) e'
    else
      let sh := (e' - e).toNat
      let q := m >>> sh
      let r := m % (1 <<< sh)
      let half := 1 <<< (sh - 1)
      let q := if r > half ∨ (r = half ∧ q % 2 = 1) then q + 1 else q
      encode sign q e'

/-- Multiplication of `double`. -/
def mul (x y : F64) : F64 :=
  if x.isNaN || y.isNaN then nan
  else if x.isInf || y.isInf then
    if x.isZero || y.isZero then nan else inf (xor x.sign y.sign)
  else round (xor x.sign y.sign) (x.sig * y.sig) (x.expo + y.expo)

/-- Addition of `double`. -/
def add (x y : F64) : F64 :=
  if x.isNaN || y.isNaN then nan
  else if x.isInf then
    if y.isInf && x.sign != y.sign then nan else x
  else if y.isInf then y
  else
    let e := min x.expo y.expo
    let mx : Int := (x.sig <<< (x.expo - e).toNat : Nat)
    let my : Int := (y.sig <<< (y.expo - e).toNat : Nat)
    let s : Int := (if x.sign then -mx else mx) + (if y.sign then -my else my)
    if s = 0 then ⟨x.sign && y.sign, 0, 0⟩ else round (decide (s < 0)) s.natAbs e

/-- The comparison `x == y` of `double`: a NaN equals nothing, the two zeros
are equal. -/
def eq (x y : F64) : Bool :=
  if x.isNaN || y.isNaN then false
  else if x.isZero && y.isZero then true
  else decide (x = y)

instance : Zero F64 := ⟨⟨false, 0, 0⟩⟩
instance : Add F64 := ⟨add⟩
instance : Mul F64 := ⟨mul⟩
instance : BEq F64 := ⟨eq⟩
instance : One F64 := ⟨round false 1 0⟩
instance (n : Nat) [n.AtLeastTwo] : OfNat F64 n := ⟨round false n 0⟩

end F64

/-! ## Reference definitions

The mathematical objects the program is compared with. -/

section Reference

variable {α : Type} [Zero α] [Add α] [Mul α]

/-- The sum of the first `k` products `A[i*D + k'] * B[k'*D + j]`, accumulated
from `0` in increasing `k'`. -/
def dot_upto (a b : List α) (D i j : Nat) : Nat → α
  | 0 => 0
  | k + 1 => dot_upto a b D i j k + a.getD (i * D + k) 0 * b.getD (k * D + j) 0

/-- The entry `(i, j)` of the product: the sum over `k = 0 .. D-1` of
`A[i*D + k] * B[k*D + j]`. -/
def dot_product (a b : List α) (D i j : Nat) : α :=
  dot_upto a b D i j D

/-- The entry of the product that belongs at position `idx` of a row-major
`D × D` buffer. -/
def cell (a b : List α) (D idx : Nat) : α :=
  dot_product a b D (idx / D) (idx % D)

/-- The full matrix product `A * B` as a row-major buffer. -/
def matrix_product (a b : List α) (D : Nat) : List α :=
  (List.range (D * D)).map (cell a b D)

/-- The `D × D` matrix all of whose entries are `x`, as a row-major buffer. -/
def constant_matrix {α : Type} (D : Nat) (x : α) : List α :=
  List.replicate (D * D) x

/-- The `D × D` identity matrix as a row-major buffer. -/
def identity [One α] (D : Nat) : List α :=
  (List.range (D * D)).map (fun idx => if idx / D = idx % D then (1 : α) else 0)

/-- The row ranges of the data model, as pairs `(row_start, chunk)` that stand
for the rows `[row_start, row_start + chunk)`: with `base_chunk = D / W`, worker
`i` of `0 .. W-2` gets `base_chunk` rows from `i * base_chunk` on, and the last
worker gets the remaining `D - base_chunk * (W-1)` rows. -/
def row_ranges (D W : Nat) : List (Int × Int) :=
  (List.range (W - 1)).map
      (fun (i : Nat) => ((i : Int) * ((D / W : Nat) : Int), ((D / W : Nat) : Int)))
    ++ [(((W - 1 : Nat) : Int) * ((D / W : Nat) : Int),
         (D : Int) - ((D / W : Nat) : Int) * ((W - 1 : Nat) : Int))]

/-- A verifier that scans all `dim * dim` elements before it answers. -/
def verify_full_scan [BEq α] (m1 m2 : List α) (dim : Int) : Option Int :=
  forRange 0 (dim * dim) (fun i res => do
    let x ← load m1 i
    let y ← load m2 i
    pure (if x != y then FAILURE else res)) SUCCESS

end Reference

/-! ## Elapsed time -/

/-- The record `struct timeval` of `<sys/time.h>`, with its two integer fields,
of the types `time_t` and `suseconds_t`. -/
structure timeval where
  tv_sec : Int
  tv_usec : Int
  deriving DecidableEq, Repr

/-- The value a 64-bit two's-complement integer holds when the exact result of
an operation is `x`.  On the 64-bit platforms that the program is built for,
`time_t` and `suseconds_t` are such integers (`long`). -/
def wrap64 (x : Int) : Int :=
  (x + 9223372036854775808) % 18446744073709551616 - 9223372036854775808

/-- The function `time_diff` (lines 139-147).  `mem` holds the
`struct timeval` objects of the program by address; `start` and `end_` are the
two pointer arguments, which may be equal.  Each statement reads and writes
through the pointers, in the order of the source.  The result is the returned
value and the memory when the function returns. -/
def time_diff (mem : Nat → timeval) (start end_ : Nat) : timeval × (Nat → timeval) :=
  let mem := Function.update mem end_
    { mem end_ with tv_sec := wrap64 ((mem end_).tv_sec - (mem start).tv_sec) }
  let mem := Function.update mem end_
    { mem end_ with tv_usec := wrap64 ((mem end_).tv_usec - (mem start).tv_usec) }
  let mem :=
    if (mem end_).tv_usec < 0 then
      let mem := Function.update mem end_
        { mem end_ with tv_sec := wrap64 ((mem end_).tv_sec - 1) }
      Function.update mem end_
        { mem end_ with tv_usec := wrap64 ((mem end_).tv_usec + 1000000) }
    else mem
  (mem end_, mem)

/-- A memory that holds the object `s` at address `0` and the object `e` at
every other address. -/
def two_timevals (s e : timeval) : Nat → timeval :=
  fun p => if p = 0 then s else e

/-! ## The program on 32-bit `int`

The same functions with the `int` operations of the loops, of the indices and
of the size `dim * dim` reduced to 32 bits, two's complement. -/

/-- The value a 32-bit two's-complement `int` holds when the exact result of an
operation is `x`. -/
def wrap32 (x : Int) : Int :=
  (x + 2147483648) % 4294967296 - 2147483648

/-- The loop of `forCount` with `++i` on a 32-bit `int`. -/
def forCount32 {σ : Type} (body : Int → σ → Option σ) : Nat → Int → σ → Option σ
  | 0, _, s => some s
  | n + 1, i, s => (body i s).bind (forCount32 body n (wrap32 (i + 1)))

/-- The loop `for (int i = lo; i < hi; ++i) body` on 32-bit `int`. -/
def forRange32 {σ : Type} (lo hi : Int) (body : Int → σ → Option σ) (s : σ) : Option σ :=
  forCount32 body (hi - lo).toNat lo s

section Program32

variable {α : Type} [Zero α] [Add α] [Mul α]

/-- The innermost loop of `multiply_chunk` (lines 55-58) on 32-bit `int`. -/
def dot_loop32 (a b : List α) (dim i j : Int) : Option α :=
  forRange32 0 dim (fun k sum => do
    let x ← load a (wrap32 (wrap32 (i * dim) + k))
    let y ← load b (wrap32 (wrap32 (k * dim) + j))
    pure (sum + x * y)) (0 : α)

/-- The function `multiply_chunk` (lines 52-62) on 32-bit `int`. -/
def multiply_chunk32 (a b c : List α) (dim row_start chunk : Int) : Option (List α) :=
  forRange32 row_start (wrap32 (row_start + chunk)) (fun i c =>
    forRange32 0 dim (fun j c => do
      let sum ← dot_loop32 a b dim i j
      store c (wrap32 (wrap32 (i * dim) + j)) sum) c) c

/-- The loop nest of `multiply_chunk` (lines 52-62) on 32-bit `int`, with the
assignment `c[i * dim + j] = sum` handed to `st`; with `st := store` this is
`multiply_chunk32`. -/
def multiply_chunk_with32 {σ : Type} (st : σ → Int → α → Option σ)
    (a b : List α) (c : σ) (dim row_start chunk : Int) : Option σ :=
  forRange32 row_start (wrap32 (row_start + chunk)) (fun i c =>
    forRange32 0 dim (fun j c => do
      let sum ← dot_loop32 a b dim i j
      st c (wrap32 (wrap32 (i * dim) + j)) sum) c) c

/-- The indices that `multiply_chunk` stores to on 32-bit `int`, in program
order. -/
def multiply_chunk_stores32 (a b : List α) (dim row_start chunk : Int) : Option (List Int) :=
  multiply_chunk_with32 (fun log idx _ => some (log ++ [idx])) a b [] dim row_start chunk

/-- The function `multiply_serial` (lines 64-66) on 32-bit `int`. -/
def multiply_serial32 (a b c : List α) (dim _num_workers : Int) : Option (List α) :=
  multiply_chunk32 a b c dim 0 dim

/-- The function `multiply_parallel_processes` (lines 68-85) on 32-bit `int`.
The size `dim * dim * sizeof(double)` of lines 69 and 83 is the 32-bit product
`dim * dim`, converted to `size_t` and multiplied by the size of an element.
When the product is negative this is a length of more than `2 ^ 63` bytes:
`mmap` refuses it, as it refuses the length zero, and `mmap_checked` ends the
process.  The workers run `multiply_chunk32`.  The arithmetic of the partition
(lines 70-79) is that of `processes_with`: for `dim ≥ 1` and `num_workers ≥ 1`
its values lie between `0` and the larger of `dim` and `num_workers`. -/
def multiply_parallel_processes32 (a b c : List α) (dim num_workers : Int) :
    Option (List α) := do
  let c_shared ← mmap_checked (wrap32 (dim * dim))
  let c_shared ← processes_with (fun sh r n => multiply_chunk32 a b sh dim r n)
    dim num_workers c_shared
  memcpy c c_shared (wrap32 (dim * dim))

/-- The function `task` (lines 87-91) on 32-bit `int`. -/
def task32 (args : Args α) (c : List α) : Option (List α) :=
  multiply_chunk32 args.a args.b c args.dim args.row_start args.chunk

/-- The function `multiply_parallel_threads` (lines 93-118) on 32-bit `int`:
the descriptors are those of `thread_args`, whose values lie between `0` and
the larger of `dim` and `num_workers` for `dim ≥ 1` and `num_workers ≥ 1`, and
the tasks run `multiply_chunk32`. -/
def multiply_parallel_threads32 (a b c : List α) (dim num_workers : Int) :
    Option (List α) := do
  let num_threads := num_workers - 1
  let arg_set ← thread_args a b dim num_workers
  let c ← forRange 0 num_threads (fun id c => do
    let args ← load arg_set id
    task32 args c) c
  let id := max 0 num_threads
  let args ← load arg_set id
  task32 args c

/-- The loop of `verify` (lines 121-125) with `i++` on a 32-bit `int`. -/
def verify_loop32 [BEq α] (m1 m2 : List α) : Nat → Int → Option Int
  | 0, _ => some SUCCESS
  | n + 1, i => do
    let x ← load m1 i
    let y ← load m2 i
    if x != y then some FAILURE else verify_loop32 m1 m2 n (wrap32 (i + 1))

/-- The function `verify` (lines 120-127) on 32-bit `int`: the loop bound is
the 32-bit product `dim * dim`. -/
def verify32 [BEq α] (m1 m2 : List α) (dim : Int) : Option Int :=
  verify_loop32 m1 m2 (wrap32 (dim * dim) - 0).toNat 0

end Program32

/-! ## Calls in program order

The calls that the invoking context of a parallel strategy makes, in program
order.  The results of the system calls are inputs.  A trace stops at a call
to `exit` and at an operation whose behaviour is undefined. -/

/-- The results of the system calls that can fail: `true` stands for success.
`fork_ok i` and `create_ok id` are the results of the call in iteration `i` of
the fork loop and in iteration `id` of the creation loop. -/
structure Os where
  mmap_ok : Bool
  fork_ok : Int → Bool
  munmap_ok : Bool
  malloc_ok : Bool
  create_ok : Int → Bool

/-- The system in which every call succeeds. -/
def Os.fine : Os :=
  { mmap_ok := true, fork_ok := fun _ => true, munmap_ok := true, malloc_ok := true,
    create_ok := fun _ => true }

/-- A call or an outcome in the trace of the invoking context. -/
inductive Event where
  /-- The call `mmap`, with its result. -/
  | mmap (ok : Bool)
  /-- The call `fork`, with its result.  The child, when there is one, runs
  `multiply_chunk` on the rows `[row_start, row_start + chunk)` and exits. -/
  | fork (row_start chunk : Int) (ok : Bool)
  /-- The call `wait(NULL)`: `true` when it returns the pid of a child that has
  terminated, `false` when it returns `-1` because no child is left. -/
  | wait (reaped : Bool)
  /-- The call of `multiply_chunk` by the invoking context itself. -/
  | chunk (row_start chunk : Int)
  /-- The call `memcpy` from the shared region into the caller's buffer. -/
  | memcpy
  /-- The call `munmap`, with its result. -/
  | munmap (ok : Bool)
  /-- The call `malloc`, with its result. -/
  | malloc (ok : Bool)
  /-- The stores to the fields of `arg_set[i]`, with the values stored to
  `row_start` and to `chunk`. -/
  | fill (i row_start chunk : Int)
  /-- The call `pthread_create` for `thread_set[id]`, with its result.  The
  thread, when there is one, runs `task` on `arg_set[id]`. -/
  | create (id : Int) (ok : Bool)
  /-- The call of `task` on `arg_set[id]` by the invoking context itself. -/
  | task (id : Int)
  /-- The call `pthread_join` on `thread_set[id]`. -/
  | join (id : Int)
  /-- The call `free(arg_set)`. -/
  | free
  /-- The function returns to its caller. -/
  | returns
  /-- The calls `perror` and `exit(EXIT_FAILURE)` of a checked wrapper. -/
  | exits
  /-- The last operation has undefined behaviour. -/
  | undefined
  deriving DecidableEq, Repr

/-- A call `fork` or `pthread_create` that has started a worker. -/
def Event.isSpawn : Event → Bool
  | .fork _ _ true => true
  | .create _ true => true
  | _ => false

/-- The loop `while (wait(NULL) > 0);` (line 81) with `live` children that
have not been waited for: each of them is reaped by one call, then a call
finds none left. -/
def wait_loop : Nat → List Event
  | 0 => [Event.wait false]
  | live + 1 => Event.wait true :: wait_loop live

/-- The fork loop (lines 73-80) with `n` iterations left, in iteration `i`:
`fork_checked` ends the process when `fork` fails; `rest` is what the parent
does after the loop, from the value of `row_start` on. -/
def fork_loop (os : Os) (chunk_size : Int) (rest : Int → List Event) :
    Nat → Int → Int → List Event
  | 0, _, row_start => rest row_start
  | n + 1, i, row_start =>
    Event.fork row_start chunk_size (os.fork_ok i) ::
      if os.fork_ok i then fork_loop os chunk_size rest n (i + 1) (row_start + chunk_size)
      else [Event.exits]

/-- The calls of the parent in `multiply_parallel_processes` (lines 68-85).
The children it has when it reaches the wait loop are the `num_procs` it has
forked. -/
def processes_events (os : Os) (dim num_workers : Int) : List Event :=
  Event.mmap os.mmap_ok ::
    if os.mmap_ok then
      let num_procs := num_workers - 1
      match cdiv dim num_workers with
      | none => [Event.undefined]
      | some chunk_size =>
        fork_loop os chunk_size (fun row_start =>
          wait_loop num_procs.toNat
            ++ [Event.chunk row_start (dim - row_start), Event.memcpy,
                Event.munmap os.munmap_ok,
                if os.munmap_ok then Event.returns else Event.exits])
          num_procs.toNat 0 0
    else [Event.exits]

/-- The descriptor loop (lines 99-107) with `n` iterations left, in iteration
`i`. -/
def fill_loop (dim num_workers chunk : Int) : Nat → Int → Int → List Event
  | 0, _, _ => []
  | n + 1, i, row_start =>
    Event.fill i row_start (if i = num_workers - 1 then dim - row_start else chunk)
      :: fill_loop dim num_workers chunk n (i + 1) (row_start + chunk)

/-- The creation loop (lines 109-111) with `n` iterations left: the result of
`pthread_create` is not looked at. -/
def create_loop (os : Os) : Nat → Int → List Event
  | 0, _ => []
  | n + 1, id => Event.create id (os.create_ok id) :: create_loop os n (id + 1)

/-- The join loop (lines 114-116) with `n` iterations left, followed by `rest`.
Where `pthread_create` has failed, `thread_set[i]` is not a thread and
`pthread_join` on it is undefined. -/
def join_loop (os : Os) (rest : List Event) : Nat → Int → List Event
  | 0, _ => rest
  | n + 1, i =>
    Event.join i ::
      if os.create_ok i then join_loop os rest n (i + 1) else [Event.undefined]

/-- The calls of the caller in `multiply_parallel_threads` (lines 93-118), for
`num_workers ≥ 1`.  The result of `malloc` is not looked at; when it is the
null pointer, the first store to `arg_set[0]` is undefined. -/
def threads_events (os : Os) (dim num_workers : Int) : List Event :=
  if num_workers < 1 then [Event.undefined]
  else
    let num_threads := num_workers - 1
    let chunk := Int.tdiv dim num_workers
    Event.malloc os.malloc_ok ::
      if os.malloc_ok then
        fill_loop dim num_workers chunk num_workers.toNat 0 0
          ++ create_loop os num_threads.toNat 0
          ++ Event.task (max 0 num_threads)
          :: join_loop os [Event.free, Event.returns] num_threads.toNat 0
      else (fill_loop dim num_workers chunk num_workers.toNat 0 0).take 1 ++ [Event.undefined]

/-- The rows that a call in the trace of the process strategy hands to a
worker: to a child at a `fork`, to the parent at its own call of
`multiply_chunk`. -/
def Event.rows : Event → Option (Int × Int)
  | .fork r n _ => some (r, n)
  | .chunk r n => some (r, n)
  | _ => none

/-- The rows that the trace of the thread strategy stores in a descriptor. -/
def Event.descriptor : Event → Option (Int × Int)
  | .fill _ r n => some (r, n)
  | _ => none

/-! ## Loads, stores and loops -/

section Lemmas

variable {α : Type}

theorem load_natCast (m : List α) (n : Nat) : load m (n : Int) = m[n]? := by
  simp [load]

theorem load_of_lt (m : List α) (n : Nat) (d : α) (h : n < m.length) :
    load m (n : Int) = some (m.getD n d) := by
  rw [load_natCast, List.getD_eq_getElem?_getD, List.getElem?_eq_getElem h]
  simp

theorem store_natCast (m : List α) (n : Nat) (v : α) (h : n < m.length) :
    store m (n : Int) v = some (m.set n v) := by
  simp [store, h]

theorem forCount_succ {σ : Type} (body : Int → σ → Option σ) (n : Nat) (i : Int) (s : σ) :
    forCount body (n + 1) i s = (body i s).bind (forCount body n (i + 1)) := rfl

/-- A counted loop is a monadic fold over the indices it visits. -/
theorem forCount_eq_foldlM {σ : Type} (body : Int → σ → Option σ) (n k : Nat) (s : σ) :
    forCount body n (k : Int) s = (List.range' k n).foldlM (fun s (k : Nat) => body (k : Int) s) s := by
  induction n generalizing k s with
  | zero => rfl
  | succ n ih =>
    rw [forCount_succ, List.range'_succ, List.foldlM_cons]
    have h : ((k : Int) + 1) = ((k + 1 : Nat) : Int) := by push_cast; rfl
    rw [h]
    simp only [ih]
    rfl

theorem forRange_natCast {σ : Type} (body : Int → σ → Option σ) (lo n : Nat) (s : σ) :
    forRange (lo : Int) ((lo : Int) + n) body s
      = (List.range' lo n).foldlM (fun s (k : Nat) => body (k : Int) s) s := by
  unfold forRange
  have h : ((lo : Int) + n - lo).toNat = n := by simp
  rw [h, forCount_eq_foldlM]

theorem forRange_empty {σ : Type} (body : Int → σ → Option σ) (lo hi : Int) (s : σ)
    (h : hi ≤ lo) : forRange lo hi body s = some s := by
  unfold forRange
  have h0 : (hi - lo).toNat = 0 := by
    apply Int.toNat_eq_zero.mpr; omega
  rw [h0]; rfl

end Lemmas

/-! ## 32-bit `int` within its range

Up to `dim = 46340` no operation of the program leaves the range of a 32-bit
`int`, and the program runs as it does on exact integers; at `dim = 46341` the
index of an element of the last row leaves the range. -/

section Wrap

theorem wrap32_eq (x : Int) (h0 : -2147483648 ≤ x) (h1 : x ≤ 2147483647) : wrap32 x = x := by
  unfold wrap32
  omega

theorem wrap32_ne (x : Int) (h : 2147483648 ≤ x) : wrap32 x ≠ x := by
  unfold wrap32
  omega

theorem sq_le_int32 (dim : Int) (h0 : 0 ≤ dim) (h1 : dim ≤ 46340) :
    dim * dim ≤ 2147395600 := by
  nlinarith

theorem index_le_int32 (dim i k : Int) (h1 : dim ≤ 46340) (hi0 : 0 ≤ i)
    (hi : i < dim) (hk : k < dim) :
    0 ≤ i * dim ∧ i * dim + k < 2147395600 := by
  constructor
  · exact mul_nonneg hi0 (by omega)
  · nlinarith

/-- An index of a `dim × dim` buffer is computed without wraparound when
`dim ≤ 46340`. -/
theorem wrap32_index (dim i k : Int) (h1 : dim ≤ 46340) (hi0 : 0 ≤ i)
    (hi : i < dim) (hk0 : 0 ≤ k) (hk : k < dim) :
    wrap32 (wrap32 (i * dim) + k) = i * dim + k := by
  obtain ⟨g0, g1⟩ := index_le_int32 dim i k h1 hi0 hi hk
  rw [wrap32_eq (i * dim) (by omega) (by omega), wrap32_eq _ (by omega) (by omega)]

/-- A 32-bit loop whose counter stays within the range of `int` runs as the
exact loop does, when the two bodies agree on the visited values. -/
theorem forCount32_eq {σ : Type} (body32 body : Int → σ → Option σ) (n : Nat) (i : Int) (s : σ)
    (hlo : -2147483648 ≤ i) (hhi : i + n ≤ 2147483647)
    (hbody : ∀ i', i ≤ i' → i' < i + n → ∀ s, body32 i' s = body i' s) :
    forCount32 body32 n i s = forCount body n i s := by
  induction n generalizing i s with
  | zero => rfl
  | succ n ih =>
    have hw : wrap32 (i + 1) = i + 1 := wrap32_eq _ (by omega) (by push_cast at hhi; omega)
    show (body32 i s).bind (forCount32 body32 n (wrap32 (i + 1)))
      = (body i s).bind (forCount body n (i + 1))
    rw [hbody i (le_refl i) (by push_cast; omega) s, hw]
    congr 1
    funext s'
    exact ih (i + 1) s' (by omega) (by push_cast at hhi ⊢; omega)
      (fun i' h1 h2 => hbody i' (by omega) (by push_cast at h2 ⊢; omega))

theorem forRange32_eq {σ : Type} (body32 body : Int → σ → Option σ) (lo hi : Int) (s : σ)
    (hlo : -2147483648 ≤ lo) (hlo' : lo ≤ 2147483647) (hhi : hi ≤ 2147483647)
    (hbody : ∀ i', lo ≤ i' → i' < hi → ∀ s, body32 i' s = body i' s) :
    forRange32 lo hi body32 s = forRange lo hi body s := by
  unfold forRange32 forRange
  apply forCount32_eq body32 body _ lo s hlo
  · omega
  · intro i' h1 h2
    exact hbody i' h1 (by omega)

variable {α : Type} [Zero α] [Add α] [Mul α]

theorem dot_loop32_eq (a b : List α) (dim i j : Int) (h1 : dim ≤ 46340)
    (hi0 : 0 ≤ i) (hi : i < dim) (hj0 : 0 ≤ j) (hj : j < dim) :
    dot_loop32 a b dim i j = dot_loop a b dim i j := by
  unfold dot_loop32 dot_loop
  apply forRange32_eq _ _ 0 dim _ (by omega) (by omega) (by omega)
  intro k hk0 hk s
  rw [wrap32_index dim i k h1 hi0 hi hk0 hk, wrap32_index dim k j h1 hk0 hk hj0 hj]

theorem multiply_chunk32_with (a b c : List α) (dim row_start chunk : Int) :
    multiply_chunk32 a b c dim row_start chunk
      = multiply_chunk_with32 store a b c dim row_start chunk := rfl

/-- For `dim ≤ 46340` and `int` arguments that meet the precondition, the loop
nest of `multiply_chunk` on 32-bit `int` runs as it does on exact integers. -/
theorem multiply_chunk_with32_eq {σ : Type} (st : σ → Int → α → Option σ) (a b : List α) (c : σ)
    (dim row_start chunk : Int) (h1 : dim ≤ 46340) (hr : 0 ≤ row_start)
    (hr32 : row_start ≤ 2147483647) (hc32 : -2147483648 ≤ chunk)
    (hrc : row_start + chunk ≤ dim) :
    multiply_chunk_with32 st a b c dim row_start chunk
      = multiply_chunk_with st a b c dim row_start chunk := by
  unfold multiply_chunk_with32 multiply_chunk_with
  rw [wrap32_eq (row_start + chunk) (by omega) (by omega)]
  apply forRange32_eq _ _ row_start (row_start + chunk) _ (by omega) (by omega) (by omega)
  intro i hi0 hi s
  apply forRange32_eq _ _ 0 dim _ (by omega) (by omega) (by omega)
  intro j hj0 hj s'
  rw [dot_loop32_eq a b dim i j h1 (by omega) (by omega) hj0 hj,
    wrap32_index dim i j h1 (by omega) (by omega) hj0 hj]

theorem multiply_chunk_stores32_eq (a b : List α) (dim row_start chunk : Int)
    (h1 : dim ≤ 46340) (hr : 0 ≤ row_start) (hr32 : row_start ≤ 2147483647)
    (hc32 : -2147483648 ≤ chunk) (hrc : row_start + chunk ≤ dim) :
    multiply_chunk_stores32 a b dim row_start chunk
      = multiply_chunk_stores a b dim row_start chunk :=
  multiply_chunk_with32_eq _ a b [] dim row_start chunk h1 hr hr32 hc32 hrc

/-- For `dim ≤ 46340` and `int` arguments that meet the precondition,
`multiply_chunk` on 32-bit `int` runs as it does on exact integers. -/
theorem multiply_chunk32_eq (a b c : List α) (dim row_start chunk : Int)
    (h1 : dim ≤ 46340) (hr : 0 ≤ row_start) (hr32 : row_start ≤ 2147483647)
    (hc32 : -2147483648 ≤ chunk) (hrc : row_start + chunk ≤ dim) :
    multiply_chunk32 a b c dim row_start chunk = multiply_chunk a b c dim row_start chunk :=
  multiply_chunk_with32_eq store a b c dim row_start chunk h1 hr hr32 hc32 hrc

theorem multiply_serial32_eq (a b c : List α) (dim w : Int) (h0 : 0 ≤ dim) (h1 : dim ≤ 46340) :
    multiply_serial32 a b c dim w = multiply_serial a b c dim w :=
  multiply_chunk32_eq a b c dim 0 dim h1 (by omega) (by omega) (by omega) (by omega)

/-- A 32-bit loop does not return when one of its iterations does not. -/
theorem forCount32_none {σ : Type} (body : Int → σ → Option σ) (t : Nat) :
    ∀ (n : Nat) (i : Int) (s : σ), -2147483648 ≤ i → i + t ≤ 2147483647 → t < n →
      (∀ s, body (i + t) s = none) → forCount32 body n i s = none := by
  induction t with
  | zero =>
    intro n i s _ _ ht hb
    obtain ⟨m, rfl⟩ : ∃ m, n = m + 1 := ⟨n - 1, by omega⟩
    have e : i + ((0 : Nat) : Int) = i := by simp
    rw [e] at hb
    show (body i s).bind _ = none
    rw [hb s]
    rfl
  | succ t ih =>
    intro n i s hlo hhi ht hb
    obtain ⟨m, rfl⟩ : ∃ m, n = m + 1 := ⟨n - 1, by omega⟩
    show (body i s).bind (forCount32 body m (wrap32 (i + 1))) = none
    cases body i s with
    | none => rfl
    | some s' =>
      rw [wrap32_eq (i + 1) (by omega) (by push_cast at hhi; omega)]
      have e : i + 1 + (t : Int) = i + ((t + 1 : Nat) : Int) := by push_cast; ring
      exact ih m (i + 1) s' (by omega) (by push_cast at hhi; omega) (by omega)
        (fun s => by rw [e]; exact hb s)

/-- At `dim = 46341` the index `i * dim + k` of row `46340` leaves the range of
`int` at `k = 41708`: the load is outside the buffer. -/
theorem dot_loop32_overflow (a b : List α) (j : Int) :
    dot_loop32 a b 46341 46340 j = none := by
  unfold dot_loop32 forRange32
  apply forCount32_none _ 41708 _ 0 _ (by decide) (by decide) (by decide)
  intro s
  have e : wrap32 (wrap32 (46340 * 46341) + ((0 : Int) + ((41708 : Nat) : Int))) = -2147483648 := by
    decide
  rw [e]
  rfl

/-- At `dim = 46341` a chunk that holds row `46340` does not return. -/
theorem multiply_chunk_with32_overflow {σ : Type} (st : σ → Int → α → Option σ) (a b : List α)
    (c : σ) (row_start chunk : Int) (h0 : 0 ≤ row_start) (h1 : row_start ≤ 46340)
    (h2 : 46340 < row_start + chunk) (h3 : row_start + chunk ≤ 2147483647) :
    multiply_chunk_with32 st a b c 46341 row_start chunk = none := by
  unfold multiply_chunk_with32
  rw [wrap32_eq (row_start + chunk) (by omega) h3]
  unfold forRange32
  have hi : row_start + (((46340 - row_start).toNat : Nat) : Int) = 46340 := by
    rw [Int.toNat_of_nonneg (by omega)]; ring
  apply forCount32_none _ (46340 - row_start).toNat _ row_start c (by omega) (by omega) (by omega)
  intro s
  rw [hi]
  apply forCount32_none _ 0 _ 0 s (by decide) (by decide) (by decide)
  intro s'
  show (dot_loop32 a b 46341 46340 ((0 : Int) + ((0 : Nat) : Int))).bind _ = none
  rw [dot_loop32_overflow]
  rfl

end Wrap

/-! ## The chunk multiplier -/

section Chunk

variable {α : Type} [Zero α] [Add α] [Mul α]

/-- The loop over `k` computes the partial sums of the dot product. -/
theorem dot_fold (a b : List α) (D i j : Nat) (ha : a.length = D * D) (hb : b.length = D * D)
    (hi : i < D) (hj : j < D) (n k : Nat) (hk : k + n ≤ D) :
    (List.range' k n).foldlM (fun sum (k : Nat) => do
        let x ← load a ((i : Int) * (D : Int) + (k : Int))
        let y ← load b ((k : Int) * (D : Int) + (j : Int))
        pure (sum + x * y)) (dot_upto a b D i j k)
      = some (dot_upto a b D i j (k + n)) := by
  induction n generalizing k with
  | zero => rfl
  | succ n ih =>
    have h1 : (i : Int) * (D : Int) + (k : Int) = ((i * D + k : Nat) : Int) := by push_cast; rfl
    have h2 : (k : Int) * (D : Int) + (j : Int) = ((k * D + j : Nat) : Int) := by push_cast; rfl
    have hka : i * D + k < a.length := by
      rw [ha]; nlinarith
    have hkb : k * D + j < b.length := by
      rw [hb]; nlinarith
    rw [List.range'_succ, List.foldlM_cons, h1, h2, load_of_lt a _ 0 hka, load_of_lt b _ 0 hkb]
    have := ih (k + 1) (by omega)
    simp only [dot_upto] at this
    simpa [Nat.add_assoc, Nat.add_comm 1 n] using this

theorem dot_loop_eq (a b : List α) (D i j : Nat) (ha : a.length = D * D)
    (hb : b.length = D * D) (hi : i < D) (hj : j < D) :
    dot_loop a b (D : Int) (i : Int) (j : Int) = some (dot_product a b D i j) := by
  unfold dot_loop
  have h := forRange_natCast (fun k sum => do
      let x ← load a ((i : Int) * (D : Int) + k)
      let y ← load b (k * (D : Int) + (j : Int))
      pure (sum + x * y)) 0 D (0 : α)
  simp only [Nat.cast_zero, zero_add] at h
  rw [h]
  have := dot_fold a b D i j ha hb hi hj D 0 (by omega)
  simpa [dot_product, dot_upto] using this

theorem cell_eq (a b : List α) (D i j : Nat) (hj : j < D) :
    cell a b D (i * D + j) = dot_product a b D i j := by
  have hD : 0 < D := by omega
  have h1 : (i * D + j) / D = i := by
    rw [Nat.add_comm, Nat.add_mul_div_right _ _ hD, Nat.div_eq_of_lt hj, Nat.zero_add]
  have h2 : (i * D + j) % D = j := by
    rw [Nat.add_comm, Nat.add_mul_mod_self_right, Nat.mod_eq_of_lt hj]
  simp [cell, h1, h2]

/-- One row of `multiply_chunk`: the loop over `j` stores the `D` cells of row
`i`, in increasing index order. -/
theorem row_fold {σ : Type} (st : σ → Int → α → Option σ) (a b : List α) (D i : Nat)
    (ha : a.length = D * D) (hb : b.length = D * D) (hi : i < D) (n j : Nat) (hj : j + n ≤ D)
    (c : σ) :
    (List.range' j n).foldlM (fun c (j : Nat) => do
        let sum ← dot_loop a b (D : Int) (i : Int) (j : Int)
        st c ((i : Int) * (D : Int) + (j : Int)) sum) c
      = (List.range' (i * D + j) n).foldlM
          (fun c (idx : Nat) => st c (idx : Int) (cell a b D idx)) c := by
  induction n generalizing j c with
  | zero => rfl
  | succ n ih =>
    have h1 : (i : Int) * (D : Int) + (j : Int) = ((i * D + j : Nat) : Int) := by push_cast; rfl
    rw [List.range'_succ, List.range'_succ, List.foldlM_cons, List.foldlM_cons,
      dot_loop_eq a b D i j ha hb hi (by omega), h1, cell_eq a b D i j (by omega)]
    simp only [Option.some_bind, Option.bind_eq_bind]
    congr 1
    funext c'
    exact ih (j + 1) (by omega) c'

/-- The loop nest of `multiply_chunk` performs the stores to the indices
`row_start * D, ..., (row_start + chunk) * D - 1`, one each and in this order,
with the product entry as the stored value. -/
theorem chunk_fold {σ : Type} (st : σ → Int → α → Option σ) (a b : List α) (D : Nat)
    (ha : a.length = D * D) (hb : b.length = D * D) (n r : Nat) (hr : r + n ≤ D) (c : σ) :
    multiply_chunk_with st a b c (D : Int) (r : Int) (n : Int)
      = (List.range' (r * D) (n * D)).foldlM
          (fun c (idx : Nat) => st c (idx : Int) (cell a b D idx)) c := by
  unfold multiply_chunk_with
  rw [forRange_natCast]
  induction n generalizing r c with
  | zero => simp
  | succ n ih =>
    have hsplit : List.range' (r * D) ((n + 1) * D)
        = List.range' (r * D) D ++ List.range' ((r + 1) * D) (n * D) := by
      have e1 : (r + 1) * D = r * D + D := by ring
      have e2 : (n + 1) * D = n * D + D := by ring
      rw [e1, e2, List.range'_append_1]
    rw [List.range'_succ, List.foldlM_cons, hsplit, List.foldlM_append]
    have hrow : forRange 0 (D : Int) (fun j c => do
          let sum ← dot_loop a b (D : Int) (r : Int) j
          st c ((r : Int) * (D : Int) + j) sum) c
        = (List.range' (r * D) D).foldlM
            (fun c (idx : Nat) => st c (idx : Int) (cell a b D idx)) c := by
      have h := forRange_natCast (fun j c => do
          let sum ← dot_loop a b (D : Int) (r : Int) j
          st c ((r : Int) * (D : Int) + j) sum) 0 D c
      simp only [Nat.cast_zero, zero_add] at h
      rw [h]
      have := row_fold st a b D r ha hb (by omega) D 0 (by omega) c
      simpa using this
    rw [hrow]
    congr 1
    funext c'
    exact ih (r + 1) (by omega) c'

end Chunk

section Chunk

/-- Storing `f idx` at the consecutive indices `s, ..., s + n - 1` of a buffer
that holds them succeeds, and changes exactly those elements. -/
theorem store_fold {α : Type} (f : Nat → α) (n s : Nat) (m : List α) (h : s + n ≤ m.length) :
    ∃ m', (List.range' s n).foldlM (fun m (idx : Nat) => store m (idx : Int) (f idx)) m = some m'
      ∧ m'.length = m.length
      ∧ ∀ idx, m'[idx]? = if s ≤ idx ∧ idx < s + n then some (f idx) else m[idx]? := by
  induction n generalizing s m with
  | zero =>
    refine ⟨m, rfl, rfl, fun idx => ?_⟩
    have : ¬ (s ≤ idx ∧ idx < s + 0) := by omega
    rw [if_neg this]
  | succ n ih =>
    have hs : s < m.length := by omega
    obtain ⟨m', h1, h2, h3⟩ := ih (s + 1) (m.set s (f s)) (by simp; omega)
    refine ⟨m', ?_, by simpa using h2, fun idx => ?_⟩
    · rw [List.range'_succ, List.foldlM_cons, store_natCast m s (f s) hs]
      exact h1
    · rw [h3 idx, List.getElem?_set]
      by_cases e : s = idx
      · subst e
        have h4 : ¬ (s + 1 ≤ s ∧ s < s + 1 + n) := by omega
        have h5 : s ≤ s ∧ s < s + (n + 1) := by omega
        simp [h4, h5, hs]
      · by_cases g : s + 1 ≤ idx ∧ idx < s + 1 + n
        · have h5 : s ≤ idx ∧ idx < s + (n + 1) := by omega
          simp [g, h5]
        · have h5 : ¬ (s ≤ idx ∧ idx < s + (n + 1)) := by omega
          simp [g, h5, e]

/-- Recording the consecutive indices `s, ..., s + n - 1` appends them to the
log in this order. -/
theorem log_fold {α : Type} (f : Nat → α) (n s : Nat) (log : List Int) :
    (List.range' s n).foldlM
        (fun (log : List Int) (idx : Nat) => (fun (_ : α) => some (log ++ [(idx : Int)])) (f idx))
        log
      = some (log ++ (List.range' s n).map (fun (idx : Nat) => (idx : Int))) := by
  induction n generalizing s log with
  | zero => simp
  | succ n ih =>
    rw [List.range'_succ, List.foldlM_cons]
    simp only [Option.some_bind, Option.bind_eq_bind]
    rw [ih]
    simp

variable {α : Type} [Zero α] [Add α] [Mul α]

/-- The result of `multiply_chunk` on in-range rows: the rows of the chunk hold
the product, every other element is as before. -/
theorem multiply_chunk_nat (a b c0 : List α) (D r n : Nat) (ha : a.length = D * D)
    (hb : b.length = D * D) (hc : c0.length = D * D) (hr : r + n ≤ D) :
    ∃ c', multiply_chunk a b c0 (D : Int) (r : Int) (n : Int) = some c'
      ∧ c'.length = c0.length
      ∧ ∀ idx, c'[idx]? =
          if r * D ≤ idx ∧ idx < (r + n) * D then some (cell a b D idx) else c0[idx]? := by
  unfold multiply_chunk
  rw [chunk_fold store a b D ha hb n r hr c0]
  have hlen : r * D + n * D ≤ c0.length := by
    rw [hc, ← Nat.add_mul]
    exact Nat.mul_le_mul_right D hr
  obtain ⟨c', h1, h2, h3⟩ := store_fold (cell a b D) (n * D) (r * D) c0 hlen
  refine ⟨c', h1, h2, fun idx => ?_⟩
  rw [h3 idx, Nat.add_mul]

/-- The stores of `multiply_chunk` on in-range rows go to the indices
`r * D, ..., (r + n) * D - 1`, in this order. -/
theorem multiply_chunk_stores_nat (a b : List α) (D r n : Nat) (ha : a.length = D * D)
    (hb : b.length = D * D) (hr : r + n ≤ D) :
    multiply_chunk_stores a b (D : Int) (r : Int) (n : Int)
      = some ((List.range' (r * D) (n * D)).map (fun (idx : Nat) => (idx : Int))) := by
  unfold multiply_chunk_stores
  rw [chunk_fold _ a b D ha hb n r hr []]
  have := log_fold (cell a b D) (n * D) (r * D) []
  simpa using this

/-- C3, as the code has it. For `D ≤ 46340` and `int` values `row_start` and
`chunk` with `0 ≤ row_start` and `row_start + chunk ≤ D`, on `D × D` buffers
`multiply_chunk`, run with 32-bit `int`, returns, and afterwards every
`C[i*D + j]` with `i` in `[row_start, row_start + chunk)` and `j` in `[0, D)`
holds the sum over `k = 0 .. D-1` of `A[i*D + k] * B[k*D + j]`, accumulated from
`0` in increasing `k`; the function stores to each such element exactly once. -/
theorem multiply_chunk_computes_rows (a b c : List α) (dim row_start chunk : Int)
    (hD32 : dim ≤ 46340)
    (ha : (a.length : Int) = dim * dim) (hb : (b.length : Int) = dim * dim)
    (hc : (c.length : Int) = dim * dim)
    (h0 : 0 ≤ row_start) (h1 : row_start + chunk ≤ dim)
    (hr32 : row_start ≤ 2147483647) (hc32 : -2147483648 ≤ chunk) :
    ∃ c' log, multiply_chunk32 a b c dim row_start chunk = some c'
      ∧ multiply_chunk_stores32 a b dim row_start chunk = some log
      ∧ ∀ i j : Int, row_start ≤ i → i < row_start + chunk → 0 ≤ j → j < dim →
          load c' (i * dim + j) = some (dot_product a b dim.toNat i.toNat j.toNat)
          ∧ log.count (i * dim + j) = 1 := by
  rw [multiply_chunk32_eq a b c dim row_start chunk hD32 h0 hr32 hc32 h1,
    multiply_chunk_stores32_eq a b dim row_start chunk hD32 h0 hr32 hc32 h1]
  by_cases hch : chunk ≤ 0
  · refine ⟨c, [], ?_, ?_, ?_⟩
    · exact forRange_empty _ _ _ _ (by omega)
    · exact forRange_empty _ _ _ _ (by omega)
    · intro i j hi hi' _ _
      omega
  · lift row_start to ℕ using h0 with r
    lift chunk to ℕ using (by omega) with n
    lift dim to ℕ using (by omega) with D
    have ha' : a.length = D * D := by exact_mod_cast ha
    have hb' : b.length = D * D := by exact_mod_cast hb
    have hc' : c.length = D * D := by exact_mod_cast hc
    have hr : r + n ≤ D := by exact_mod_cast h1
    obtain ⟨c', e1, e2, e3⟩ := multiply_chunk_nat a b c D r n ha' hb' hc' hr
    refine ⟨c', _, e1, multiply_chunk_stores_nat a b D r n ha' hb' hr, ?_⟩
    intro i j hi hi' hj hj'
    lift i to ℕ using (by omega) with i'
    lift j to ℕ using hj with j'
    have hi1 : r ≤ i' := by exact_mod_cast hi
    have hi2 : i' < r + n := by exact_mod_cast hi'
    have hj2 : j' < D := by exact_mod_cast hj'
    have hidx : (i' : Int) * (D : Int) + (j' : Int) = ((i' * D + j' : Nat) : Int) := by
      push_cast; rfl
    have hlo : r * D ≤ i' * D + j' := by
      have := Nat.mul_le_mul_right D hi1
      omega
    have hhi : i' * D + j' < (r + n) * D := by
      have := Nat.mul_le_mul_right D (Nat.succ_le_of_lt hi2)
      rw [Nat.succ_mul] at this
      omega
    rw [hidx]
    constructor
    · rw [load_natCast, e3, if_pos ⟨hlo, hhi⟩, cell_eq a b D i' j' hj2]
      simp
    · apply List.count_eq_one_of_mem
      · exact (List.nodup_range' _ _).map (fun x y h => by exact_mod_cast h)
      · apply List.mem_map_of_mem
        rw [List.mem_range'_1]
        constructor
        · exact hlo
        · rw [← Nat.add_mul]; exact hhi

/-- Witness for C3: rows `[1, 3)` of a `3 × 3` product. -/
theorem multiply_chunk_computes_rows_witness :
    ∃ c' log, multiply_chunk32 (List.replicate 9 (1 : F64)) (List.replicate 9 2)
        (List.replicate 9 0) 3 1 2 = some c'
      ∧ multiply_chunk_stores32 (List.replicate 9 (1 : F64)) (List.replicate 9 2) 3 1 2 = some log
      ∧ ∀ i j : Int, 1 ≤ i → i < 1 + 2 → 0 ≤ j → j < 3 →
          load c' (i * 3 + j)
            = some (dot_product (List.replicate 9 (1 : F64)) (List.replicate 9 2)
                (3 : Int).toNat i.toNat j.toNat)
          ∧ log.count (i * 3 + j) = 1 :=
  multiply_chunk_computes_rows (List.replicate 9 (1 : F64)) (List.replicate 9 2)
    (List.replicate 9 0) 3 1 2 (by decide) (by decide) (by decide) (by decide) (by decide)
    (by decide) (by decide) (by decide)

/-- C3 fails from `D = 46341` on.  The rows `[46340, 46341)` of a matrix of
dimension `46341` meet the precondition; for `i = 46340` and `k = 41708` the
index `i * dim + k` is `2147483648`, which a 32-bit `int` holds as
`-2147483648`, and the load `a[i * dim + k]` is outside the buffer:
`multiply_chunk` does not return on the `46341 × 46341` matrices of ones, nor on
any other buffers. -/
theorem multiply_chunk_computes_rows_overflow :
    ((0 : Int) ≤ 46340 ∧ (46340 : Int) + 1 ≤ 46341)
      ∧ (46340 : Int) * 46341 + 41708 = 2147483648
      ∧ wrap32 (wrap32 (46340 * 46341) + 41708) = -2147483648
      ∧ multiply_chunk32 (constant_matrix 46341 (1 : F64)) (constant_matrix 46341 1)
          (constant_matrix 46341 0) 46341 46340 1 = none
      ∧ ∀ a b c : List F64, multiply_chunk32 a b c 46341 46340 1 = none := by
  have h : ∀ a b c : List F64, multiply_chunk32 a b c 46341 46340 1 = none :=
    fun a b c => multiply_chunk_with32_overflow store a b c 46340 1 (by decide) (by decide)
      (by decide) (by decide)
  exact ⟨by decide, by decide, by decide, h _ _ _, h⟩

end Chunk

/-! ## The row partition -/

section Partition

theorem cdiv_natCast (D W : Nat) (hW : 1 ≤ W) :
    cdiv (D : Int) (W : Int) = some ((D / W : Nat) : Int) := by
  have h : (W : Int) ≠ 0 := by omega
  unfold cdiv
  rw [if_neg h, Int.ofNat_tdiv]

theorem foldlM_option_congr {σ β : Type} (f g : σ → β → Option σ) (l : List β)
    (h : ∀ x ∈ l, ∀ s, f s x = g s x) (s : σ) : l.foldlM f s = l.foldlM g s := by
  induction l generalizing s with
  | nil => rfl
  | cons x xs ih =>
    rw [List.foldlM_cons, List.foldlM_cons, h x (List.mem_cons_self _ _) s]
    congr 1
    funext s'
    exact ih (fun y hy => h y (List.mem_cons_of_mem _ hy)) s'

/-- The fork loop of `processes_with` carries `row_start = i * chunk_size`. -/
theorem fork_fold {σ : Type} (run : σ → Int → Int → Option σ) (ch : Int) (n k : Nat) (s : σ) :
    (List.range' k n).foldlM (fun (st : σ × Int) (_ : Nat) =>
        (run st.1 st.2 ch).bind (fun s => some (s, st.2 + ch))) (s, (k : Int) * ch)
      = ((List.range' k n).foldlM (fun s (i : Nat) => run s ((i : Int) * ch) ch) s).bind
          (fun s => some (s, ((k + n : Nat) : Int) * ch)) := by
  induction n generalizing k s with
  | zero => simp
  | succ n ih =>
    rw [List.range'_succ, List.foldlM_cons, List.foldlM_cons]
    cases hrun : run s ((k : Int) * ch) ch with
    | none => simp [hrun]
    | some s' =>
      have e : (k : Int) * ch + ch = ((k + 1 : Nat) : Int) * ch := by push_cast; ring
      simp only [hrun, Option.some_bind, Option.bind_eq_bind, e]
      rw [ih (k + 1) s']
      have e2 : k + 1 + n = k + (n + 1) := by omega
      rw [e2]

/-- The skeleton of `multiply_parallel_processes` runs the workers
`0 .. W-2` on `(i * (D / W), D / W)` and then the last worker on the rest. -/
theorem processes_with_eq {σ : Type} (run : σ → Int → Int → Option σ) (D W : Nat)
    (hW : 1 ≤ W) (s : σ) :
    processes_with run (D : Int) (W : Int) s
      = ((List.range' 0 (W - 1)).foldlM
            (fun s (i : Nat) => run s ((i : Int) * ((D / W : Nat) : Int)) ((D / W : Nat) : Int)) s).bind
          (fun s => run s (((W - 1 : Nat) : Int) * ((D / W : Nat) : Int))
            ((D : Int) - ((W - 1 : Nat) : Int) * ((D / W : Nat) : Int))) := by
  unfold processes_with
  have hW1 : (W : Int) - 1 = (0 : Nat) + ((W - 1 : Nat) : Int) := by
    push_cast [Nat.cast_sub hW]; ring
  have h0 : (0 : Int) = ((0 : Nat) : Int) := rfl
  rw [cdiv_natCast D W hW, hW1]
  simp only [Option.some_bind, Option.bind_eq_bind]
  rw [h0, forRange_natCast]
  have := fork_fold run ((D / W : Nat) : Int) (W - 1) 0 s
  simp only [Nat.cast_zero, zero_mul, Nat.zero_add] at this
  simp only [Nat.cast_zero, Option.pure_def, Option.bind_eq_bind]
  rw [this]
  cases (List.range' 0 (W - 1)).foldlM
      (fun s (i : Nat) => run s ((i : Int) * ((D / W : Nat) : Int)) ((D / W : Nat) : Int)) s with
  | none => rfl
  | some s' => rfl

/-- The descriptor loop of `multiply_parallel_threads` carries
`row_start = i * chunk` and appends one descriptor per iteration. -/
theorem args_fold {α : Type} (a b : List α) (D W ch : Int) (n k : Nat) (l : List (Args α)) :
    (List.range' k n).foldlM (fun (st : List (Args α) × Int) (i : Nat) =>
        some (st.1 ++ [{ a := a, b := b, dim := D, row_start := st.2,
                         chunk := if (i : Int) = W - 1 then D - st.2 else ch }],
              st.2 + ch)) (l, (k : Int) * ch)
      = some (l ++ (List.range' k n).map (fun (i : Nat) =>
            ({ a := a, b := b, dim := D, row_start := (i : Int) * ch,
               chunk := if (i : Int) = W - 1 then D - (i : Int) * ch else ch } : Args α)),
          ((k + n : Nat) : Int) * ch) := by
  induction n generalizing k l with
  | zero => simp
  | succ n ih =>
    have e : (k : Int) * ch + ch = ((k + 1 : Nat) : Int) * ch := by push_cast; ring
    rw [List.range'_succ, List.foldlM_cons]
    simp only [Option.some_bind, Option.bind_eq_bind, e]
    rw [ih (k + 1)]
    have e2 : k + 1 + n = k + (n + 1) := by omega
    simp [e2]

/-- The array `arg_set` that `multiply_parallel_threads` builds. -/
theorem thread_args_eq {α : Type} (a b : List α) (D W : Nat) (hW : 1 ≤ W) :
    thread_args a b (D : Int) (W : Int)
      = some ((List.range W).map (fun (i : Nat) =>
          ({ a := a, b := b, dim := (D : Int), row_start := (i : Int) * ((D / W : Nat) : Int),
             chunk := if (i : Int) = (W : Int) - 1
               then (D : Int) - (i : Int) * ((D / W : Nat) : Int)
               else ((D / W : Nat) : Int) } : Args α))) := by
  unfold thread_args
  have h0 : (0 : Int) = ((0 : Nat) : Int) := rfl
  have hW1 : (W : Int) = ((0 : Nat) : Int) + (W : Int) := by simp
  rw [cdiv_natCast D W hW]
  simp only [Option.some_bind, Option.bind_eq_bind]
  rw [h0]
  conv_lhs => arg 1; rw [hW1, forRange_natCast]
  have := args_fold a b (D : Int) (W : Int) ((D / W : Nat) : Int) W 0 []
  simp only [Nat.cast_zero, zero_mul, Nat.zero_add, List.nil_append, zero_add] at this ⊢
  rw [this, List.range_eq_range']
  rfl

/-- The rows before the last worker: `(W - 1) * (D / W)` rows, fewer than `D`
when `D ≥ 1`. -/
theorem last_start_lt (D W : Nat) (hD : 1 ≤ D) (hW : 1 ≤ W) : (W - 1) * (D / W) < D := by
  obtain ⟨V, rfl⟩ : ∃ V, W = V + 1 := ⟨W - 1, by omega⟩
  have h1 : (V + 1) * (D / (V + 1)) ≤ D := Nat.mul_div_le D (V + 1)
  have h2 : (V + 1) * (D / (V + 1)) = V * (D / (V + 1)) + D / (V + 1) := by ring
  simp only [Nat.add_sub_cancel]
  rcases Nat.eq_zero_or_pos (D / (V + 1)) with h0 | h0
  · rw [h0]; omega
  · omega

/-- The skeleton of the strategies calls its workers on ranges within
`[0, D]` only. -/
theorem processes_with_congr {σ : Type} (run1 run2 : σ → Int → Int → Option σ) (D W : Nat)
    (hW : 1 ≤ W)
    (h : ∀ (s : σ) (r n : Int), 0 ≤ r → 0 ≤ n → r + n ≤ (D : Int) → run1 s r n = run2 s r n)
    (s : σ) :
    processes_with run1 (D : Int) (W : Int) s = processes_with run2 (D : Int) (W : Int) s := by
  rw [processes_with_eq run1 D W hW s, processes_with_eq run2 D W hW s]
  have hmul : W * (D / W) ≤ D := Nat.mul_div_le D W
  have hfold : (List.range' 0 (W - 1)).foldlM
        (fun s (i : Nat) => run1 s ((i : Int) * ((D / W : Nat) : Int)) ((D / W : Nat) : Int)) s
      = (List.range' 0 (W - 1)).foldlM
        (fun s (i : Nat) => run2 s ((i : Int) * ((D / W : Nat) : Int)) ((D / W : Nat) : Int)) s := by
    apply foldlM_option_congr
    intro i hi s'
    rw [List.mem_range'_1] at hi
    apply h
    · exact_mod_cast Nat.zero_le _
    · exact_mod_cast Nat.zero_le _
    · have h1 : (i + 1) * (D / W) ≤ W * (D / W) := Nat.mul_le_mul_right _ (by omega)
      have h2 : (i + 1) * (D / W) = i * (D / W) + D / W := by ring
      have h3 : i * (D / W) + D / W ≤ D := by omega
      exact_mod_cast h3
  rw [hfold]
  congr 1
  funext s'
  have h1 : (W - 1) * (D / W) ≤ W * (D / W) := Nat.mul_le_mul_right _ (by omega)
  have h2 : (W - 1) * (D / W) ≤ D := by omega
  have h3 : (((W - 1 : Nat) : Int) * ((D / W : Nat) : Int)) = (((W - 1) * (D / W) : Nat) : Int) := by
    push_cast; rfl
  apply h
  · rw [h3]; exact_mod_cast Nat.zero_le _
  · rw [h3]; omega
  · omega

/-- A strategy does not return when its last worker does not. -/
theorem processes_with_last_none {σ : Type} (run : σ → Int → Int → Option σ) (D W : Nat)
    (hW : 1 ≤ W)
    (h : ∀ s : σ, run s (((W - 1 : Nat) : Int) * ((D / W : Nat) : Int))
      ((D : Int) - ((W - 1 : Nat) : Int) * ((D / W : Nat) : Int)) = none)
    (s : σ) :
    processes_with run (D : Int) (W : Int) s = none := by
  rw [processes_with_eq run D W hW s]
  cases (List.range' 0 (W - 1)).foldlM
      (fun s (i : Nat) => run s ((i : Int) * ((D / W : Nat) : Int)) ((D / W : Nat) : Int)) s with
  | none => rfl
  | some s' => exact h s'

variable {α : Type} [Zero α] [Add α] [Mul α]

/-- Both parallel strategies run the same sequence of chunk multiplications:
`multiply_parallel_threads` is the skeleton of `multiply_parallel_processes`
applied to the caller's buffer. -/
theorem threads_eq_processes_with (a b c : List α) (D W : Nat) (hW : 1 ≤ W) :
    multiply_parallel_threads a b c (D : Int) (W : Int)
      = processes_with (fun sh r n => multiply_chunk a b sh (D : Int) r n) (D : Int) (W : Int) c := by
  rw [processes_with_eq _ D W hW c]
  unfold multiply_parallel_threads
  rw [thread_args_eq a b D W hW]
  have hW1 : (W : Int) - 1 = (0 : Nat) + ((W - 1 : Nat) : Int) := by
    push_cast [Nat.cast_sub hW]; ring
  have hmax : max 0 ((W : Int) - 1) = ((W - 1 : Nat) : Int) := by
    rw [max_eq_right (by omega)]; push_cast [Nat.cast_sub hW]; ring
  have h0 : (0 : Int) = ((0 : Nat) : Int) := rfl
  simp only [Option.some_bind, Option.bind_eq_bind, hmax]
  rw [hW1, h0, forRange_natCast]
  have hlast : load ((List.range W).map (fun (i : Nat) =>
          ({ a := a, b := b, dim := (D : Int), row_start := (i : Int) * ((D / W : Nat) : Int),
             chunk := if (i : Int) = ((0 : Nat) : Int) + ((W - 1 : Nat) : Int)
               then (D : Int) - (i : Int) * ((D / W : Nat) : Int)
               else ((D / W : Nat) : Int) } : Args α))) ((W - 1 : Nat) : Int)
      = some { a := a, b := b, dim := (D : Int),
               row_start := ((W - 1 : Nat) : Int) * ((D / W : Nat) : Int),
               chunk := (D : Int) - ((W - 1 : Nat) : Int) * ((D / W : Nat) : Int) } := by
    rw [load_natCast, List.getElem?_map, List.getElem?_range (by omega)]
    simp
  rw [hlast]
  simp only [Option.some_bind, task]
  congr 1
  apply foldlM_option_congr
  intro i hi s
  rw [List.mem_range'_1] at hi
  have hne : ¬ ((i : Int) = ((0 : Nat) : Int) + ((W - 1 : Nat) : Int)) := by
    push_cast; omega
  rw [load_natCast, List.getElem?_map, List.getElem?_range (by omega)]
  simp only [Option.map_some', Option.some_bind, if_neg hne]

/-- On 32-bit `int` too, `multiply_parallel_threads` is the skeleton of
`multiply_parallel_processes` applied to the caller's buffer. -/
theorem threads32_eq_processes_with (a b c : List α) (D W : Nat) (hW : 1 ≤ W) :
    multiply_parallel_threads32 a b c (D : Int) (W : Int)
      = processes_with (fun sh r n => multiply_chunk32 a b sh (D : Int) r n) (D : Int) (W : Int) c := by
  rw [processes_with_eq _ D W hW c]
  unfold multiply_parallel_threads32
  rw [thread_args_eq a b D W hW]
  have hW1 : (W : Int) - 1 = (0 : Nat) + ((W - 1 : Nat) : Int) := by
    push_cast [Nat.cast_sub hW]; ring
  have hmax : max 0 ((W : Int) - 1) = ((W - 1 : Nat) : Int) := by
    rw [max_eq_right (by omega)]; push_cast [Nat.cast_sub hW]; ring
  have h0 : (0 : Int) = ((0 : Nat) : Int) := rfl
  simp only [Option.some_bind, Option.bind_eq_bind, hmax]
  rw [hW1, h0, forRange_natCast]
  have hlast : load ((List.range W).map (fun (i : Nat) =>
          ({ a := a, b := b, dim := (D : Int), row_start := (i : Int) * ((D / W : Nat) : Int),
             chunk := if (i : Int) = ((0 : Nat) : Int) + ((W - 1 : Nat) : Int)
               then (D : Int) - (i : Int) * ((D / W : Nat) : Int)
               else ((D / W : Nat) : Int) } : Args α))) ((W - 1 : Nat) : Int)
      = some { a := a, b := b, dim := (D : Int),
               row_start := ((W - 1 : Nat) : Int) * ((D / W : Nat) : Int),
               chunk := (D : Int) - ((W - 1 : Nat) : Int) * ((D / W : Nat) : Int) } := by
    rw [load_natCast, List.getElem?_map, List.getElem?_range (by omega)]
    simp
  rw [hlast]
  simp only [Option.some_bind, task32]
  refine congrArg (fun x => Option.bind x _) ?_
  apply foldlM_option_congr
  intro i hi s
  rw [List.mem_range'_1] at hi
  have hne : ¬ ((i : Int) = ((0 : Nat) : Int) + ((W - 1 : Nat) : Int)) := by
    push_cast; omega
  rw [load_natCast, List.getElem?_map, List.getElem?_range (by omega)]
  show multiply_chunk32 a b s (D : Int) ((i : Int) * ((D / W : Nat) : Int))
      (if (i : Int) = ((0 : Nat) : Int) + ((W - 1 : Nat) : Int)
        then (D : Int) - (i : Int) * ((D / W : Nat) : Int) else ((D / W : Nat) : Int)) = _
  rw [if_neg hne]

/-- For `D ≤ 46340` the thread strategy on 32-bit `int` runs as it does on
exact integers. -/
theorem multiply_parallel_threads32_eq (a b c : List α) (D W : Nat) (hD : D ≤ 46340)
    (hW : 1 ≤ W) :
    multiply_parallel_threads32 a b c (D : Int) (W : Int)
      = multiply_parallel_threads a b c (D : Int) (W : Int) := by
  rw [threads32_eq_processes_with a b c D W hW, threads_eq_processes_with a b c D W hW]
  apply processes_with_congr _ _ D W hW
  intro s r n hr hn hrn
  exact multiply_chunk32_eq a b s (D : Int) r n (by omega) hr (by omega) (by omega) hrn

/-- For `D ≤ 46340` the process strategy on 32-bit `int` runs as it does on
exact integers. -/
theorem multiply_parallel_processes32_eq (a b c : List α) (D W : Nat) (hD : D ≤ 46340)
    (hW : 1 ≤ W) :
    multiply_parallel_processes32 a b c (D : Int) (W : Int)
      = multiply_parallel_processes a b c (D : Int) (W : Int) := by
  have hsq : wrap32 ((D : Int) * (D : Int)) = (D : Int) * (D : Int) := by
    have h := sq_le_int32 (D : Int) (by omega) (by omega)
    have h0 : 0 ≤ (D : Int) * (D : Int) := mul_nonneg (by omega) (by omega)
    exact wrap32_eq _ (by omega) (by omega)
  have hrun : ∀ sh : List α,
      processes_with (fun sh r n => multiply_chunk32 a b sh (D : Int) r n) (D : Int) (W : Int) sh
        = processes_with (fun sh r n => multiply_chunk a b sh (D : Int) r n) (D : Int) (W : Int) sh := by
    intro sh
    apply processes_with_congr _ _ D W hW
    intro s r n hr hn hrn
    exact multiply_chunk32_eq a b s (D : Int) r n (by omega) hr (by omega) (by omega) hrn
  unfold multiply_parallel_processes32 multiply_parallel_processes
  rw [hsq]
  simp only [hrun]

/-- At `dim = 46341` the last worker of a strategy has row `46340`, and does
not return. -/
theorem strategy32_overflow (a b c : List α) (W : Nat) (hW : 1 ≤ W) :
    processes_with (fun sh r n => multiply_chunk32 a b sh 46341 r n) 46341 (W : Int) c = none := by
  have h := processes_with_last_none (fun sh r n => multiply_chunk32 a b sh 46341 r n) 46341 W hW
  simp only [Nat.cast_ofNat] at h
  apply h
  intro s
  have hlt := last_start_lt 46341 W (by decide) hW
  have e : (((W - 1 : Nat) : Int) * ((46341 / W : Nat) : Int))
      = (((W - 1) * (46341 / W) : Nat) : Int) := by push_cast; rfl
  rw [multiply_chunk32_with]
  apply multiply_chunk_with32_overflow
  · rw [e]; exact_mod_cast Nat.zero_le _
  · rw [e]; omega
  · omega
  · omega

end Partition

/-! ## The three strategies compute the product -/

section Strategies

variable {α : Type} [Zero α] [Add α] [Mul α]

/-- A chunk that starts where the filled rows end extends the filled rows. -/
theorem chunk_extends (a b c0 c1 : List α) (D h n : Nat) (ha : a.length = D * D)
    (hb : b.length = D * D) (hc1 : c1.length = D * D) (hn : h + n ≤ D)
    (hfill : ∀ idx, c1[idx]? = if idx < h * D then some (cell a b D idx) else c0[idx]?) :
    ∃ c2, multiply_chunk a b c1 (D : Int) (h : Int) (n : Int) = some c2
      ∧ c2.length = D * D
      ∧ ∀ idx, c2[idx]? = if idx < (h + n) * D then some (cell a b D idx) else c0[idx]? := by
  obtain ⟨c2, e1, e2, e3⟩ := multiply_chunk_nat a b c1 D h n ha hb hc1 hn
  refine ⟨c2, e1, by rw [e2, hc1], fun idx => ?_⟩
  rw [e3 idx, hfill idx]
  have hle : h * D ≤ (h + n) * D := Nat.mul_le_mul_right D (by omega)
  by_cases g1 : idx < h * D
  · have g2 : idx < (h + n) * D := by omega
    have g3 : ¬ (h * D ≤ idx ∧ idx < (h + n) * D) := by omega
    rw [if_neg g3, if_pos g1, if_pos g2]
  · by_cases g2 : idx < (h + n) * D
    · have g3 : h * D ≤ idx ∧ idx < (h + n) * D := by omega
      rw [if_pos g3, if_pos g2]
    · have g3 : ¬ (h * D ≤ idx ∧ idx < (h + n) * D) := by omega
      rw [if_neg g3, if_neg g1, if_neg g2]

/-- Workers `k, ..., k + m - 1`, each on `ch` rows, extend the filled rows from
`k * ch` to `(k + m) * ch`. -/
theorem workers_fold (a b c0 : List α) (D ch : Nat) (ha : a.length = D * D)
    (hb : b.length = D * D) (m k : Nat) (c1 : List α) (hc1 : c1.length = D * D)
    (hm : (k + m) * ch ≤ D)
    (hfill : ∀ idx, c1[idx]? = if idx < k * ch * D then some (cell a b D idx) else c0[idx]?) :
    ∃ c2, (List.range' k m).foldlM
          (fun sh (i : Nat) => multiply_chunk a b sh (D : Int) ((i : Int) * (ch : Int)) (ch : Int)) c1
        = some c2
      ∧ c2.length = D * D
      ∧ ∀ idx, c2[idx]? =
          if idx < (k + m) * ch * D then some (cell a b D idx) else c0[idx]? := by
  induction m generalizing k c1 with
  | zero => exact ⟨c1, rfl, hc1, by simpa using hfill⟩
  | succ m ih =>
    have hk : k * ch + ch ≤ D := by
      have : (k + 1) * ch ≤ (k + (m + 1)) * ch := Nat.mul_le_mul_right ch (by omega)
      rw [Nat.add_mul, Nat.one_mul] at this
      omega
    obtain ⟨c2, e1, e2, e3⟩ := chunk_extends a b c0 c1 D (k * ch) ch ha hb hc1 hk hfill
    have e3' : ∀ idx, c2[idx]? =
        if idx < (k + 1) * ch * D then some (cell a b D idx) else c0[idx]? := by
      intro idx
      rw [e3 idx, Nat.add_mul k 1 ch, Nat.one_mul]
    obtain ⟨c3, f1, f2, f3⟩ := ih (k + 1) c2 e2 (by rw [Nat.add_assoc, Nat.add_comm 1 m]; exact hm) e3'
    refine ⟨c3, ?_, f2, ?_⟩
    · have hcast : (k : Int) * (ch : Int) = ((k * ch : Nat) : Int) := by push_cast; rfl
      rw [List.range'_succ, List.foldlM_cons, hcast, e1]
      exact f1
    · intro idx
      rw [f3 idx, Nat.add_assoc, Nat.add_comm 1 m]

/-- A buffer whose `D * D` elements are all filled is the product. -/
theorem filled_eq_product (a b c0 c1 : List α) (D : Nat) (hc0 : c0.length = D * D)
    (hfill : ∀ idx, c1[idx]? = if idx < D * D then some (cell a b D idx) else c0[idx]?) :
    c1 = matrix_product a b D := by
  apply List.ext_getElem?
  intro idx
  rw [hfill idx]
  unfold matrix_product
  rw [List.getElem?_map]
  by_cases g : idx < D * D
  · rw [if_pos g, List.getElem?_range g]; rfl
  · rw [if_neg g, List.getElem?_eq_none (by omega), List.getElem?_eq_none (by simp; omega)]
    rfl

/-- Run on a `D × D` buffer with `W ≥ 1` workers, the partitioning skeleton
with the chunk multiplier as worker returns the product. -/
theorem workers_compute_product (a b c0 : List α) (D W : Nat) (hW : 1 ≤ W)
    (ha : a.length = D * D) (hb : b.length = D * D) (hc0 : c0.length = D * D) :
    processes_with (fun sh r n => multiply_chunk a b sh (D : Int) r n) (D : Int) (W : Int) c0
      = some (matrix_product a b D) := by
  rw [processes_with_eq _ D W hW c0]
  have hle : (W - 1) * (D / W) ≤ D := by
    calc (W - 1) * (D / W) ≤ W * (D / W) := Nat.mul_le_mul_right _ (by omega)
      _ ≤ D := Nat.mul_div_le D W
  obtain ⟨c1, e1, e2, e3⟩ := workers_fold a b c0 D (D / W) ha hb (W - 1) 0 c0 hc0
    (by simpa using hle) (by intro idx; simp)
  rw [e1]
  simp only [Option.some_bind, Nat.zero_add] at e3 ⊢
  have hn : (W - 1) * (D / W) + (D - (W - 1) * (D / W)) ≤ D := by omega
  obtain ⟨c2, f1, _, f3⟩ := chunk_extends a b c0 c1 D ((W - 1) * (D / W))
    (D - (W - 1) * (D / W)) ha hb e2 hn e3
  have hcast1 : ((W - 1 : Nat) : Int) * ((D / W : Nat) : Int)
      = (((W - 1) * (D / W) : Nat) : Int) := by push_cast; rfl
  have hcast2 : (D : Int) - (((W - 1) * (D / W) : Nat) : Int)
      = ((D - (W - 1) * (D / W) : Nat) : Int) := by
    rw [Nat.cast_sub hle]
  rw [hcast1, hcast2, f1]
  have hD : (W - 1) * (D / W) + (D - (W - 1) * (D / W)) = D := by omega
  rw [hD] at f3
  rw [filled_eq_product a b c0 c2 D hc0 f3]

theorem matrix_product_length (a b : List α) (D : Nat) :
    (matrix_product a b D).length = D * D := by
  simp [matrix_product]

theorem load_matrix_product (a b : List α) (D i j : Nat) (hi : i < D) (hj : j < D) :
    load (matrix_product a b D) ((i : Int) * (D : Int) + (j : Int))
      = some (dot_product a b D i j) := by
  have hidx : (i : Int) * (D : Int) + (j : Int) = ((i * D + j : Nat) : Int) := by
    push_cast; rfl
  have hlt : i * D + j < D * D := by
    have := Nat.mul_le_mul_right D (Nat.succ_le_of_lt hi)
    rw [Nat.succ_mul] at this
    omega
  rw [hidx, load_natCast]
  unfold matrix_product
  rw [List.getElem?_map, List.getElem?_range hlt]
  simp [cell_eq a b D i j hj]

theorem serial_eq_product (a b c : List α) (D : Nat) (w : Int) (ha : a.length = D * D)
    (hb : b.length = D * D) (hc : c.length = D * D) :
    multiply_serial a b c (D : Int) w = some (matrix_product a b D) := by
  unfold multiply_serial
  obtain ⟨c2, e1, _, e3⟩ := chunk_extends a b c c D 0 D ha hb hc (by omega)
    (by intro idx; simp)
  rw [Nat.zero_add] at e3
  have h0 : (0 : Int) = ((0 : Nat) : Int) := rfl
  rw [h0, e1, filled_eq_product a b c c2 D hc e3]

theorem threads_eq_product (a b c : List α) (D W : Nat) (hW : 1 ≤ W) (ha : a.length = D * D)
    (hb : b.length = D * D) (hc : c.length = D * D) :
    multiply_parallel_threads a b c (D : Int) (W : Int) = some (matrix_product a b D) := by
  rw [threads_eq_processes_with a b c D W hW, workers_compute_product a b c D W hW ha hb hc]

theorem processes_eq_product (a b c : List α) (D W : Nat) (hD : 1 ≤ D) (hW : 1 ≤ W)
    (ha : a.length = D * D) (hb : b.length = D * D) (hc : c.length = D * D) :
    multiply_parallel_processes a b c (D : Int) (W : Int) = some (matrix_product a b D) := by
  unfold multiply_parallel_processes mmap_checked
  have hsz : ((D : Int) * (D : Int)).toNat = D * D := by
    have : (D : Int) * (D : Int) = ((D * D : Nat) : Int) := by push_cast; rfl
    rw [this, Int.toNat_ofNat]
  have hpos : ¬ ((D : Int) * (D : Int) ≤ 0) := by
    have : (0 : Int) < (D : Int) * (D : Int) := mul_pos (by omega) (by omega)
    omega
  rw [hsz, if_neg hpos]
  simp only [Option.bind_eq_bind, Option.some_bind]
  rw [workers_compute_product a b _ D W hW ha hb (by simp)]
  simp only [Option.some_bind]
  unfold memcpy
  have hn : ¬ ((D : Int) * (D : Int) < 0) := by omega
  rw [if_neg hn, hsz, if_pos ⟨by rw [matrix_product_length], by rw [hc]⟩]
  rw [List.take_of_length_le (by rw [matrix_product_length]),
    List.drop_of_length_le (by rw [hc]), List.append_nil]

/-- C1, as the code has it. For `1 ≤ D ≤ 46340`, `W ≥ 1` and `D × D` buffers,
`multiply_parallel_threads` with `W` workers and `multiply_serial`, run with
32-bit `int`, return the same output buffer, whatever the output buffer held
before; each element `(i, j)` of it is the sum of `A[i*D + k] * B[k*D + j]`
accumulated from `0` in the order `k = 0 .. D-1`. -/
theorem threads_eq_serial (a b c : List α) (dim num_workers : Int)
    (hD : 1 ≤ dim) (hD32 : dim ≤ 46340) (hW : 1 ≤ num_workers)
    (ha : (a.length : Int) = dim * dim) (hb : (b.length : Int) = dim * dim)
    (hc : (c.length : Int) = dim * dim) :
    ∃ out, multiply_parallel_threads32 a b c dim num_workers = some out
      ∧ multiply_serial32 a b c dim 1 = some out
      ∧ ∀ i j : Int, 0 ≤ i → i < dim → 0 ≤ j → j < dim →
          load out (i * dim + j) = some (dot_product a b dim.toNat i.toNat j.toNat) := by
  lift dim to ℕ using (by omega) with D
  lift num_workers to ℕ using (by omega) with W
  have ha' : a.length = D * D := by exact_mod_cast ha
  have hb' : b.length = D * D := by exact_mod_cast hb
  have hc' : c.length = D * D := by exact_mod_cast hc
  have hW' : 1 ≤ W := by exact_mod_cast hW
  rw [multiply_parallel_threads32_eq a b c D W (by exact_mod_cast hD32) hW',
    multiply_serial32_eq a b c (D : Int) 1 (by omega) hD32]
  refine ⟨matrix_product a b D, threads_eq_product a b c D W hW' ha' hb' hc',
    serial_eq_product a b c D 1 ha' hb' hc', ?_⟩
  intro i j hi hi' hj hj'
  lift i to ℕ using hi with i'
  lift j to ℕ using hj with j'
  rw [load_matrix_product a b D i' j' (by exact_mod_cast hi') (by exact_mod_cast hj')]
  simp

/-- Witness for C1: a `2 × 2` product on three workers. -/
theorem threads_eq_serial_witness :
    ∃ out, multiply_parallel_threads32 ([1, 2, 3, 4] : List F64) [5, 6, 7, 8] [0, 0, 0, 0] 2 3
        = some out
      ∧ multiply_serial32 ([1, 2, 3, 4] : List F64) [5, 6, 7, 8] [0, 0, 0, 0] 2 1 = some out
      ∧ ∀ i j : Int, 0 ≤ i → i < 2 → 0 ≤ j → j < 2 →
          load out (i * 2 + j)
            = some (dot_product ([1, 2, 3, 4] : List F64) [5, 6, 7, 8] (2 : Int).toNat
                i.toNat j.toNat) :=
  threads_eq_serial ([1, 2, 3, 4] : List F64) [5, 6, 7, 8] [0, 0, 0, 0] 2 3
    (by decide) (by decide) (by decide) (by decide) (by decide) (by decide)

/-- C1 fails from `D = 46341` on.  With `W = 4` workers the ranges are
`[0, 11585)`, `[11585, 23170)`, `[23170, 34755)` and `[34755, 46341)`; the last
of them holds row `46340`, whose index `i * dim + k` leaves the range of a
32-bit `int` at `k = 41708`.  The load is outside the buffer: neither
`multiply_parallel_threads` nor `multiply_serial` returns a buffer, on the
`46341 × 46341` matrices of ones or on any other buffers. -/
theorem threads_eq_serial_overflow :
    process_ranges 46341 4 = some [(0, 11585), (11585, 11585), (23170, 11585), (34755, 11586)]
      ∧ multiply_parallel_threads32 (constant_matrix 46341 (1 : F64)) (constant_matrix 46341 1)
          (constant_matrix 46341 0) 46341 4 = none
      ∧ multiply_serial32 (constant_matrix 46341 (1 : F64)) (constant_matrix 46341 1)
          (constant_matrix 46341 0) 46341 1 = none
      ∧ ∀ a b c : List F64, multiply_parallel_threads32 a b c 46341 4 = none
          ∧ multiply_serial32 a b c 46341 1 = none := by
  have h : ∀ a b c : List F64, multiply_parallel_threads32 a b c 46341 4 = none
      ∧ multiply_serial32 a b c 46341 1 = none := by
    intro a b c
    constructor
    · have h := threads32_eq_processes_with a b c 46341 4 (by decide)
      have g := strategy32_overflow a b c 4 (by decide)
      simp only [Nat.cast_ofNat] at h g
      rw [h, g]
    · exact multiply_chunk_with32_overflow store a b c 0 46341 (by decide) (by decide)
        (by decide) (by decide)
  exact ⟨by decide, (h _ _ _).1, (h _ _ _).2, h⟩

/-- C2, as the code has it. For `1 ≤ D ≤ 46340`, `W ≥ 1` and `D × D` buffers,
the buffer that `multiply_parallel_processes`, run with 32-bit `int`, leaves in
`C` (the zero-filled shared region, written by the `W - 1` children and then by
the parent, copied into `C`) is the buffer that `multiply_serial` leaves in
`C`, whatever `C` held before; it is the matrix product `A * B`. -/
theorem processes_eq_serial (a b c : List α) (dim num_workers : Int)
    (hD : 1 ≤ dim) (hD32 : dim ≤ 46340) (hW : 1 ≤ num_workers)
    (ha : (a.length : Int) = dim * dim) (hb : (b.length : Int) = dim * dim)
    (hc : (c.length : Int) = dim * dim) :
    ∃ out, multiply_parallel_processes32 a b c dim num_workers = some out
      ∧ multiply_serial32 a b c dim 1 = some out
      ∧ out = matrix_product a b dim.toNat := by
  lift dim to ℕ using (by omega) with D
  lift num_workers to ℕ using (by omega) with W
  have ha' : a.length = D * D := by exact_mod_cast ha
  have hb' : b.length = D * D := by exact_mod_cast hb
  have hc' : c.length = D * D := by exact_mod_cast hc
  have hW' : 1 ≤ W := by exact_mod_cast hW
  rw [multiply_parallel_processes32_eq a b c D W (by exact_mod_cast hD32) hW',
    multiply_serial32_eq a b c (D : Int) 1 (by omega) hD32]
  exact ⟨matrix_product a b D,
    processes_eq_product a b c D W (by exact_mod_cast hD) hW' ha' hb' hc',
    serial_eq_product a b c D 1 ha' hb' hc', by rw [Int.toNat_ofNat]⟩

/-- Witness for C2: a `2 × 2` product on three workers, into a buffer that
holds other values. -/
theorem processes_eq_serial_witness :
    ∃ out, multiply_parallel_processes32 ([1, 2, 3, 4] : List F64) [5, 6, 7, 8] [9, 9, 9, 9] 2 3
        = some out
      ∧ multiply_serial32 ([1, 2, 3, 4] : List F64) [5, 6, 7, 8] [9, 9, 9, 9] 2 1 = some out
      ∧ out = matrix_product ([1, 2, 3, 4] : List F64) [5, 6, 7, 8] (2 : Int).toNat :=
  processes_eq_serial ([1, 2, 3, 4] : List F64) [5, 6, 7, 8] [9, 9, 9, 9] 2 3
    (by decide) (by decide) (by decide) (by decide) (by decide) (by decide)

/-- C2 fails from `D = 46341` on.  The product `46341 * 46341` is
`2147488281`, which a 32-bit `int` holds as `-2147479015`; as a `size_t` this
is a length that `mmap` refuses, and `mmap_checked` ends the process:
`multiply_parallel_processes` leaves no result in `C`, on the `46341 × 46341`
matrices of ones with `W = 4` or on any other buffers with any `W`. -/
theorem processes_eq_serial_overflow :
    (46341 : Int) * 46341 = 2147488281
      ∧ wrap32 (46341 * 46341) = -2147479015
      ∧ (mmap_checked (wrap32 (46341 * 46341)) : Option (List F64)) = none
      ∧ multiply_parallel_processes32 (constant_matrix 46341 (1 : F64)) (constant_matrix 46341 1)
          (constant_matrix 46341 0) 46341 4 = none
      ∧ ∀ (a b c : List F64) (W : Int), multiply_parallel_processes32 a b c 46341 W = none := by
  have h : ∀ (a b c : List F64) (W : Int), multiply_parallel_processes32 a b c 46341 W = none := by
    intro a b c W
    have h : (mmap_checked (wrap32 (46341 * 46341)) : Option (List F64)) = none := by decide
    unfold multiply_parallel_processes32
    rw [h]
    rfl
  exact ⟨by decide, by decide, by decide, h _ _ _ 4, h⟩

end Strategies

/-! ## The ranges handed to the workers -/

section Ranges

theorem ranges_fold (ch : Int) (n k : Nat) (log : List (Int × Int)) :
    (List.range' k n).foldlM
        (fun (log : List (Int × Int)) (i : Nat) => some (log ++ [((i : Int) * ch, ch)])) log
      = some (log ++ (List.range' k n).map (fun (i : Nat) => ((i : Int) * ch, ch))) := by
  induction n generalizing k log with
  | zero => simp
  | succ n ih =>
    rw [List.range'_succ, List.foldlM_cons]
    simp only [Option.some_bind, Option.bind_eq_bind]
    rw [ih]
    simp

/-- The ranges of `multiply_parallel_processes` are those of the data model. -/
theorem process_ranges_eq (D W : Nat) (hW : 1 ≤ W) :
    process_ranges (D : Int) (W : Int) = some (row_ranges D W) := by
  unfold process_ranges
  rw [processes_with_eq _ D W hW [], ranges_fold]
  simp only [Option.some_bind, List.nil_append, row_ranges, List.range_eq_range']
  rw [mul_comm ((D / W : Nat) : Int)]

/-- The ranges in the descriptors of `multiply_parallel_threads` are those of
the data model. -/
theorem thread_ranges_eq {α : Type} (a b : List α) (D W : Nat) (hW : 1 ≤ W) :
    (thread_args a b (D : Int) (W : Int)).map (List.map (fun x => (x.row_start, x.chunk)))
      = some (row_ranges D W) := by
  rw [thread_args_eq a b D W hW]
  simp only [Option.map_some', List.map_map, row_ranges]
  congr 1
  obtain ⟨V, rfl⟩ : ∃ V, W = V + 1 := ⟨W - 1, by omega⟩
  rw [List.range_succ, List.map_append]
  simp only [Nat.add_sub_cancel, List.map_cons, List.map_nil, Function.comp]
  congr 1
  · apply List.map_congr_left
    intro i hi
    rw [List.mem_range] at hi
    have : i ≠ V := by omega
    simp [this]
  · have : ((V : Int) = ((V + 1 : Nat) : Int) - 1) := by push_cast; omega
    rw [if_pos this, mul_comm ((D / (V + 1) : Nat) : Int)]

theorem row_ranges_length (D W : Nat) (hW : 1 ≤ W) : (row_ranges D W).length = W := by
  simp [row_ranges]; omega

theorem row_ranges_get_lt (D W w : Nat) (hw : w < W - 1) :
    (row_ranges D W)[w]? = some ((w : Int) * ((D / W : Nat) : Int), ((D / W : Nat) : Int)) := by
  unfold row_ranges
  rw [List.getElem?_append_left (by simpa using hw), List.getElem?_map, List.getElem?_range hw]
  rfl

theorem row_ranges_get_last (D W : Nat) :
    (row_ranges D W)[W - 1]? = some (((W - 1 : Nat) : Int) * ((D / W : Nat) : Int),
      (D : Int) - ((D / W : Nat) : Int) * ((W - 1 : Nat) : Int)) := by
  unfold row_ranges
  rw [List.getElem?_append_right (by simp)]
  simp

variable {α : Type} [Zero α] [Add α] [Mul α]

end Ranges

section Ranges

/-- C5. For `D ≥ 1` and `W ≥ 1`, with `base_chunk = D / W`, both parallel
strategies give worker `i` of `0 .. W-2` the `base_chunk` rows from
`i * base_chunk` on, that is `[i * base_chunk, (i+1) * base_chunk)`, and give the
last worker the `D - base_chunk * (W-1)` rows from `(W-1) * base_chunk` on, that
is `[(W-1) * base_chunk, D)`; the last worker has at least `base_chunk` rows.
For `D = 4`, `W = 3` the ranges are `[0,1)`, `[1,2)`, `[2,4)`. -/
theorem ranges_shape {α : Type} (a b : List α) (dim num_workers : Int)
    (hD : 1 ≤ dim) (hW : 1 ≤ num_workers) :
    ∃ ranges : List (Int × Int), process_ranges dim num_workers = some ranges
      ∧ (thread_args a b dim num_workers).map (List.map (fun x => (x.row_start, x.chunk)))
          = some ranges
      ∧ (ranges.length : Int) = num_workers
      ∧ (∀ i : Int, 0 ≤ i → i < num_workers - 1 →
          load ranges i = some (i * Int.tdiv dim num_workers, Int.tdiv dim num_workers))
      ∧ load ranges (num_workers - 1)
          = some ((num_workers - 1) * Int.tdiv dim num_workers,
                  dim - Int.tdiv dim num_workers * (num_workers - 1))
      ∧ Int.tdiv dim num_workers ≤ dim - Int.tdiv dim num_workers * (num_workers - 1)
      ∧ process_ranges 4 3 = some [(0, 1), (1, 1), (2, 2)]
      ∧ (thread_args a b 4 3).map (List.map (fun x => (x.row_start, x.chunk)))
          = some [(0, 1), (1, 1), (2, 2)] := by
  lift dim to ℕ using (by omega) with D
  lift num_workers to ℕ using (by omega) with W
  have hW' : 1 ≤ W := by exact_mod_cast hW
  have hdiv : Int.tdiv (D : Int) (W : Int) = ((D / W : Nat) : Int) := (Int.ofNat_tdiv D W).symm
  have hW1 : (W : Int) - 1 = ((W - 1 : Nat) : Int) := by
    push_cast [Nat.cast_sub hW']; ring
  rw [hdiv, hW1]
  refine ⟨row_ranges D W, process_ranges_eq D W hW', thread_ranges_eq a b D W hW',
    by rw [row_ranges_length D W hW'], ?_, ?_, ?_, ?_, ?_⟩
  · intro i hi hi'
    lift i to ℕ using hi with i'
    rw [load_natCast, row_ranges_get_lt D W i' (by exact_mod_cast hi')]
  · rw [load_natCast, row_ranges_get_last]
  · have h1 : W * (D / W) ≤ D := Nat.mul_div_le D W
    have h2 : (D / W) * (W - 1) + D / W = W * (D / W) := by
      obtain ⟨V, rfl⟩ : ∃ V, W = V + 1 := ⟨W - 1, by omega⟩
      simp only [Nat.add_sub_cancel]; ring
    have h3 : (((D / W) * (W - 1) + D / W : Nat) : Int) ≤ (D : Int) := by
      rw [h2]; exact_mod_cast h1
    push_cast at h3
    omega
  · exact process_ranges_eq 4 3 (by decide)
  · exact thread_ranges_eq a b 4 3 (by decide)

/-- Witness for C5: `D = 5` rows on `W = 2` workers. -/
theorem ranges_shape_witness :
    ∃ ranges : List (Int × Int), process_ranges 5 2 = some ranges
      ∧ (thread_args ([] : List F64) [] 5 2).map (List.map (fun x => (x.row_start, x.chunk)))
          = some ranges
      ∧ (ranges.length : Int) = 2
      ∧ (∀ i : Int, 0 ≤ i → i < 2 - 1 →
          load ranges i = some (i * Int.tdiv 5 2, Int.tdiv 5 2))
      ∧ load ranges (2 - 1) = some ((2 - 1) * Int.tdiv 5 2, 5 - Int.tdiv 5 2 * (2 - 1))
      ∧ Int.tdiv 5 2 ≤ 5 - Int.tdiv 5 2 * (2 - 1)
      ∧ process_ranges 4 3 = some [(0, 1), (1, 1), (2, 2)]
      ∧ (thread_args ([] : List F64) [] 4 3).map (List.map (fun x => (x.row_start, x.chunk)))
          = some [(0, 1), (1, 1), (2, 2)] :=
  ranges_shape ([] : List F64) [] 5 2 (by decide) (by decide)

variable {α : Type} [Zero α] [Add α] [Mul α]

end Ranges

/-! ## The verifier -/

section Verify

variable {α : Type} [BEq α]

theorem verify_loop_succ (m1 m2 : List α) (n : Nat) (i : Int) :
    verify_loop m1 m2 (n + 1) i
      = (load m1 i).bind (fun x => (load m2 i).bind (fun y =>
          if x != y then some FAILURE else verify_loop m1 m2 n (i + 1))) := rfl

/-- The loop of `verify` on 32-bit `int` runs as the exact loop does while its
counter stays within the range of `int`. -/
theorem verify_loop32_eq (m1 m2 : List α) (n : Nat) (i : Int)
    (hlo : -2147483648 ≤ i) (hhi : i + n ≤ 2147483647) :
    verify_loop32 m1 m2 n i = verify_loop m1 m2 n i := by
  induction n generalizing i with
  | zero => rfl
  | succ n ih =>
    have hw : wrap32 (i + 1) = i + 1 := wrap32_eq _ (by omega) (by push_cast at hhi; omega)
    rw [verify_loop_succ]
    show (load m1 i).bind (fun x => (load m2 i).bind (fun y =>
        if x != y then some FAILURE else verify_loop32 m1 m2 n (wrap32 (i + 1)))) = _
    rw [hw, ih (i + 1) (by omega) (by push_cast at hhi ⊢; omega)]

/-- For `0 ≤ dim ≤ 46340`, `verify` on 32-bit `int` runs as it does on exact
integers. -/
theorem verify32_eq (m1 m2 : List α) (dim : Int) (h0 : 0 ≤ dim) (h1 : dim ≤ 46340) :
    verify32 m1 m2 dim = verify m1 m2 dim := by
  have hsq := sq_le_int32 dim h0 h1
  have hsq0 : 0 ≤ dim * dim := mul_nonneg h0 h0
  unfold verify32 verify
  rw [wrap32_eq _ (by omega) (by omega)]
  apply verify_loop32_eq
  · omega
  · omega

/-- The early-exit scan of `n` elements from index `k` on answers `FAILURE`
when two corresponding elements compare unequal, and `SUCCESS` when none do. -/
theorem verify_loop_spec (m1 m2 : List α) (n k : Nat) (h1 : k + n ≤ m1.length)
    (h2 : k + n ≤ m2.length) :
    (verify_loop m1 m2 n (k : Int) = some FAILURE
        ∧ ∃ idx x y, k ≤ idx ∧ idx < k + n ∧ m1[idx]? = some x ∧ m2[idx]? = some y
            ∧ (x != y) = true)
      ∨ (verify_loop m1 m2 n (k : Int) = some SUCCESS
        ∧ ¬ ∃ idx x y, k ≤ idx ∧ idx < k + n ∧ m1[idx]? = some x ∧ m2[idx]? = some y
            ∧ (x != y) = true) := by
  induction n generalizing k with
  | zero =>
    right
    refine ⟨rfl, ?_⟩
    rintro ⟨idx, x, y, g1, g2, _⟩
    omega
  | succ n ih =>
    have hk1 : k < m1.length := by omega
    have hk2 : k < m2.length := by omega
    have e1 : m1[k]? = some m1[k] := List.getElem?_eq_getElem hk1
    have e2 : m2[k]? = some m2[k] := List.getElem?_eq_getElem hk2
    rw [verify_loop_succ, load_natCast, load_natCast, e1, e2]
    simp only [Option.some_bind]
    by_cases hne : (m1[k] != m2[k]) = true
    · left
      rw [if_pos hne]
      exact ⟨rfl, k, m1[k], m2[k], le_refl k, by omega, e1, e2, hne⟩
    · rw [if_neg hne]
      have hcast : (k : Int) + 1 = ((k + 1 : Nat) : Int) := by push_cast; rfl
      rw [hcast]
      rcases ih (k + 1) (by omega) (by omega) with ⟨g, idx, x, y, g1, g2, g3⟩ | ⟨g, gno⟩
      · left
        exact ⟨g, idx, x, y, by omega, by omega, g3⟩
      · right
        refine ⟨g, ?_⟩
        rintro ⟨idx, x, y, g1, g2, g3, g4, g5⟩
        by_cases hidx : idx = k
        · subst hidx
          rw [e1] at g3
          rw [e2] at g4
          injection g3 with g3
          injection g4 with g4
          rw [← g3, ← g4] at g5
          exact hne g5
        · exact gno ⟨idx, x, y, by omega, by omega, g3, g4, g5⟩

/-- The full scan of `n` elements from index `k` on answers `FAILURE` when two
corresponding elements compare unequal, and keeps its answer when none do. -/
theorem full_scan_spec (m1 m2 : List α) (n k : Nat) (res : Int) (h1 : k + n ≤ m1.length)
    (h2 : k + n ≤ m2.length) :
    (forCount (fun i res => (load m1 i).bind (fun x => (load m2 i).bind (fun y =>
          some (if x != y then FAILURE else res)))) n (k : Int) res = some FAILURE
        ∧ ∃ idx x y, k ≤ idx ∧ idx < k + n ∧ m1[idx]? = some x ∧ m2[idx]? = some y
            ∧ (x != y) = true)
      ∨ (forCount (fun i res => (load m1 i).bind (fun x => (load m2 i).bind (fun y =>
          some (if x != y then FAILURE else res)))) n (k : Int) res = some res
        ∧ ¬ ∃ idx x y, k ≤ idx ∧ idx < k + n ∧ m1[idx]? = some x ∧ m2[idx]? = some y
            ∧ (x != y) = true) := by
  induction n generalizing k res with
  | zero =>
    right
    refine ⟨rfl, ?_⟩
    rintro ⟨idx, x, y, g1, g2, _⟩
    omega
  | succ n ih =>
    have hk1 : k < m1.length := by omega
    have hk2 : k < m2.length := by omega
    have e1 : m1[k]? = some m1[k] := List.getElem?_eq_getElem hk1
    have e2 : m2[k]? = some m2[k] := List.getElem?_eq_getElem hk2
    have hcast : (k : Int) + 1 = ((k + 1 : Nat) : Int) := by push_cast; rfl
    rw [forCount_succ, load_natCast, load_natCast, e1, e2, hcast]
    simp only [Option.some_bind]
    by_cases hne : (m1[k] != m2[k]) = true
    · left
      rw [if_pos hne]
      refine ⟨?_, k, m1[k], m2[k], le_refl k, by omega, e1, e2, hne⟩
      rcases ih (k + 1) FAILURE (by omega) (by omega) with ⟨g, _⟩ | ⟨g, _⟩
      · exact g
      · exact g
    · rw [if_neg hne]
      rcases ih (k + 1) res (by omega) (by omega) with ⟨g, idx, x, y, g1, g2, g3⟩ | ⟨g, gno⟩
      · left
        exact ⟨g, idx, x, y, by omega, by omega, g3⟩
      · right
        refine ⟨g, ?_⟩
        rintro ⟨idx, x, y, g1, g2, g3, g4, g5⟩
        by_cases hidx : idx = k
        · subst hidx
          rw [e1] at g3
          rw [e2] at g4
          injection g3 with g3
          injection g4 with g4
          rw [← g3, ← g4] at g5
          exact hne g5
        · exact gno ⟨idx, x, y, by omega, by omega, g3, g4, g5⟩

/-- On two buffers of `dim * dim` elements `verify` answers `FAILURE` or
`SUCCESS` according to whether some pair of corresponding elements compares
unequal, and the full scan gives the same answer. -/
theorem verify_cases (m1 m2 : List α) (dim : Int) (h1 : (m1.length : Int) = dim * dim)
    (h2 : (m2.length : Int) = dim * dim) :
    ((verify m1 m2 dim = some FAILURE ∧ verify_full_scan m1 m2 dim = some FAILURE)
        ∧ ∃ (idx : Int) (x y : α), 0 ≤ idx ∧ idx < dim * dim ∧ load m1 idx = some x
            ∧ load m2 idx = some y ∧ (x != y) = true)
      ∨ ((verify m1 m2 dim = some SUCCESS ∧ verify_full_scan m1 m2 dim = some SUCCESS)
        ∧ ¬ ∃ (idx : Int) (x y : α), 0 ≤ idx ∧ idx < dim * dim ∧ load m1 idx = some x
            ∧ load m2 idx = some y ∧ (x != y) = true) := by
  have hn : (dim * dim - 0).toNat = m1.length := by
    rw [sub_zero, ← h1, Int.toNat_ofNat]
  have hlen : m2.length = m1.length := by
    have : (m2.length : Int) = (m1.length : Int) := by rw [h1, h2]
    exact_mod_cast this
  have hfull : verify_full_scan m1 m2 dim
      = forCount (fun i res => (load m1 i).bind (fun x => (load m2 i).bind (fun y =>
          some (if x != y then FAILURE else res)))) m1.length ((0 : Nat) : Int) SUCCESS := by
    unfold verify_full_scan forRange
    rw [hn]
    rfl
  have hver : verify m1 m2 dim = verify_loop m1 m2 m1.length ((0 : Nat) : Int) := by
    unfold verify
    rw [hn]
    rfl
  have hiff : (∃ (idx : Int) (x y : α), 0 ≤ idx ∧ idx < dim * dim ∧ load m1 idx = some x
        ∧ load m2 idx = some y ∧ (x != y) = true)
      ↔ ∃ (idx : Nat) (x y : α), 0 ≤ idx ∧ idx < 0 + m1.length ∧ m1[idx]? = some x
        ∧ m2[idx]? = some y ∧ (x != y) = true := by
    constructor
    · rintro ⟨idx, x, y, g1, g2, g3, g4, g5⟩
      lift idx to ℕ using g1 with i
      rw [load_natCast] at g3 g4
      rw [← h1] at g2
      exact ⟨i, x, y, Nat.zero_le i, by rw [Nat.zero_add]; exact_mod_cast g2, g3, g4, g5⟩
    · rintro ⟨i, x, y, _, g2, g3, g4, g5⟩
      rw [Nat.zero_add] at g2
      refine ⟨(i : Int), x, y, by omega, by rw [← h1]; exact_mod_cast g2, ?_, ?_, g5⟩
      · rw [load_natCast]; exact g3
      · rw [load_natCast]; exact g4
  rw [hiff, hfull, hver]
  rcases verify_loop_spec m1 m2 m1.length 0 (by omega) (by omega) with ⟨g, gm⟩ | ⟨g, gm⟩
  · left
    refine ⟨⟨g, ?_⟩, gm⟩
    rcases full_scan_spec m1 m2 m1.length 0 SUCCESS (by omega) (by omega) with ⟨f, _⟩ | ⟨_, fm⟩
    · exact f
    · exact absurd gm fm
  · right
    refine ⟨⟨g, ?_⟩, gm⟩
    rcases full_scan_spec m1 m2 m1.length 0 SUCCESS (by omega) (by omega) with ⟨_, fm⟩ | ⟨f, _⟩
    · exact absurd fm gm
    · exact f

theorem success_ne_failure : (some SUCCESS : Option Int) ≠ some FAILURE := by decide

/-- C8, as the code has it. For `0 ≤ D ≤ 46340`, in particular for
`1 ≤ D ≤ 46340`, and all `D × D` matrices `M1` and `M2`, `verify(M1, M2, D)`, run
with 32-bit `int`, returns `FAILURE` when, for at least one of the `D * D`
indices, the two elements compare unequal under `!=`, and returns `SUCCESS`
otherwise; a scan that runs over all `D * D` elements gives the same result as
the scan that stops at the first mismatch. -/
theorem verify_detects_mismatch (m1 m2 : List α) (dim : Int)
    (hD : 0 ≤ dim) (hD32 : dim ≤ 46340)
    (h1 : (m1.length : Int) = dim * dim) (h2 : (m2.length : Int) = dim * dim) :
    (verify32 m1 m2 dim = some FAILURE
        ↔ ∃ (idx : Int) (x y : α), 0 ≤ idx ∧ idx < dim * dim ∧ load m1 idx = some x
            ∧ load m2 idx = some y ∧ (x != y) = true)
      ∧ (verify32 m1 m2 dim = some SUCCESS
        ↔ ¬ ∃ (idx : Int) (x y : α), 0 ≤ idx ∧ idx < dim * dim ∧ load m1 idx = some x
            ∧ load m2 idx = some y ∧ (x != y) = true)
      ∧ verify_full_scan m1 m2 dim = verify32 m1 m2 dim := by
  rw [verify32_eq m1 m2 dim hD hD32]
  rcases verify_cases m1 m2 dim h1 h2 with ⟨⟨g, f⟩, gm⟩ | ⟨⟨g, f⟩, gm⟩
  · refine ⟨⟨fun _ => gm, fun _ => g⟩, ⟨fun h => ?_, fun h => absurd gm h⟩, by rw [g, f]⟩
    rw [g] at h
    exact absurd h.symm success_ne_failure
  · refine ⟨⟨fun h => ?_, fun h => absurd h gm⟩, ⟨fun _ => gm, fun _ => g⟩, by rw [g, f]⟩
    rw [g] at h
    exact absurd h success_ne_failure

/-- Witness for C8: two `2 × 2` matrices that differ in their last element. -/
theorem verify_detects_mismatch_witness :
    (verify32 ([1, 2, 3, 4] : List F64) [1, 2, 3, 5] 2 = some FAILURE
        ↔ ∃ (idx : Int) (x y : F64), 0 ≤ idx ∧ idx < 2 * 2
            ∧ load ([1, 2, 3, 4] : List F64) idx = some x
            ∧ load ([1, 2, 3, 5] : List F64) idx = some y ∧ (x != y) = true)
      ∧ (verify32 ([1, 2, 3, 4] : List F64) [1, 2, 3, 5] 2 = some SUCCESS
        ↔ ¬ ∃ (idx : Int) (x y : F64), 0 ≤ idx ∧ idx < 2 * 2
            ∧ load ([1, 2, 3, 4] : List F64) idx = some x
            ∧ load ([1, 2, 3, 5] : List F64) idx = some y ∧ (x != y) = true)
      ∧ verify_full_scan ([1, 2, 3, 4] : List F64) [1, 2, 3, 5] 2
          = verify32 ([1, 2, 3, 4] : List F64) [1, 2, 3, 5] 2 :=
  verify_detects_mismatch ([1, 2, 3, 4] : List F64) [1, 2, 3, 5] 2 (by decide) (by decide)
    (by decide) (by decide)

/-- C8 fails in two ways.  When "differ" means "are not the same value": a
matrix that holds a NaN differs from itself in no element and `verify` returns
`FAILURE`, and the matrices `[0.0]` and `[-0.0]` differ and `verify` returns
`SUCCESS`.  And from `D = 46341` on: the loop bound `46341 * 46341` is
`-2147479015` as a 32-bit `int`, the loop does not run, and `verify` returns
`SUCCESS` for any two matrices, also for the `46341 × 46341` matrix of ones and
that of twos, which differ in every element. -/
theorem verify_differ_nan_zero :
    (verify32 ([1, F64.nan, 3, 4] : List F64) [1, F64.nan, 3, 4] 2 = some FAILURE
        ∧ ¬ ∃ (idx : Int) (x y : F64), load ([1, F64.nan, 3, 4] : List F64) idx = some x
            ∧ load ([1, F64.nan, 3, 4] : List F64) idx = some y ∧ x ≠ y)
      ∧ (verify32 ([⟨false, 0, 0⟩] : List F64) [⟨true, 0, 0⟩] 1 = some SUCCESS
        ∧ (⟨false, 0, 0⟩ : F64) ≠ ⟨true, 0, 0⟩)
      ∧ wrap32 (46341 * 46341) = -2147479015
      ∧ (verify32 (constant_matrix 46341 (1 : F64)) (constant_matrix 46341 2) 46341 = some SUCCESS
        ∧ (1 : F64) ≠ 2)
      ∧ (∀ m1 m2 : List F64, verify32 m1 m2 46341 = some SUCCESS) := by
  have h : ∀ m1 m2 : List F64, verify32 m1 m2 46341 = some SUCCESS := by
    intro m1 m2
    have h : (wrap32 (46341 * 46341) - 0).toNat = 0 := by decide
    unfold verify32
    rw [h]
    rfl
  refine ⟨⟨by decide, ?_⟩, ⟨by decide, by decide⟩, by decide, ⟨h _ _, by decide⟩, h⟩
  rintro ⟨idx, x, y, hx, hy, hne⟩
  rw [hx] at hy
  injection hy with hy
  exact hne hy

/-- C7, as the code has it. For every dimension `D` and every `D × D` matrix
`M` each of whose elements compares equal to itself, as every `double` other
than a NaN does, `verify(M, M, D)` returns `SUCCESS`. -/
theorem verify_self (m : List α) (dim : Int) (h : (m.length : Int) = dim * dim)
    (hrefl : ∀ x ∈ m, (x == x) = true) :
    verify m m dim = some SUCCESS := by
  rcases verify_cases m m dim h h with ⟨_, idx, x, y, g1, _, g3, g4, g5⟩ | ⟨⟨g, _⟩, _⟩
  · exfalso
    lift idx to ℕ using g1 with i
    rw [load_natCast] at g3 g4
    rw [g3] at g4
    injection g4 with g4
    subst g4
    have hx : x ∈ m := List.getElem?_mem g3
    have := hrefl x hx
    simp [bne, this] at g5
  · exact g

/-- Witness for C7: a `2 × 2` matrix of finite values. -/
theorem verify_self_witness :
    verify ([1, 2, 3, 4] : List F64) [1, 2, 3, 4] 2 = some SUCCESS :=
  verify_self ([1, 2, 3, 4] : List F64) 2 (by decide)
    (by
      intro x hx
      simp only [List.mem_cons, List.mem_singleton, List.not_mem_nil, or_false] at hx
      rcases hx with rfl | rfl | rfl | rfl <;> decide)

/-- C7 fails on a NaN: the `1 × 1` matrix that holds a NaN is not found equal
to itself. -/
theorem verify_self_nan :
    verify [F64.nan] [F64.nan] 1 = some FAILURE := by decide

end Verify

/-! ## Multiplying by the identity -/

section Identity

theorem identity_length {α : Type} [Zero α] [One α] (D : Nat) : (identity D : List α).length = D * D := by
  simp [identity]

theorem identity_getD {α : Type} [Zero α] [One α] (D i k : Nat) (hi : i < D) (hk : k < D) :
    (identity D : List α).getD (i * D + k) 0 = if i = k then 1 else 0 := by
  have hlt : i * D + k < D * D := by
    have := Nat.mul_le_mul_right D (Nat.succ_le_of_lt hi)
    rw [Nat.succ_mul] at this
    omega
  have hD : 0 < D := by omega
  have h1 : (i * D + k) / D = i := by
    rw [Nat.add_comm, Nat.add_mul_div_right _ _ hD, Nat.div_eq_of_lt hk, Nat.zero_add]
  have h2 : (i * D + k) % D = k := by
    rw [Nat.add_comm, Nat.add_mul_mod_self_right, Nat.mod_eq_of_lt hk]
  unfold identity
  rw [List.getD_eq_getElem?_getD, List.getElem?_map, List.getElem?_range hlt]
  simp [h1, h2]

theorem getD_mem {α : Type} [Zero α] (m : List α) (n : Nat) (h : n < m.length) : m.getD n 0 ∈ m := by
  rw [List.getD_eq_getElem?_getD, List.getElem?_eq_getElem h]
  exact List.getElem_mem h

variable {α : Type} [Zero α] [Add α] [Mul α] [One α]

/-- The partial sums of row `i` of the identity against column `j` of `B` are
`0` up to the diagonal and `B[i*D + j]` after it. -/
theorem identity_dot_upto (b : List α) (D i j : Nat) (hb : b.length = D * D)
    (hi : i < D) (hj : j < D)
    (hz : ∀ y ∈ b, (0 : α) + 0 * y = 0) (h1 : ∀ x ∈ b, (0 : α) + 1 * x = x)
    (hk : ∀ x ∈ b, ∀ y ∈ b, x + 0 * y = x) (k : Nat) (hkD : k ≤ D) :
    dot_upto (identity D) b D i j k = if k ≤ i then 0 else b.getD (i * D + j) 0 := by
  have hidx : ∀ r, r < D → r * D + j < b.length := by
    intro r hr
    have := Nat.mul_le_mul_right D (Nat.succ_le_of_lt hr)
    rw [Nat.succ_mul] at this
    omega
  induction k with
  | zero => simp [dot_upto]
  | succ k ih =>
    have hk' : k < D := by omega
    have hy := getD_mem b (k * D + j) (hidx k hk')
    have hx := getD_mem b (i * D + j) (hidx i hi)
    rw [dot_upto, ih (by omega), identity_getD D i k hi hk']
    rcases Nat.lt_trichotomy k i with hlt | heq | hgt
    · rw [if_pos (by omega), if_neg (by omega), if_pos (by omega)]
      exact hz _ hy
    · subst heq
      rw [if_pos (le_refl k), if_pos rfl, if_neg (by omega)]
      exact h1 _ hx
    · rw [if_neg (by omega), if_neg (by omega), if_neg (by omega)]
      exact hk _ hx _ hy

/-- The product of the identity and `B` is `B`. -/
theorem identity_product (b : List α) (D : Nat) (hb : b.length = D * D)
    (hz : ∀ y ∈ b, (0 : α) + 0 * y = 0) (h1 : ∀ x ∈ b, (0 : α) + 1 * x = x)
    (hk : ∀ x ∈ b, ∀ y ∈ b, x + 0 * y = x) :
    matrix_product (identity D) b D = b := by
  apply List.ext_getElem?
  intro idx
  unfold matrix_product
  rw [List.getElem?_map]
  by_cases g : idx < D * D
  · have hD : 0 < D := by
      rcases Nat.eq_zero_or_pos D with h0 | h0
      · rw [h0] at g; simp at g
      · exact h0
    have hi : idx / D < D := (Nat.div_lt_iff_lt_mul hD).mpr g
    have hj : idx % D < D := Nat.mod_lt idx hD
    have hsplit : idx / D * D + idx % D = idx := by
      rw [Nat.mul_comm]; exact Nat.div_add_mod idx D
    rw [List.getElem?_range g]
    simp only [Option.map_some', cell, dot_product]
    rw [identity_dot_upto b D _ _ hb hi hj hz h1 hk D (le_refl D), if_neg (by omega), hsplit,
      List.getD_eq_getElem?_getD, List.getElem?_eq_getElem (by omega)]
    simp
  · rw [List.getElem?_eq_none (by simp; omega), List.getElem?_eq_none (by omega)]
    rfl

/-- C9, as the code has it. For `1 ≤ D ≤ 46340`, `W ≥ 1` and a `D × D` matrix
`B` whose entries `x`, `y` satisfy `0 + 0 * y = 0`, `0 + 1 * x = x` and
`x + 0 * y = x` in the arithmetic of the elements, when `A` is the `D × D`
identity each of the three strategies, run with 32-bit `int`, leaves the output
buffer equal to `B`. -/
theorem identity_left (b c : List α) (dim num_workers : Int)
    (hD : 1 ≤ dim) (hD32 : dim ≤ 46340) (hW : 1 ≤ num_workers)
    (hb : (b.length : Int) = dim * dim) (hc : (c.length : Int) = dim * dim)
    (hz : ∀ y ∈ b, (0 : α) + 0 * y = 0) (h1 : ∀ x ∈ b, (0 : α) + 1 * x = x)
    (hk : ∀ x ∈ b, ∀ y ∈ b, x + 0 * y = x) :
    multiply_serial32 (identity dim.toNat) b c dim num_workers = some b
      ∧ multiply_parallel_processes32 (identity dim.toNat) b c dim num_workers = some b
      ∧ multiply_parallel_threads32 (identity dim.toNat) b c dim num_workers = some b := by
  lift dim to ℕ using (by omega) with D
  lift num_workers to ℕ using (by omega) with W
  have hb' : b.length = D * D := by exact_mod_cast hb
  have hc' : c.length = D * D := by exact_mod_cast hc
  have hW' : 1 ≤ W := by exact_mod_cast hW
  have ha' : (identity D : List α).length = D * D := identity_length D
  have hprod := identity_product b D hb' hz h1 hk
  rw [Int.toNat_ofNat, multiply_serial32_eq _ b c (D : Int) (W : Int) (by omega) hD32,
    multiply_parallel_processes32_eq _ b c D W (by exact_mod_cast hD32) hW',
    multiply_parallel_threads32_eq _ b c D W (by exact_mod_cast hD32) hW']
  refine ⟨?_, ?_, ?_⟩
  · rw [serial_eq_product _ b c D _ ha' hb' hc', hprod]
  · rw [processes_eq_product _ b c D W (by exact_mod_cast hD) hW' ha' hb' hc', hprod]
  · rw [threads_eq_product _ b c D W hW' ha' hb' hc', hprod]

/-- Witness for C9: a `2 × 2` matrix of finite values on three workers. -/
theorem identity_left_witness :
    multiply_serial32 (identity (2 : Int).toNat) ([5, 6, 7, 8] : List F64) [0, 0, 0, 0] 2 3
        = some [5, 6, 7, 8]
      ∧ multiply_parallel_processes32 (identity (2 : Int).toNat) ([5, 6, 7, 8] : List F64)
          [0, 0, 0, 0] 2 3 = some [5, 6, 7, 8]
      ∧ multiply_parallel_threads32 (identity (2 : Int).toNat) ([5, 6, 7, 8] : List F64)
          [0, 0, 0, 0] 2 3 = some [5, 6, 7, 8] :=
  identity_left ([5, 6, 7, 8] : List F64) [0, 0, 0, 0] 2 3 (by decide) (by decide) (by decide)
    (by decide) (by decide)
    (by
      intro y hy
      simp only [List.mem_cons, List.mem_singleton, List.not_mem_nil, or_false] at hy
      rcases hy with rfl | rfl | rfl | rfl <;> decide)
    (by
      intro x hx
      simp only [List.mem_cons, List.mem_singleton, List.not_mem_nil, or_false] at hx
      rcases hx with rfl | rfl | rfl | rfl <;> decide)
    (by
      intro x hx y hy
      simp only [List.mem_cons, List.mem_singleton, List.not_mem_nil, or_false] at hx hy
      rcases hx with rfl | rfl | rfl | rfl <;> rcases hy with rfl | rfl | rfl | rfl <;> decide)

/-- C9 fails in two ways.  On an infinite entry: with `A` the `2 × 2` identity
and `B = [[inf, 0], [0, 0]]` the serial strategy leaves `[[inf, 0], [NaN, 0]]`,
because `0 * inf` is a NaN.  And from `D = 46341` on: on row `46340` the index
`i * dim + k` leaves the range of a 32-bit `int`, and the serial strategy ends
in a load outside the buffer, for the identity and the matrix of ones of
dimension `46341` as for every other `A` and `B`. -/
theorem identity_left_inf :
    multiply_serial32 (identity 2) [F64.inf false, 0, 0, 0] [0, 0, 0, 0] 2 1
        = some [F64.inf false, 0, F64.nan, 0]
      ∧ multiply_serial32 (identity 2) [F64.inf false, 0, 0, 0] [0, 0, 0, 0] 2 1
        ≠ some [F64.inf false, 0, 0, 0]
      ∧ multiply_serial32 (identity 46341) (constant_matrix 46341 (1 : F64))
          (constant_matrix 46341 0) 46341 1 ≠ some (constant_matrix 46341 1)
      ∧ (∀ (a b c : List F64) (w : Int), multiply_serial32 a b c 46341 w ≠ some b) := by
  have h : ∀ (a b c : List F64) (w : Int), multiply_serial32 a b c 46341 w ≠ some b := by
    intro a b c w
    have h : multiply_serial32 a b c 46341 w = none :=
      multiply_chunk_with32_overflow store a b c 0 46341 (by decide) (by decide) (by decide)
        (by decide)
    rw [h]
    exact fun e => Option.noConfusion e
  exact ⟨by decide, by decide, h _ _ _ 1, h⟩

end Identity

/-! ## The serial strategy -/

section Serial

variable {α : Type} [Zero α] [Add α] [Mul α]

/-- C10, as the code has it. For `1 ≤ D ≤ 46340`, `D × D` matrices and every
value of `num_workers`, `multiply_serial`, run with 32-bit `int`, is one run of
the chunk multiplier over the rows `[0, D)` and leaves `C` equal to the full
product `A * B`, whatever `num_workers` is.  For `D = 2`, `A = [[1,2],[3,4]]`,
`B = [[5,6],[7,8]]` the result is `[[19,22],[43,50]]`, and the two parallel
strategies give the same result for `W = 1, 2, 3`. -/
theorem serial_computes_product (a b c : List α) (dim num_workers : Int) (hD : 1 ≤ dim)
    (hD32 : dim ≤ 46340)
    (ha : (a.length : Int) = dim * dim) (hb : (b.length : Int) = dim * dim)
    (hc : (c.length : Int) = dim * dim) :
    multiply_serial32 a b c dim num_workers = multiply_chunk32 a b c dim 0 dim
      ∧ multiply_serial32 a b c dim num_workers = some (matrix_product a b dim.toNat)
      ∧ (∀ w : Int, multiply_serial32 ([1, 2, 3, 4] : List F64) [5, 6, 7, 8] [0, 0, 0, 0] 2 w
          = some [19, 22, 43, 50])
      ∧ (∀ w : Int, w = 1 ∨ w = 2 ∨ w = 3 →
          multiply_parallel_processes32 ([1, 2, 3, 4] : List F64) [5, 6, 7, 8] [0, 0, 0, 0] 2 w
              = some [19, 22, 43, 50]
            ∧ multiply_parallel_threads32 ([1, 2, 3, 4] : List F64) [5, 6, 7, 8] [0, 0, 0, 0] 2 w
              = some [19, 22, 43, 50]) := by
  refine ⟨rfl, ?_, ?_, ?_⟩
  · rw [multiply_serial32_eq a b c dim num_workers (by omega) hD32]
    lift dim to ℕ using (by omega) with D
    rw [Int.toNat_ofNat]
    exact serial_eq_product a b c D num_workers (by exact_mod_cast ha) (by exact_mod_cast hb)
      (by exact_mod_cast hc)
  · intro w
    show multiply_chunk32 ([1, 2, 3, 4] : List F64) [5, 6, 7, 8] [0, 0, 0, 0] 2 0 2
      = some [19, 22, 43, 50]
    decide
  · rintro w (rfl | rfl | rfl) <;> exact ⟨by decide, by decide⟩

/-- Witness for C10: a `2 × 2` product with the worker count `7`. -/
theorem serial_computes_product_witness :
    multiply_serial32 ([1, 2, 3, 4] : List F64) [5, 6, 7, 8] [0, 0, 0, 0] 2 7
        = multiply_chunk32 ([1, 2, 3, 4] : List F64) [5, 6, 7, 8] [0, 0, 0, 0] 2 0 2
      ∧ multiply_serial32 ([1, 2, 3, 4] : List F64) [5, 6, 7, 8] [0, 0, 0, 0] 2 7
        = some (matrix_product ([1, 2, 3, 4] : List F64) [5, 6, 7, 8] (2 : Int).toNat)
      ∧ (∀ w : Int, multiply_serial32 ([1, 2, 3, 4] : List F64) [5, 6, 7, 8] [0, 0, 0, 0] 2 w
          = some [19, 22, 43, 50])
      ∧ (∀ w : Int, w = 1 ∨ w = 2 ∨ w = 3 →
          multiply_parallel_processes32 ([1, 2, 3, 4] : List F64) [5, 6, 7, 8] [0, 0, 0, 0] 2 w
              = some [19, 22, 43, 50]
            ∧ multiply_parallel_threads32 ([1, 2, 3, 4] : List F64) [5, 6, 7, 8] [0, 0, 0, 0] 2 w
              = some [19, 22, 43, 50]) :=
  serial_computes_product ([1, 2, 3, 4] : List F64) [5, 6, 7, 8] [0, 0, 0, 0] 2 7
    (by decide) (by decide) (by decide) (by decide) (by decide)

/-- C10 fails from `D = 46341` on.  The single run of the chunk multiplier is
over the rows `[0, 46341)`; on row `46340` the index `i * dim + k` leaves the
range of a 32-bit `int` and the load is outside the buffer, so `multiply_serial`
leaves no product, on the `46341 × 46341` matrices of ones or on any other
buffers, whatever `num_workers` is. -/
theorem serial_computes_product_overflow :
    wrap32 (wrap32 (46340 * 46341) + 41708) = -2147483648
      ∧ multiply_serial32 (constant_matrix 46341 (1 : F64)) (constant_matrix 46341 1)
          (constant_matrix 46341 0) 46341 1 = none
      ∧ ∀ (a b c : List F64) (num_workers : Int),
          multiply_serial32 a b c 46341 num_workers = multiply_chunk32 a b c 46341 0 46341
            ∧ multiply_serial32 a b c 46341 num_workers = none := by
  have h : ∀ (a b c : List F64) (num_workers : Int),
      multiply_serial32 a b c 46341 num_workers = multiply_chunk32 a b c 46341 0 46341
        ∧ multiply_serial32 a b c 46341 num_workers = none :=
    fun a b c _ => ⟨rfl, multiply_chunk_with32_overflow store a b c 0 46341 (by decide)
      (by decide) (by decide) (by decide)⟩
  exact ⟨by decide, (h _ _ _ 1).2, h⟩

end Serial

/-! ## Facts about `double` arithmetic -/

namespace F64

theorem bitLenFast_eq_size (level m : Nat) (h : m < 2 ^ 2 ^ level) :
    bitLenFast level m = m.size := by
  induction level generalizing m with
  | zero =>
    have hm : m = 0 ∨ m = 1 := by
      simp at h; omega
    rcases hm with rfl | rfl <;> simp [bitLenFast]
  | succ level ih =>
    rw [bitLenFast, Nat.one_shiftLeft, Nat.one_shiftLeft, Nat.shiftRight_eq_div_pow]
    have hpow : 2 ^ 2 ^ (level + 1) = 2 ^ 2 ^ level * 2 ^ 2 ^ level := by
      rw [← pow_add, pow_succ]; ring_nf
    rw [hpow] at h
    generalize 2 ^ level = t at *
    by_cases hge : 2 ^ t ≤ m
    · rw [if_pos hge]
      have hq : m / 2 ^ t < 2 ^ t := by
        rw [Nat.div_lt_iff_lt_mul (by positivity)]
        exact h
      rw [ih _ hq]
      have hq1 : 1 ≤ m / 2 ^ t := (Nat.one_le_div_iff (by positivity)).mpr hge
      have hlo : m / 2 ^ t * 2 ^ t ≤ m := Nat.div_mul_le_self m (2 ^ t)
      have hhi : m < (m / 2 ^ t + 1) * 2 ^ t := by
        have := Nat.lt_div_mul_add (a := m) (b := 2 ^ t) (by positivity)
        calc m < m / 2 ^ t * 2 ^ t + 2 ^ t := this
          _ = (m / 2 ^ t + 1) * 2 ^ t := by ring
      generalize m / 2 ^ t = q at *
      have hs : 0 < q.size := Nat.size_pos.mpr hq1
      apply le_antisymm
      · -- t + size q ≤ size m
        have h1 : 2 ^ (q.size - 1) ≤ q := Nat.lt_size.mp (by omega)
        have h2 : 2 ^ (t + q.size - 1) ≤ m := by
          calc 2 ^ (t + q.size - 1) = 2 ^ (q.size - 1) * 2 ^ t := by
                rw [← pow_add]; congr 1; omega
            _ ≤ q * 2 ^ t := Nat.mul_le_mul_right _ h1
            _ ≤ m := hlo
        have := Nat.lt_size.mpr h2
        omega
      · -- size m ≤ t + size q
        rw [Nat.size_le]
        have h1 : q + 1 ≤ 2 ^ q.size := Nat.lt_size_self q
        calc m < (q + 1) * 2 ^ t := hhi
          _ ≤ 2 ^ q.size * 2 ^ t := Nat.mul_le_mul_right _ h1
          _ = 2 ^ (t + q.size) := by rw [← pow_add]; congr 1; omega
    · rw [if_neg hge]
      exact ih m (by omega)

set_option exponentiation.threshold 4096 in
theorem bitLen_eq_size (m : Nat) (h : m.size ≤ 4096) : bitLen m = m.size := by
  have h1 : m < 1 <<< 4096 := lt_of_lt_of_eq (Nat.size_le.mp h) (Nat.one_shiftLeft 4096).symm
  have h2 : m < 2 ^ 2 ^ 12 := Nat.size_le.mp h
  unfold bitLen
  rw [if_pos h1]
  exact bitLenFast_eq_size 12 m h2

theorem encode_sig (s : Bool) (x : F64) (hf : x.exp < 2047) (hfr : x.frac < 2 ^ 52) :
    encode s x.sig x.expo = ⟨s, x.exp, x.frac⟩ := by
  unfold encode sig expo
  by_cases h0 : x.exp = 0
  · rw [if_pos h0, if_pos hfr, h0]
  · have h1 : ¬ (2 ^ 52 + x.frac < 2 ^ 52) := by omega
    have h2 : ¬ (2 ^ 52 + x.frac = 2 ^ 53) := by omega
    have h3 : ¬ ((x.exp : Int) - 1075 + 1075 ≥ 2047) := by omega
    have e1 : ((x.exp : Int) - 1075 + 1075).toNat = x.exp := by omega
    have e2 : 2 ^ 52 + x.frac - 2 ^ 52 = x.frac := by omega
    simp only [if_neg h0, if_neg h1, if_neg h2, if_neg h3, e1, e2]

theorem sig_size_le (x : F64) (hfr : x.frac < 2 ^ 52) : x.sig.size ≤ 53 := by
  rw [Nat.size_le]
  unfold sig
  split <;> omega

/-- Rounding a finite value that is given with `k` extra zero bits returns the
value. -/
theorem round_shift (s : Bool) (x : F64) (k : Nat) (hf : x.exp < 2047)
    (hfr : x.frac < 2 ^ 52) (hk : k ≤ 4000) :
    round s (x.sig <<< k) (x.expo - k) = ⟨s, x.exp, x.frac⟩ := by
  by_cases hz : x.sig = 0
  · have he : x.exp = 0 := by
      by_contra hne
      unfold sig at hz
      rw [if_neg hne] at hz
      omega
    have hfz : x.frac = 0 := by
      unfold sig at hz
      rw [if_pos he] at hz
      exact hz
    unfold round
    rw [hz, Nat.zero_shiftLeft, if_pos rfl, he, hfz]
  · have hm : x.sig <<< k ≠ 0 := by
      rw [Nat.shiftLeft_eq]
      exact Nat.mul_ne_zero hz (by positivity)
    have hsz : (x.sig <<< k).size = x.sig.size + k := Nat.size_shiftLeft hz k
    have hs53 := sig_size_le x hfr
    have hbl : bitLen (x.sig <<< k) = x.sig.size + k := by
      rw [bitLen_eq_size _ (by omega), hsz]
    have he' : max (x.expo - (k : Int) + ((x.sig.size + k : Nat) : Int) - 53) (-1074) = x.expo := by
      unfold expo
      by_cases h0 : x.exp = 0
      · have hlt : x.sig.size ≤ 52 := by
          rw [Nat.size_le]
          unfold sig
          rw [if_pos h0]
          exact hfr
        rw [if_pos h0]
        push_cast
        omega
      · have hge : 53 ≤ x.sig.size := by
          have : 52 < x.sig.size := by
            rw [Nat.lt_size]
            unfold sig
            rw [if_neg h0]
            omega
          omega
        rw [if_neg h0]
        push_cast
        omega
    unfold round
    rw [if_neg hm, hbl]
    simp only [he']
    by_cases hk0 : k = 0
    · subst hk0
      simp only [Nat.cast_zero, sub_zero, le_refl, if_true, sub_self, Int.toNat_zero,
        Nat.shiftLeft_zero]
      exact encode_sig s x hf hfr
    · have hnle : ¬ (x.expo ≤ x.expo - (k : Int)) := by omega
      have hsh : (x.expo - (x.expo - (k : Int))).toNat = k := by
        have : x.expo - (x.expo - (k : Int)) = (k : Int) := by ring
        rw [this, Int.toNat_ofNat]
      have hr : x.sig <<< k % 1 <<< k = 0 := by
        rw [Nat.shiftLeft_eq, Nat.one_shiftLeft, Nat.mul_mod_left]
      have hhalf : 0 < 1 <<< (k - 1) := by
        rw [Nat.one_shiftLeft]; positivity
      have hc : ¬ (0 > 1 <<< (k - 1) ∨ (0 = 1 <<< (k - 1) ∧ x.sig % 2 = 1)) := by omega
      simp only [if_neg hnle, hsh, Nat.shiftLeft_shiftRight, hr, if_neg hc]
      exact encode_sig s x hf hfr

theorem isNaN_of_finite (x : F64) (hf : x.exp < 2047) : x.isNaN = false := by
  have : ¬ (x.exp = 2047) := by omega
  simp [isNaN, this]

theorem isInf_of_finite (x : F64) (hf : x.exp < 2047) : x.isInf = false := by
  have : ¬ (x.exp = 2047) := by omega
  simp [isInf, this]

theorem expo_ge (x : F64) : -1074 ≤ x.expo := by
  unfold expo
  split <;> omega

theorem expo_le (x : F64) (hf : x.exp < 2047) : x.expo ≤ 971 := by
  unfold expo
  split <;> omega

/-- A product with zero is a zero. -/
theorem zero_mul_finite (y : F64) (hf : y.exp < 2047) :
    (0 : F64) * y = ⟨y.sign, 0, 0⟩ := by
  show mul ⟨false, 0, 0⟩ y = _
  unfold mul
  rw [isNaN_of_finite y hf, isInf_of_finite y hf]
  simp [isNaN, isInf, sig, round]

/-- Multiplying by one returns a finite value as it is. -/
theorem one_mul_finite (x : F64) (hf : x.exp < 2047) (hfr : x.frac < 2 ^ 52) :
    (1 : F64) * x = x := by
  show mul ⟨false, 1023, 0⟩ x = x
  unfold mul
  rw [isNaN_of_finite x hf, isInf_of_finite x hf]
  have h1 : (⟨false, 1023, 0⟩ : F64).sig * x.sig = x.sig <<< 52 := by
    rw [Nat.shiftLeft_eq, Nat.mul_comm]; rfl
  have h2 : (⟨false, 1023, 0⟩ : F64).expo + x.expo = x.expo - ((52 : Nat) : Int) := by
    have : (⟨false, 1023, 0⟩ : F64).expo = -52 := by decide
    rw [this]; push_cast; ring
  simp only [isNaN, isInf, Bool.false_or, Bool.or_false, Bool.false_xor]
  rw [if_neg (by decide), if_neg (by decide), h1, h2, round_shift _ x 52 hf hfr (by omega)]

/-- Adding a zero of either sign to a finite value other than `-0.0` returns
the value. -/
theorem add_zero_finite (x : F64) (sz : Bool) (hf : x.exp < 2047) (hfr : x.frac < 2 ^ 52)
    (hnz : x ≠ ⟨true, 0, 0⟩) : x + ⟨sz, 0, 0⟩ = x := by
  show add x ⟨sz, 0, 0⟩ = x
  unfold add
  rw [isNaN_of_finite x hf, isInf_of_finite x hf]
  have hge := expo_ge x
  have hle := expo_le x hf
  have hez : (⟨sz, 0, 0⟩ : F64).expo = -1074 := by simp [expo]
  have hsz : (⟨sz, 0, 0⟩ : F64).sig = 0 := by simp [sig]
  have hmin : min x.expo (-1074) = -1074 := min_eq_right hge
  simp only [isNaN, isInf, Bool.false_or, Bool.or_false, hez, hsz, hmin, Nat.zero_shiftLeft]
  rw [if_neg (by decide), if_neg (by decide)]
  obtain ⟨k, hk⟩ : ∃ k : Nat, x.expo - (-1074) = (k : Int) := ⟨(x.expo + 1074).toNat, by omega⟩
  have hk' : x.expo - (k : Int) = -1074 := by omega
  simp only [hk, Int.toNat_ofNat, Nat.cast_zero, neg_zero, ite_self, add_zero]
  by_cases hsig : x.sig = 0
  · have he : x.exp = 0 := by
      by_contra hne
      unfold sig at hsig
      rw [if_neg hne] at hsig
      omega
    have hfz : x.frac = 0 := by
      unfold sig at hsig
      rw [if_pos he] at hsig
      exact hsig
    have hsign : x.sign = false := by
      cases hs : x.sign
      · rfl
      · exfalso
        apply hnz
        cases x
        simp_all
    rw [hsig, Nat.zero_shiftLeft]
    simp only [Nat.cast_zero, neg_zero, ite_self, if_true, hsign, Bool.false_and]
    cases x
    simp_all
  · have hm : 0 < x.sig <<< k := by
      rw [Nat.shiftLeft_eq]
      exact Nat.mul_pos (Nat.pos_of_ne_zero hsig) (by positivity)
    have hs0 : ¬ ((if x.sign = true then -((x.sig <<< k : Nat) : Int)
        else ((x.sig <<< k : Nat) : Int)) = 0) := by
      split <;> omega
    have hneg : decide ((if x.sign = true then -((x.sig <<< k : Nat) : Int)
        else ((x.sig <<< k : Nat) : Int)) < 0) = x.sign := by
      cases hs : x.sign
      · simp
      · simp; omega
    have habs : (if x.sign = true then -((x.sig <<< k : Nat) : Int)
        else ((x.sig <<< k : Nat) : Int)).natAbs = x.sig <<< k := by
      split <;> simp
    rw [if_neg hs0, hneg, habs, ← hk', round_shift _ x k hf hfr (by omega)]
    simp

/-- Adding a finite value other than `-0.0` to a zero of either sign returns
the value. -/
theorem zero_add_finite (x : F64) (sz : Bool) (hf : x.exp < 2047) (hfr : x.frac < 2 ^ 52)
    (hnz : x ≠ ⟨true, 0, 0⟩) : (⟨sz, 0, 0⟩ : F64) + x = x := by
  show add ⟨sz, 0, 0⟩ x = x
  unfold add
  rw [isNaN_of_finite x hf, isInf_of_finite x hf]
  have hge := expo_ge x
  have hle := expo_le x hf
  have hez : (⟨sz, 0, 0⟩ : F64).expo = -1074 := by simp [expo]
  have hsz : (⟨sz, 0, 0⟩ : F64).sig = 0 := by simp [sig]
  have hmin : min (-1074) x.expo = -1074 := min_eq_left hge
  simp only [isNaN, isInf, Bool.false_or, Bool.or_false, hez, hsz, hmin, Nat.zero_shiftLeft]
  rw [if_neg (by decide), if_neg (by decide)]
  obtain ⟨k, hk⟩ : ∃ k : Nat, x.expo - (-1074) = (k : Int) := ⟨(x.expo + 1074).toNat, by omega⟩
  have hk' : x.expo - (k : Int) = -1074 := by omega
  simp only [hk, Int.toNat_ofNat, Nat.cast_zero, neg_zero, ite_self, zero_add]
  by_cases hsig : x.sig = 0
  · have he : x.exp = 0 := by
      by_contra hne
      unfold sig at hsig
      rw [if_neg hne] at hsig
      omega
    have hfz : x.frac = 0 := by
      unfold sig at hsig
      rw [if_pos he] at hsig
      exact hsig
    have hsign : x.sign = false := by
      cases hs : x.sign
      · rfl
      · exfalso
        apply hnz
        cases x
        simp_all
    rw [hsig, Nat.zero_shiftLeft]
    simp only [Nat.cast_zero, neg_zero, ite_self, if_true, hsign, Bool.and_false]
    cases x
    simp_all
  · have hm : 0 < x.sig <<< k := by
      rw [Nat.shiftLeft_eq]
      exact Nat.mul_pos (Nat.pos_of_ne_zero hsig) (by positivity)
    have hs0 : ¬ ((if x.sign = true then -((x.sig <<< k : Nat) : Int)
        else ((x.sig <<< k : Nat) : Int)) = 0) := by
      split <;> omega
    have hneg : decide ((if x.sign = true then -((x.sig <<< k : Nat) : Int)
        else ((x.sig <<< k : Nat) : Int)) < 0) = x.sign := by
      cases hs : x.sign
      · simp
      · simp; omega
    have habs : (if x.sign = true then -((x.sig <<< k : Nat) : Int)
        else ((x.sig <<< k : Nat) : Int)).natAbs = x.sig <<< k := by
      split <;> simp
    rw [if_neg hs0, hneg, habs, ← hk', round_shift _ x k hf hfr (by omega)]
    simp

/-- On finite values other than `-0.0` the products with zero vanish from a sum
and the product with one is exact. -/
theorem finite_laws (b : List F64)
    (h : ∀ x ∈ b, x.exp < 2047 ∧ x.frac < 2 ^ 52 ∧ x ≠ ⟨true, 0, 0⟩) :
    (∀ y ∈ b, (0 : F64) + 0 * y = 0) ∧ (∀ x ∈ b, (0 : F64) + 1 * x = x)
      ∧ (∀ x ∈ b, ∀ y ∈ b, x + 0 * y = x) := by
  refine ⟨fun y hy => ?_, fun x hx => ?_, fun x hx y hy => ?_⟩
  · obtain ⟨hf, _, _⟩ := h y hy
    rw [zero_mul_finite y hf]
    exact add_zero_finite 0 y.sign (by decide) (by decide) (by decide)
  · obtain ⟨hf, hfr, hnz⟩ := h x hx
    rw [one_mul_finite x hf hfr]
    exact zero_add_finite x false hf hfr hnz
  · obtain ⟨hf, hfr, hnz⟩ := h x hx
    obtain ⟨hfy, _, _⟩ := h y hy
    rw [zero_mul_finite y hfy]
    exact add_zero_finite x y.sign hf hfr hnz

/-- Every value other than a NaN compares equal to itself. -/
theorem beq_self (x : F64) (h : x.isNaN = false) : (x == x) = true := by
  show eq x x = true
  unfold eq
  rw [h]
  simp

end F64

/-! ## The chunk multiplier as an operation on the output buffer -/

section ChunkEffect

variable {α : Type} [Zero α] [Add α] [Mul α]

/-- C11, as the code has it. For `D ≤ 46340` and `int` values `row_start` and
`chunk` with `0 ≤ row_start` and `row_start + chunk ≤ D`, on `D × D` buffers and
for every initial output buffer, running `multiply_chunk`, with 32-bit `int`, a
second time with the same arguments leaves the output buffer as the first run
left it. -/
theorem multiply_chunk_idempotent (a b c : List α) (dim row_start chunk : Int)
    (hD32 : dim ≤ 46340)
    (ha : (a.length : Int) = dim * dim) (hb : (b.length : Int) = dim * dim)
    (hc : (c.length : Int) = dim * dim)
    (h0 : 0 ≤ row_start) (h1 : row_start + chunk ≤ dim)
    (hr32 : row_start ≤ 2147483647) (hc32 : -2147483648 ≤ chunk) :
    ∃ c1, multiply_chunk32 a b c dim row_start chunk = some c1
      ∧ multiply_chunk32 a b c1 dim row_start chunk = some c1
      ∧ (multiply_chunk32 a b c dim row_start chunk).bind
            (fun c1 => multiply_chunk32 a b c1 dim row_start chunk)
          = multiply_chunk32 a b c dim row_start chunk := by
  have h32 : ∀ c0 : List α, multiply_chunk32 a b c0 dim row_start chunk
      = multiply_chunk a b c0 dim row_start chunk :=
    fun c0 => multiply_chunk32_eq a b c0 dim row_start chunk hD32 h0 hr32 hc32 h1
  have key : ∃ c1, multiply_chunk a b c dim row_start chunk = some c1
      ∧ multiply_chunk a b c1 dim row_start chunk = some c1 := by
    by_cases hch : chunk ≤ 0
    · have e : ∀ c0 : List α, multiply_chunk a b c0 dim row_start chunk = some c0 :=
        fun c0 => forRange_empty _ _ _ _ (by omega)
      exact ⟨c, e c, e c⟩
    · lift row_start to ℕ using h0 with r
      lift chunk to ℕ using (by omega) with n
      lift dim to ℕ using (by omega) with D
      have ha' : a.length = D * D := by exact_mod_cast ha
      have hb' : b.length = D * D := by exact_mod_cast hb
      have hc' : c.length = D * D := by exact_mod_cast hc
      have hr : r + n ≤ D := by exact_mod_cast h1
      obtain ⟨c1, e1, e2, e3⟩ := multiply_chunk_nat a b c D r n ha' hb' hc' hr
      obtain ⟨c2, f1, _, f3⟩ := multiply_chunk_nat a b c1 D r n ha' hb' (by rw [e2, hc']) hr
      have heq : c2 = c1 := by
        apply List.ext_getElem?
        intro idx
        rw [f3 idx, e3 idx]
        by_cases g : r * D ≤ idx ∧ idx < (r + n) * D
        · rw [if_pos g, if_pos g]
        · rw [if_neg g, if_neg g]
      rw [heq] at f1
      exact ⟨c1, e1, f1⟩
  obtain ⟨c1, e1, e2⟩ := key
  have g1 : multiply_chunk32 a b c dim row_start chunk = some c1 := by rw [h32 c]; exact e1
  have g2 : multiply_chunk32 a b c1 dim row_start chunk = some c1 := by rw [h32 c1]; exact e2
  refine ⟨c1, g1, g2, ?_⟩
  rw [g1]
  exact g2

/-- Witness for C11: rows `[1, 3)` of a `3 × 3` product, run twice. -/
theorem multiply_chunk_idempotent_witness :
    ∃ c1, multiply_chunk32 (List.replicate 9 (1 : F64)) (List.replicate 9 2)
        (List.replicate 9 7) 3 1 2 = some c1
      ∧ multiply_chunk32 (List.replicate 9 (1 : F64)) (List.replicate 9 2) c1 3 1 2 = some c1
      ∧ (multiply_chunk32 (List.replicate 9 (1 : F64)) (List.replicate 9 2)
            (List.replicate 9 7) 3 1 2).bind
            (fun c1 => multiply_chunk32 (List.replicate 9 (1 : F64)) (List.replicate 9 2) c1 3 1 2)
          = multiply_chunk32 (List.replicate 9 (1 : F64)) (List.replicate 9 2)
              (List.replicate 9 7) 3 1 2 :=
  multiply_chunk_idempotent (List.replicate 9 (1 : F64)) (List.replicate 9 2)
    (List.replicate 9 7) 3 1 2 (by decide) (by decide) (by decide) (by decide) (by decide)
    (by decide) (by decide) (by decide)

/-- C11 fails from `D = 46341` on.  The rows `[0, 46341)` meet the
precondition; on row `46340` the index `i * dim + k` leaves the range of a
32-bit `int`, and already the first run of `multiply_chunk` ends in a load
outside the buffer, on the `46341 × 46341` matrices of ones as on any other
buffers: no run leaves the output buffer in a state that a second run could
keep. -/
theorem multiply_chunk_idempotent_overflow :
    ((0 : Int) ≤ 0 ∧ (0 : Int) + 46341 ≤ 46341)
      ∧ multiply_chunk32 (constant_matrix 46341 (1 : F64)) (constant_matrix 46341 1)
          (constant_matrix 46341 0) 46341 0 46341 = none
      ∧ ∀ a b c : List F64, multiply_chunk32 a b c 46341 0 46341 = none
          ∧ (multiply_chunk32 a b c 46341 0 46341).bind
              (fun c1 => multiply_chunk32 a b c1 46341 0 46341) = none := by
  have h : ∀ a b c : List F64, multiply_chunk32 a b c 46341 0 46341 = none :=
    fun a b c => multiply_chunk_with32_overflow store a b c 0 46341 (by decide) (by decide)
      (by decide) (by decide)
  refine ⟨by decide, h _ _ _, fun a b c => ?_⟩
  rw [h a b c]
  exact ⟨rfl, rfl⟩

/-- C12, as the code has it. For `D ≤ 46340` and `int` values `row_start` and
`chunk` with `0 ≤ row_start` and `row_start + chunk ≤ D`, on `D × D` buffers and
for every initial output buffer, `multiply_chunk`, run with 32-bit `int`,
returns and leaves every element `C[i*D + j]` whose row `i` is outside
`[row_start, row_start + chunk)` unchanged; so is every element whose index is
outside `[row_start * D, (row_start + chunk) * D)`, and the buffer keeps its
length. -/
theorem multiply_chunk_frame (a b c : List α) (dim row_start chunk : Int)
    (hD32 : dim ≤ 46340)
    (ha : (a.length : Int) = dim * dim) (hb : (b.length : Int) = dim * dim)
    (hc : (c.length : Int) = dim * dim)
    (h0 : 0 ≤ row_start) (h1 : row_start + chunk ≤ dim)
    (hr32 : row_start ≤ 2147483647) (hc32 : -2147483648 ≤ chunk) :
    ∃ c1, multiply_chunk32 a b c dim row_start chunk = some c1
      ∧ c1.length = c.length
      ∧ (∀ i j : Int, (i < row_start ∨ row_start + chunk ≤ i) → 0 ≤ j → j < dim →
          load c1 (i * dim + j) = load c (i * dim + j))
      ∧ (∀ idx : Int, (idx < row_start * dim ∨ (row_start + chunk) * dim ≤ idx) →
          load c1 idx = load c idx) := by
  rw [multiply_chunk32_eq a b c dim row_start chunk hD32 h0 hr32 hc32 h1]
  by_cases hch : chunk ≤ 0
  · exact ⟨c, forRange_empty _ _ _ _ (by omega), rfl, fun _ _ _ _ _ => rfl, fun _ _ => rfl⟩
  · lift row_start to ℕ using h0 with r
    lift chunk to ℕ using (by omega) with n
    lift dim to ℕ using (by omega) with D
    have ha' : a.length = D * D := by exact_mod_cast ha
    have hb' : b.length = D * D := by exact_mod_cast hb
    have hc' : c.length = D * D := by exact_mod_cast hc
    have hr : r + n ≤ D := by exact_mod_cast h1
    obtain ⟨c1, e1, e2, e3⟩ := multiply_chunk_nat a b c D r n ha' hb' hc' hr
    have hidx : ∀ idx : Int, (idx < (r : Int) * (D : Int) ∨ ((r : Int) + (n : Int)) * (D : Int) ≤ idx) →
        load c1 idx = load c idx := by
      intro idx hout
      by_cases hneg : idx < 0
      · simp [load, hneg]
      · lift idx to ℕ using (by omega) with k
        rw [load_natCast, load_natCast, e3 k]
        have hno : ¬ (r * D ≤ k ∧ k < (r + n) * D) := by
          rintro ⟨g1, g2⟩
          rcases hout with h | h
          · have : k < r * D := by exact_mod_cast h
            omega
          · have : (r + n) * D ≤ k := by exact_mod_cast h
            omega
        rw [if_neg hno]
    refine ⟨c1, e1, e2, ?_, hidx⟩
    intro i j hi hj hj'
    apply hidx
    rcases hi with h | h
    · left
      have h2 : (i + 1) * (D : Int) ≤ (r : Int) * (D : Int) :=
        mul_le_mul_of_nonneg_right (by omega) (by omega)
      have h3 : (i + 1) * (D : Int) = i * (D : Int) + (D : Int) := by ring
      omega
    · right
      have h2 : ((r : Int) + (n : Int)) * (D : Int) ≤ i * (D : Int) :=
        mul_le_mul_of_nonneg_right h (by omega)
      omega

/-- Witness for C12: rows `[1, 3)` of a `3 × 3` product. -/
theorem multiply_chunk_frame_witness :
    ∃ c1, multiply_chunk32 (List.replicate 9 (1 : F64)) (List.replicate 9 2)
        (List.replicate 9 7) 3 1 2 = some c1
      ∧ c1.length = (List.replicate 9 (7 : F64)).length
      ∧ (∀ i j : Int, (i < 1 ∨ 1 + 2 ≤ i) → 0 ≤ j → j < 3 →
          load c1 (i * 3 + j) = load (List.replicate 9 (7 : F64)) (i * 3 + j))
      ∧ (∀ idx : Int, (idx < 1 * 3 ∨ (1 + 2) * 3 ≤ idx) →
          load c1 idx = load (List.replicate 9 (7 : F64)) idx) :=
  multiply_chunk_frame (List.replicate 9 (1 : F64)) (List.replicate 9 2)
    (List.replicate 9 7) 3 1 2 (by decide) (by decide) (by decide) (by decide) (by decide)
    (by decide) (by decide) (by decide)

/-- C12 fails from `D = 46341` on.  The rows `[46339, 46341)` meet the
precondition.  For row `i = 46340` and column `j = 41708` the index
`i * dim + j` of the element to store is `2147483648`, which a 32-bit `int`
holds as `-2147483648`: an index outside the rows of the chunk and outside the
buffer.  The run does not get that far, it ends in a load at such an index, on
the `46341 × 46341` matrices of ones as on any other buffers. -/
theorem multiply_chunk_frame_overflow :
    ((0 : Int) ≤ 46339 ∧ (46339 : Int) + 2 ≤ 46341)
      ∧ wrap32 (wrap32 (46340 * 46341) + 41708) < 46339 * 46341
      ∧ wrap32 (wrap32 (46340 * 46341) + 41708) < 0
      ∧ multiply_chunk32 (constant_matrix 46341 (1 : F64)) (constant_matrix 46341 1)
          (constant_matrix 46341 0) 46341 46339 2 = none
      ∧ ∀ a b c : List F64, multiply_chunk32 a b c 46341 46339 2 = none := by
  have h : ∀ a b c : List F64, multiply_chunk32 a b c 46341 46339 2 = none :=
    fun a b c => multiply_chunk_with32_overflow store a b c 46339 2 (by decide) (by decide)
      (by decide) (by decide)
  exact ⟨by decide, by decide, by decide, h _ _ _, h⟩

/-- C13. For all `A`, `B`, `D`, `row_start` and every output buffer,
`multiply_chunk` with `chunk = 0` performs no store and returns the output
buffer as it was. -/
theorem multiply_chunk_empty (a b c : List α) (dim row_start : Int) :
    multiply_chunk a b c dim row_start 0 = some c
      ∧ multiply_chunk_stores a b dim row_start 0 = some [] :=
  ⟨forRange_empty _ _ _ _ (by omega), forRange_empty _ _ _ _ (by omega)⟩

end ChunkEffect

/-! ## Memory safety of the parallel strategies -/

section Safety

variable {α : Type} [Zero α] [Add α] [Mul α]

end Safety

/-! ## Elapsed time -/

section Time

theorem wrap64_eq (x : Int) (h0 : -9223372036854775808 ≤ x) (h1 : x ≤ 9223372036854775807) :
    wrap64 x = x := by
  unfold wrap64
  omega

/-- With pointers to two different objects `time_diff` computes the two
differences from the values the objects had at the call. -/
theorem time_diff_distinct (mem : Nat → timeval) (start end_ : Nat) (hne : start ≠ end_) :
    time_diff mem start end_
      = (let d : timeval :=
            { tv_sec := wrap64 ((mem end_).tv_sec - (mem start).tv_sec),
              tv_usec := wrap64 ((mem end_).tv_usec - (mem start).tv_usec) }
         let r : timeval :=
            if d.tv_usec < 0 then
              { tv_sec := wrap64 (d.tv_sec - 1), tv_usec := wrap64 (d.tv_usec + 1000000) }
            else d
         (r, Function.update mem end_ r)) := by
  unfold time_diff
  simp only [Function.update_same, Function.update_noteq hne, Function.update_idem]
  split <;> simp only [Function.update_same]

/-- C19, as the code has it. For pointers `start` and `end` to two different
objects whose `tv_usec` fields lie in `[0, 1000000)` and whose `tv_sec` fields
differ by less than `2 ^ 63`, `time_diff` returns a value whose `tv_usec` lies
in `[0, 1000000)` and whose `tv_sec * 1000000 + tv_usec` is the microsecond count
of `*end` minus that of `*start`; it leaves that same value in `*end` and leaves
`*start`, and every other object, as it was. -/
theorem time_diff_normalised (mem : Nat → timeval) (start end_ : Nat)
    (hne : start ≠ end_)
    (hs0 : 0 ≤ (mem start).tv_usec) (hs1 : (mem start).tv_usec < 1000000)
    (he0 : 0 ≤ (mem end_).tv_usec) (he1 : (mem end_).tv_usec < 1000000)
    (hlo : -9223372036854775807 ≤ (mem end_).tv_sec - (mem start).tv_sec)
    (hhi : (mem end_).tv_sec - (mem start).tv_sec ≤ 9223372036854775807) :
    0 ≤ (time_diff mem start end_).1.tv_usec
      ∧ (time_diff mem start end_).1.tv_usec < 1000000
      ∧ (time_diff mem start end_).1.tv_sec * 1000000 + (time_diff mem start end_).1.tv_usec
          = ((mem end_).tv_sec * 1000000 + (mem end_).tv_usec)
            - ((mem start).tv_sec * 1000000 + (mem start).tv_usec)
      ∧ (time_diff mem start end_).2 end_ = (time_diff mem start end_).1
      ∧ (time_diff mem start end_).2 start = mem start
      ∧ ∀ p, p ≠ end_ → (time_diff mem start end_).2 p = mem p := by
  rw [time_diff_distinct mem start end_ hne]
  have e1 : wrap64 ((mem end_).tv_sec - (mem start).tv_sec)
      = (mem end_).tv_sec - (mem start).tv_sec := wrap64_eq _ (by omega) hhi
  have e2 : wrap64 ((mem end_).tv_usec - (mem start).tv_usec)
      = (mem end_).tv_usec - (mem start).tv_usec := wrap64_eq _ (by omega) (by omega)
  have e3 : wrap64 ((mem end_).tv_sec - (mem start).tv_sec - 1)
      = (mem end_).tv_sec - (mem start).tv_sec - 1 := wrap64_eq _ (by omega) (by omega)
  have e4 : wrap64 ((mem end_).tv_usec - (mem start).tv_usec + 1000000)
      = (mem end_).tv_usec - (mem start).tv_usec + 1000000 := wrap64_eq _ (by omega) (by omega)
  simp only [e1, e2, e3, e4]
  by_cases h : (mem end_).tv_usec - (mem start).tv_usec < 0
  · simp only [if_pos h, Function.update_same]
    refine ⟨by omega, by omega, by ring, trivial, Function.update_noteq hne _ _,
      fun p hp => Function.update_noteq hp _ _⟩
  · simp only [if_neg h, Function.update_same]
    refine ⟨by omega, by omega, by ring, trivial, Function.update_noteq hne _ _,
      fun p hp => Function.update_noteq hp _ _⟩

/-- Witness for C19: from `3.9 s`, held at address `0`, to `5.2 s`, held at
address `1`, with a borrow. -/
theorem time_diff_normalised_witness :
    0 ≤ (time_diff (two_timevals ⟨3, 900000⟩ ⟨5, 200000⟩) 0 1).1.tv_usec
      ∧ (time_diff (two_timevals ⟨3, 900000⟩ ⟨5, 200000⟩) 0 1).1.tv_usec < 1000000
      ∧ (time_diff (two_timevals ⟨3, 900000⟩ ⟨5, 200000⟩) 0 1).1.tv_sec * 1000000
            + (time_diff (two_timevals ⟨3, 900000⟩ ⟨5, 200000⟩) 0 1).1.tv_usec
          = ((two_timevals ⟨3, 900000⟩ ⟨5, 200000⟩ 1).tv_sec * 1000000
              + (two_timevals ⟨3, 900000⟩ ⟨5, 200000⟩ 1).tv_usec)
            - ((two_timevals ⟨3, 900000⟩ ⟨5, 200000⟩ 0).tv_sec * 1000000
              + (two_timevals ⟨3, 900000⟩ ⟨5, 200000⟩ 0).tv_usec)
      ∧ (time_diff (two_timevals ⟨3, 900000⟩ ⟨5, 200000⟩) 0 1).2 1
          = (time_diff (two_timevals ⟨3, 900000⟩ ⟨5, 200000⟩) 0 1).1
      ∧ (time_diff (two_timevals ⟨3, 900000⟩ ⟨5, 200000⟩) 0 1).2 0
          = two_timevals ⟨3, 900000⟩ ⟨5, 200000⟩ 0
      ∧ ∀ p, p ≠ 1 → (time_diff (two_timevals ⟨3, 900000⟩ ⟨5, 200000⟩) 0 1).2 p
          = two_timevals ⟨3, 900000⟩ ⟨5, 200000⟩ p :=
  time_diff_normalised (two_timevals ⟨3, 900000⟩ ⟨5, 200000⟩) 0 1 (by decide) (by decide)
    (by decide) (by decide) (by decide) (by decide) (by decide)

/-- C19 fails in two ways.  When the difference of the `tv_sec` fields is not
a value of `time_t`: for `start = (LONG_MIN, 0)` and `end = (1, 0)` the
function returns `tv_sec = -9223372036854775807`, which is not the difference
of the two microsecond counts.  And when the two pointers are equal:
`time_diff(&t, &t)` with `t = (5, 200000)` returns `(0, 0)` and leaves `(0, 0)`
in `*start`, which held `(5, 200000)`. -/
theorem time_diff_wraps_and_aliases :
    ((time_diff (two_timevals ⟨-9223372036854775808, 0⟩ ⟨1, 0⟩) 0 1).1
          = ⟨-9223372036854775807, 0⟩
        ∧ (time_diff (two_timevals ⟨-9223372036854775808, 0⟩ ⟨1, 0⟩) 0 1).1.tv_sec * 1000000
              + (time_diff (two_timevals ⟨-9223372036854775808, 0⟩ ⟨1, 0⟩) 0 1).1.tv_usec
            ≠ ((1 : Int) * 1000000 + 0) - (-9223372036854775808 * 1000000 + 0))
      ∧ (two_timevals ⟨3, 900000⟩ ⟨5, 200000⟩ 1 = ⟨5, 200000⟩
        ∧ (time_diff (two_timevals ⟨3, 900000⟩ ⟨5, 200000⟩) 1 1).1 = ⟨0, 0⟩
        ∧ (time_diff (two_timevals ⟨3, 900000⟩ ⟨5, 200000⟩) 1 1).2 1 = ⟨0, 0⟩) := by
  decide

end Time

/-! ## The limit of 32-bit `int` -/

section Int32

variable {α : Type} [Zero α] [Add α] [Mul α]

/-- C18. With `int` as 32-bit two's complement: for `0 ≤ dim ≤ 46340` the loop
bound `dim * dim` of `verify` and every index that `multiply_chunk` computes
under its precondition are computed without wraparound, so both functions run
as on exact integers; every `dim` from `46341` on wraps the product, and at
`dim = 46341` the product is negative, the loop of `verify` does not run and
`verify` returns `SUCCESS` for any two matrices. -/
theorem int32_limit [BEq α] :
    (∀ dim : Int, 0 ≤ dim → dim ≤ 46340 →
        wrap32 (dim * dim) = dim * dim
        ∧ (∀ m1 m2 : List α, verify32 m1 m2 dim = verify m1 m2 dim)
        ∧ (∀ row_start chunk : Int, 0 ≤ row_start → 0 ≤ chunk → row_start + chunk ≤ dim →
            wrap32 (row_start + chunk) = row_start + chunk
            ∧ (∀ i j k : Int, row_start ≤ i → i < row_start + chunk → 0 ≤ j → j < dim →
                0 ≤ k → k < dim →
                wrap32 (wrap32 (i * dim) + k) = i * dim + k
                ∧ wrap32 (wrap32 (k * dim) + j) = k * dim + j
                ∧ wrap32 (wrap32 (i * dim) + j) = i * dim + j)
            ∧ (∀ a b c : List α,
                multiply_chunk32 a b c dim row_start chunk
                  = multiply_chunk a b c dim row_start chunk)))
      ∧ (∀ dim : Int, 46341 ≤ dim → dim ≤ 2147483647 → wrap32 (dim * dim) ≠ dim * dim)
      ∧ wrap32 (46341 * 46341) = -2147479015
      ∧ (∀ m1 m2 : List α, verify32 m1 m2 46341 = some SUCCESS) := by
  refine ⟨?_, ?_, by decide, ?_⟩
  · intro dim h0 h1
    have hsq := sq_le_int32 dim h0 h1
    have hsq0 : 0 ≤ dim * dim := mul_nonneg h0 h0
    have hw : wrap32 (dim * dim) = dim * dim := wrap32_eq _ (by omega) (by omega)
    refine ⟨hw, ?_, ?_⟩
    · intro m1 m2
      unfold verify32 verify
      rw [hw]
      apply verify_loop32_eq
      · omega
      · omega
    · intro row_start chunk hr hc hrc
      refine ⟨wrap32_eq _ (by omega) (by omega), ?_,
        fun a b c => multiply_chunk32_eq a b c dim row_start chunk h1 hr (by omega) (by omega)
          hrc⟩
      intro i j k hi0 hi hj0 hj hk0 hk
      exact ⟨wrap32_index dim i k h1 (by omega) (by omega) hk0 hk,
        wrap32_index dim k j h1 hk0 hk hj0 hj,
        wrap32_index dim i j h1 (by omega) (by omega) hj0 hj⟩
  · intro dim h0 _
    apply wrap32_ne
    nlinarith
  · intro m1 m2
    have h : (wrap32 (46341 * 46341) - 0).toNat = 0 := by decide
    unfold verify32
    rw [h]
    rfl

/-- Witness for C18: the dimension `1024` of `matrix_mult.h`, and two `1 × 1`
matrices that differ, taken as matrices of dimension `46341`. -/
theorem int32_limit_witness :
    wrap32 (1024 * 1024) = 1024 * 1024
      ∧ verify32 ([1] : List F64) [2] 46341 = some SUCCESS :=
  ⟨((@int32_limit F64 _ _ _ _).1 1024 (by decide) (by decide)).1,
    (@int32_limit F64 _ _ _ _).2.2.2 [1] [2]⟩

end Int32

/-! ## Calls in program order -/

section Order

/-- A list splits in one way only at an element that occurs once. -/
theorem split_unique {β : Type} (x : β) (front back : List β) (hf : x ∉ front)
    (hb : x ∉ back) (pre post : List β) (h : pre ++ x :: post = front ++ x :: back) :
    pre = front := by
  induction front generalizing pre with
  | nil =>
    cases pre with
    | nil => rfl
    | cons y pre' =>
      exfalso
      simp only [List.cons_append, List.nil_append, List.cons.injEq] at h
      apply hb
      rw [← h.2]
      simp
  | cons f fs ih =>
    cases pre with
    | nil =>
      exfalso
      simp only [List.nil_append, List.cons_append, List.cons.injEq] at h
      apply hf
      rw [h.1]
      simp
    | cons y pre' =>
      simp only [List.cons_append, List.cons.injEq] at h
      rw [h.1, ih (fun hx => hf (List.mem_cons_of_mem _ hx)) pre' h.2]

theorem wait_loop_eq (live : Nat) :
    wait_loop live = List.replicate live (Event.wait true) ++ [Event.wait false] := by
  induction live with
  | zero => rfl
  | succ n ih => rw [wait_loop, ih, List.replicate_succ, List.cons_append]

/-- The fork loop either forks `n` children and goes on, or stops at `exit`
after a fork that failed. -/
theorem fork_loop_cases (os : Os) (cs : Int) (rest : Int → List Event) (n : Nat) (i r : Int) :
    (∃ F : List Event, fork_loop os cs rest n i r = F ++ rest (r + n * cs)
        ∧ F.length = n ∧ ∀ e ∈ F, ∃ r' : Int, e = Event.fork r' cs true)
      ∨ (∃ F : List Event, fork_loop os cs rest n i r = F ++ [Event.exits]
        ∧ (∀ e ∈ F, ∃ (r' : Int) (ok : Bool), e = Event.fork r' cs ok)
        ∧ ∃ j, os.fork_ok j = false) := by
  induction n generalizing i r with
  | zero =>
    left
    exact ⟨[], by simp [fork_loop], rfl, by simp⟩
  | succ n ih =>
    rw [fork_loop]
    by_cases hok : os.fork_ok i = true
    · rw [hok, if_pos rfl]
      rcases ih (i + 1) (r + cs) with ⟨F, h1, h2, h3⟩ | ⟨F, h1, h3, h4⟩
      · left
        refine ⟨Event.fork r cs true :: F, ?_, by simp [h2], ?_⟩
        · have e : r + cs + (n : Int) * cs = r + ((n + 1 : Nat) : Int) * cs := by
            push_cast; ring
          rw [h1, List.cons_append, e]
        · intro e he
          rcases List.mem_cons.mp he with rfl | he
          · exact ⟨r, rfl⟩
          · exact h3 e he
      · right
        refine ⟨Event.fork r cs true :: F, by rw [h1, List.cons_append], ?_, h4⟩
        intro e he
        rcases List.mem_cons.mp he with rfl | he
        · exact ⟨r, true, rfl⟩
        · exact h3 e he
    · right
      have hf : os.fork_ok i = false := by simpa using hok
      rw [hf]
      refine ⟨[Event.fork r cs false], by simp, ?_, i, hf⟩
      intro e he
      rw [List.mem_singleton] at he
      exact ⟨r, false, he⟩

/-- The trace of the parent: either it forks `W - 1` children, waits until no
child is left, runs its own chunk, copies and unmaps; or it holds no call of
`multiply_chunk` and no copy, one of the system calls having failed. -/
theorem processes_events_shape (os : Os) (dim num_workers : Int) :
    (∃ (F : List Event) (r : Int),
        processes_events os dim num_workers
          = (Event.mmap true :: F
              ++ (List.replicate (num_workers - 1).toNat (Event.wait true) ++ [Event.wait false]))
            ++ Event.chunk r (dim - r)
              :: ([] ++ Event.memcpy
                :: [Event.munmap os.munmap_ok,
                    if os.munmap_ok then Event.returns else Event.exits])
        ∧ F.length = (num_workers - 1).toNat
        ∧ ∀ e ∈ F, ∃ r' cs : Int, e = Event.fork r' cs true)
      ∨ ((∀ e ∈ processes_events os dim num_workers,
            e ≠ Event.memcpy ∧ ∀ r n : Int, e ≠ Event.chunk r n)
          ∧ (os.mmap_ok = false ∨ num_workers = 0 ∨ ∃ j, os.fork_ok j = false)) := by
  unfold processes_events
  by_cases hm : os.mmap_ok = true
  · rw [hm, if_pos rfl]
    by_cases hW : num_workers = 0
    · right
      refine ⟨?_, Or.inr (Or.inl hW)⟩
      simp [cdiv, hW]
    · have hc : cdiv dim num_workers = some (Int.tdiv dim num_workers) := by
        simp [cdiv, hW]
      simp only [hc]
      rcases fork_loop_cases os (Int.tdiv dim num_workers) (fun row_start =>
          wait_loop (num_workers - 1).toNat
            ++ [Event.chunk row_start (dim - row_start), Event.memcpy,
                Event.munmap os.munmap_ok,
                if os.munmap_ok then Event.returns else Event.exits])
          (num_workers - 1).toNat 0 0 with ⟨F, h1, h2, h3⟩ | ⟨F, h1, h3, h4⟩
      · left
        refine ⟨F, 0 + ((num_workers - 1).toNat : Int) * Int.tdiv dim num_workers, ?_, h2,
          fun e he => ?_⟩
        · rw [h1, wait_loop_eq]
          simp
        · obtain ⟨r', hr'⟩ := h3 e he
          exact ⟨r', _, hr'⟩
      · right
        refine ⟨?_, Or.inr (Or.inr h4)⟩
        rw [h1]
        intro e he
        simp only [List.mem_cons, List.mem_append, List.mem_singleton, List.not_mem_nil,
          or_false] at he
        rcases he with rfl | he | rfl
        · simp
        · obtain ⟨r', ok, rfl⟩ := h3 e he
          simp
        · simp
  · right
    have hf : os.mmap_ok = false := by simpa using hm
    refine ⟨?_, Or.inl hf⟩
    rw [hf]
    simp


/-- Among `mmap`, the forks that succeeded and the waits of the wait loop,
there are as many waits that reaped a child as there are forks. -/
theorem reaped_eq_spawned (F : List Event) (m : Nat) (hlen : F.length = m)
    (hF : ∀ e ∈ F, ∃ r' cs : Int, e = Event.fork r' cs true) :
    (Event.mmap true :: F
        ++ (List.replicate m (Event.wait true) ++ [Event.wait false])).count (Event.wait true)
      = m
    ∧ (Event.mmap true :: F
        ++ (List.replicate m (Event.wait true) ++ [Event.wait false])).countP Event.isSpawn
      = m := by
  have h1 : F.count (Event.wait true) = 0 := by
    rw [List.count_eq_zero]
    intro hmem
    obtain ⟨r', cs, h⟩ := hF _ hmem
    cases h
  have h2 : F.countP Event.isSpawn = F.length := by
    rw [List.countP_eq_length]
    intro e he
    obtain ⟨r', cs, rfl⟩ := hF e he
    rfl
  have h3 : (List.replicate m (Event.wait true)).countP Event.isSpawn = 0 := by
    rw [List.countP_eq_zero]
    intro e he
    rw [List.eq_of_mem_replicate he]
    simp [Event.isSpawn]
  constructor
  · rw [List.cons_append, List.count_cons, List.count_append, List.count_append, h1,
      List.count_replicate_self]
    simp
  · rw [List.cons_append, List.countP_cons, List.countP_append, List.countP_append, h2, h3, hlen]
    simp [Event.isSpawn]

/-- In the trace of the parent, whatever the system calls return, the call of
`multiply_chunk` by the parent and the copy come only after `wait` has found
no child left, and after as many children have been reaped as were forked. -/
theorem processes_events_after_wait (os : Os) (dim num_workers : Int) (x : Event)
    (hx : x = Event.memcpy ∨ ∃ r n : Int, x = Event.chunk r n) (pre post : List Event)
    (h : processes_events os dim num_workers = pre ++ x :: post) :
    Event.wait false ∈ pre
      ∧ pre.count (Event.wait true) = pre.countP Event.isSpawn := by
  have hmem : x ∈ processes_events os dim num_workers := by
    rw [h]; simp
  rcases processes_events_shape os dim num_workers with ⟨F, r, hs, hlen, hF⟩ | ⟨hno, _⟩
  · obtain ⟨c1, c2⟩ := reaped_eq_spawned F _ hlen hF
    have hA : ∀ e ∈ Event.mmap true :: F
        ++ (List.replicate (num_workers - 1).toNat (Event.wait true) ++ [Event.wait false]),
        e ≠ Event.memcpy ∧ ∀ r n : Int, e ≠ Event.chunk r n := by
      intro e he
      simp only [List.cons_append, List.mem_cons, List.mem_append, List.mem_singleton,
        List.not_mem_nil, or_false] at he
      rcases he with rfl | he | he | rfl
      · simp
      · obtain ⟨r', cs, rfl⟩ := hF e he
        simp
      · rw [List.eq_of_mem_replicate he]; simp
      · simp
    have hw : Event.wait false ∈ Event.mmap true :: F
        ++ (List.replicate (num_workers - 1).toNat (Event.wait true) ++ [Event.wait false]) := by
      simp
    rcases hx with rfl | ⟨r', n', rfl⟩
    · -- the copy
      have hs' : processes_events os dim num_workers
          = ((Event.mmap true :: F
              ++ (List.replicate (num_workers - 1).toNat (Event.wait true) ++ [Event.wait false]))
              ++ [Event.chunk r (dim - r)])
            ++ Event.memcpy :: [Event.munmap os.munmap_ok,
                    if os.munmap_ok then Event.returns else Event.exits] := by
        rw [hs]; simp
      have hpre := split_unique Event.memcpy _ _ (by
          intro hin
          rcases List.mem_append.mp hin with hin | hin
          · exact (hA _ hin).1 rfl
          · simp at hin) (by
          intro hin
          simp only [List.mem_cons, List.mem_singleton, List.not_mem_nil, or_false] at hin
          rcases hin with hin | hin
          · cases hin
          · split at hin <;> cases hin) pre post (h.symm.trans hs')
      rw [hpre]
      refine ⟨List.mem_append_left _ hw, ?_⟩
      rw [List.count_append, List.countP_append, c1, c2]
      simp [Event.isSpawn]
    · -- the chunk of the parent
      have hx' : Event.chunk r' n' = Event.chunk r (dim - r) := by
        rw [hs] at hmem
        rcases List.mem_append.mp hmem with hin | hin
        · exact absurd rfl ((hA _ hin).2 r' n')
        · simp only [List.nil_append, List.mem_cons, List.mem_singleton, List.not_mem_nil,
            or_false] at hin
          rcases hin with hin | hin | hin | hin
          · exact hin
          · cases hin
          · cases hin
          · split at hin <;> cases hin
      rw [hx'] at h
      have hpre := split_unique (Event.chunk r (dim - r)) _ _ (by
          intro hin
          exact (hA _ hin).2 _ _ rfl) (by
          intro hin
          simp only [List.nil_append, List.mem_cons, List.mem_singleton, List.not_mem_nil,
            or_false] at hin
          rcases hin with hin | hin | hin
          · cases hin
          · cases hin
          · split at hin <;> cases hin) pre post (h.symm.trans hs)
      rw [hpre]
      exact ⟨hw, by rw [c1, c2]⟩
  · exfalso
    obtain ⟨g1, g2⟩ := hno x hmem
    rcases hx with rfl | ⟨r', n', rfl⟩
    · exact g1 rfl
    · exact g2 r' n' rfl


theorem mem_fill_loop (dim W ch : Int) (n : Nat) (i r : Int) (e : Event)
    (he : e ∈ fill_loop dim W ch n i r) : ∃ i' r' c' : Int, e = Event.fill i' r' c' := by
  induction n generalizing i r with
  | zero => simp [fill_loop] at he
  | succ n ih =>
    rw [fill_loop] at he
    rcases List.mem_cons.mp he with rfl | he
    · exact ⟨_, _, _, rfl⟩
    · exact ih _ _ he

theorem mem_create_loop (os : Os) (n : Nat) (i : Int) (e : Event)
    (he : e ∈ create_loop os n i) :
    ∃ k : Nat, k < n ∧ e = Event.create (i + k) (os.create_ok (i + k)) := by
  induction n generalizing i with
  | zero => simp [create_loop] at he
  | succ n ih =>
    rw [create_loop] at he
    rcases List.mem_cons.mp he with rfl | he
    · exact ⟨0, by omega, by simp⟩
    · obtain ⟨k, hk, rfl⟩ := ih _ he
      refine ⟨k + 1, by omega, ?_⟩
      have e1 : i + 1 + (k : Int) = i + ((k + 1 : Nat) : Int) := by push_cast; ring
      rw [e1]

/-- The join loop either joins every thread of a creation that succeeded and
goes on, or stops at a join on what is not a thread. -/
theorem join_loop_cases (os : Os) (rest : List Event) (n : Nat) (i : Int) :
    (∃ J : List Event, join_loop os rest n i = J ++ rest
        ∧ (∀ k : Nat, k < n → Event.join (i + k) ∈ J)
        ∧ ∀ e ∈ J, ∃ id : Int, e = Event.join id)
      ∨ (∃ J : List Event, join_loop os rest n i = J ++ [Event.undefined]
        ∧ (∀ e ∈ J, ∃ id : Int, e = Event.join id)
        ∧ ∃ j, os.create_ok j = false) := by
  induction n generalizing i with
  | zero =>
    left
    exact ⟨[], by simp [join_loop], by intro k hk; omega, by simp⟩
  | succ n ih =>
    rw [join_loop]
    by_cases hok : os.create_ok i = true
    · rw [hok, if_pos rfl]
      rcases ih (i + 1) with ⟨J, h1, h2, h3⟩ | ⟨J, h1, h3, h4⟩
      · left
        refine ⟨Event.join i :: J, by rw [h1, List.cons_append], ?_, ?_⟩
        · intro k hk
          cases k with
          | zero => simp
          | succ k =>
            have e1 : i + ((k + 1 : Nat) : Int) = i + 1 + (k : Int) := by push_cast; ring
            rw [e1]
            exact List.mem_cons_of_mem _ (h2 k (by omega))
        · intro e he
          rcases List.mem_cons.mp he with rfl | he
          · exact ⟨i, rfl⟩
          · exact h3 e he
      · right
        refine ⟨Event.join i :: J, by rw [h1, List.cons_append], ?_, h4⟩
        intro e he
        rcases List.mem_cons.mp he with rfl | he
        · exact ⟨i, rfl⟩
        · exact h3 e he
    · right
      have hf : os.create_ok i = false := by simpa using hok
      rw [hf]
      refine ⟨[Event.join i], by simp, ?_, i, hf⟩
      intro e he
      rw [List.mem_singleton] at he
      exact ⟨i, he⟩

/-- The trace of `multiply_parallel_threads` holds no call to `exit`, whatever
the system calls return. -/
theorem threads_events_no_exits (os : Os) (dim num_workers : Int) :
    Event.exits ∉ threads_events os dim num_workers := by
  unfold threads_events
  intro hin
  by_cases hW : num_workers < 1
  · rw [if_pos hW] at hin
    simp at hin
  · rw [if_neg hW] at hin
    simp only [List.mem_cons] at hin
    rcases hin with hin | hin
    · cases hin
    · by_cases hm : os.malloc_ok = true
      · rw [hm, if_pos rfl] at hin
        rcases List.mem_append.mp hin with hin | hin
        · rcases List.mem_append.mp hin with hin | hin
          · obtain ⟨_, _, _, h⟩ := mem_fill_loop _ _ _ _ _ _ _ hin
            cases h
          · obtain ⟨_, _, h⟩ := mem_create_loop _ _ _ _ hin
            cases h
        · rcases List.mem_cons.mp hin with hin | hin
          · cases hin
          · rcases join_loop_cases os [Event.free, Event.returns] (num_workers - 1).toNat 0
              with ⟨J, h1, _, h3⟩ | ⟨J, h1, h3, _⟩
            · rw [h1] at hin
              rcases List.mem_append.mp hin with hin | hin
              · obtain ⟨_, h⟩ := h3 _ hin
                cases h
              · simp at hin
            · rw [h1] at hin
              rcases List.mem_append.mp hin with hin | hin
              · obtain ⟨_, h⟩ := h3 _ hin
                cases h
              · simp at hin
      · have hf : os.malloc_ok = false := by simpa using hm
        rw [hf] at hin
        simp only [Bool.false_eq_true, if_false] at hin
        rcases List.mem_append.mp hin with hin | hin
        · obtain ⟨_, _, _, h⟩ := mem_fill_loop _ _ _ _ _ _ _ (List.mem_of_mem_take hin)
          cases h
        · simp at hin


/-- In the trace of `multiply_parallel_threads`, whatever the system calls
return, `free` and the return come only after a join on every thread that has
been created. -/
theorem threads_events_after_join (os : Os) (dim num_workers : Int) (x : Event)
    (hx : x = Event.free ∨ x = Event.returns) (pre post : List Event)
    (h : threads_events os dim num_workers = pre ++ x :: post) (id : Int)
    (hid : Event.create id true ∈ pre) : Event.join id ∈ pre := by
  have hmem : x ∈ threads_events os dim num_workers := by
    rw [h]; simp
  unfold threads_events at h hmem
  by_cases hW : num_workers < 1
  · exfalso
    rw [if_pos hW] at hmem
    rcases hx with rfl | rfl <;> simp at hmem
  · rw [if_neg hW] at h hmem
    by_cases hm : os.malloc_ok = true
    · rw [hm] at h hmem
      simp only [if_true] at h hmem
      rcases join_loop_cases os [Event.free, Event.returns] (num_workers - 1).toNat 0
        with ⟨J, h1, h2, h3⟩ | ⟨J, h1, h3, _⟩
      · rw [h1] at h
        -- the calls before `free`
        have hA : ∀ e ∈ Event.malloc true ::
            (fill_loop dim num_workers (Int.tdiv dim num_workers) num_workers.toNat 0 0
              ++ create_loop os (num_workers - 1).toNat 0
              ++ Event.task (max 0 (num_workers - 1)) :: J),
            e ≠ Event.free ∧ e ≠ Event.returns
              ∧ (e = Event.create id true → Event.join id ∈ J) := by
          intro e he
          simp only [List.mem_cons, List.mem_append] at he
          rcases he with rfl | (he | he) | rfl | he
          · simp
          · obtain ⟨_, _, _, rfl⟩ := mem_fill_loop _ _ _ _ _ _ _ he
            simp
          · obtain ⟨k, hk, rfl⟩ := mem_create_loop _ _ _ _ he
            refine ⟨by simp, by simp, fun heq => ?_⟩
            injection heq with heq1 _
            rw [← heq1]
            exact h2 k hk
          · simp
          · obtain ⟨_, rfl⟩ := h3 _ he
            simp
        have hJ : ∀ e, e ∈ J → e ∈ Event.malloc true ::
            (fill_loop dim num_workers (Int.tdiv dim num_workers) num_workers.toNat 0 0
              ++ create_loop os (num_workers - 1).toNat 0
              ++ Event.task (max 0 (num_workers - 1)) :: J) := by
          intro e he
          simp [he]
        rcases hx with rfl | rfl
        · have hs : pre ++ Event.free :: post
              = (Event.malloc true ::
                  (fill_loop dim num_workers (Int.tdiv dim num_workers) num_workers.toNat 0 0
                    ++ create_loop os (num_workers - 1).toNat 0
                    ++ Event.task (max 0 (num_workers - 1)) :: J))
                ++ Event.free :: [Event.returns] := by
            rw [← h]; simp
          have hpre := split_unique Event.free _ _ (fun hin => (hA _ hin).1 rfl)
            (by simp) pre post hs
          rw [hpre] at hid ⊢
          exact hJ _ ((hA _ hid).2.2 rfl)
        · have hs : pre ++ Event.returns :: post
              = ((Event.malloc true ::
                  (fill_loop dim num_workers (Int.tdiv dim num_workers) num_workers.toNat 0 0
                    ++ create_loop os (num_workers - 1).toNat 0
                    ++ Event.task (max 0 (num_workers - 1)) :: J)) ++ [Event.free])
                ++ Event.returns :: [] := by
            rw [← h]; simp
          have hpre := split_unique Event.returns _ _ (by
              intro hin
              rcases List.mem_append.mp hin with hin | hin
              · exact (hA _ hin).2.1 rfl
              · simp at hin) (by simp) pre post hs
          rw [hpre] at hid ⊢
          rcases List.mem_append.mp hid with hid | hid
          · exact List.mem_append_left _ (hJ _ ((hA _ hid).2.2 rfl))
          · simp at hid
      · exfalso
        rw [h1] at hmem
        simp only [List.mem_cons, List.mem_append, List.mem_singleton, List.not_mem_nil,
          or_false] at hmem
        rcases hmem with hmem | (hmem | hmem) | hmem | hmem | hmem
        · rcases hx with rfl | rfl <;> cases hmem
        · obtain ⟨_, _, _, rfl⟩ := mem_fill_loop _ _ _ _ _ _ _ hmem
          rcases hx with hx | hx <;> cases hx
        · obtain ⟨_, _, rfl⟩ := mem_create_loop _ _ _ _ hmem
          rcases hx with hx | hx <;> cases hx
        · rcases hx with rfl | rfl <;> cases hmem
        · obtain ⟨_, rfl⟩ := h3 _ hmem
          rcases hx with hx | hx <;> cases hx
        · rcases hx with rfl | rfl <;> cases hmem
    · exfalso
      have hf : os.malloc_ok = false := by simpa using hm
      rw [hf] at hmem
      simp only [Bool.false_eq_true, if_false, List.mem_cons, List.mem_append,
        List.mem_singleton, List.not_mem_nil, or_false] at hmem
      rcases hmem with hmem | hmem | hmem
      · rcases hx with rfl | rfl <;> cases hmem
      · obtain ⟨_, _, _, rfl⟩ := mem_fill_loop _ _ _ _ _ _ _ (List.mem_of_mem_take hmem)
        rcases hx with hx | hx <;> cases hx
      · rcases hx with rfl | rfl <;> cases hmem


theorem rows_fork_loop (os : Os) (hok : ∀ i, os.fork_ok i = true) (cs : Int)
    (rest : Int → List Event) (n : Nat) (i r : Int) :
    (fork_loop os cs rest n i r).filterMap Event.rows
      = (List.range n).map (fun (k : Nat) => (r + (k : Int) * cs, cs))
        ++ (rest (r + n * cs)).filterMap Event.rows := by
  induction n generalizing i r with
  | zero => simp [fork_loop]
  | succ n ih =>
    have e : r + cs + (n : Int) * cs = r + ((n + 1 : Nat) : Int) * cs := by push_cast; ring
    rw [fork_loop, hok i, if_pos rfl, List.filterMap_cons_some (by rfl : Event.rows _ = some (r, cs)),
      ih (i + 1) (r + cs), e, List.range_succ_eq_map, List.map_cons, List.map_map, List.cons_append]
    congr 2
    · simp
    · apply List.map_congr_left
      intro k _
      simp only [Function.comp, Nat.succ_eq_add_one]
      congr 1
      push_cast
      ring

theorem descriptors_fill_loop (dim W ch : Int) (n : Nat) (i r : Int) :
    (fill_loop dim W ch n i r).filterMap Event.descriptor
      = (List.range n).map (fun (k : Nat) =>
          (r + (k : Int) * ch, if i + (k : Int) = W - 1 then dim - (r + (k : Int) * ch) else ch)) := by
  induction n generalizing i r with
  | zero => simp [fill_loop]
  | succ n ih =>
    rw [fill_loop, List.filterMap_cons_some (by rfl : Event.descriptor _ = some (r, _)),
      ih (i + 1) (r + ch), List.range_succ_eq_map, List.map_cons, List.map_map]
    congr 1
    · simp
    · apply List.map_congr_left
      intro k _
      simp only [Function.comp, Nat.succ_eq_add_one]
      have e1 : r + ch + (k : Int) * ch = r + ((k + 1 : Nat) : Int) * ch := by push_cast; ring
      have e2 : i + 1 + (k : Int) = i + ((k + 1 : Nat) : Int) := by push_cast; ring
      rw [e1, e2]

/-- When every call succeeds, the rows in the trace of the process strategy
are the ranges of the data model. -/
theorem processes_events_rows (D W : Nat) (hW : 1 ≤ W) :
    (processes_events Os.fine (D : Int) (W : Int)).filterMap Event.rows = row_ranges D W := by
  have hc : cdiv (D : Int) (W : Int) = some ((D / W : Nat) : Int) := cdiv_natCast D W hW
  have hn : ((W : Int) - 1).toNat = W - 1 := by omega
  unfold processes_events
  simp only [Os.fine, if_true, hc, hn]
  rw [List.filterMap_cons_none (by rfl), rows_fork_loop _ (fun _ => rfl), wait_loop_eq]
  unfold row_ranges
  congr 1
  · apply List.map_congr_left
    intro k _
    simp
  · rw [List.filterMap_append, List.filterMap_append]
    have h1 : (List.replicate (W - 1) (Event.wait true)).filterMap Event.rows = [] := by
      rw [List.filterMap_eq_nil_iff]
      intro e he
      rw [List.eq_of_mem_replicate he]
      rfl
    rw [h1]
    simp [Event.rows]
    ring

/-- When every call succeeds, the rows in the descriptors of the trace of the
thread strategy are the ranges of the data model. -/
theorem threads_events_descriptors (D W : Nat) (hW : 1 ≤ W) :
    (threads_events Os.fine (D : Int) (W : Int)).filterMap Event.descriptor
      = row_ranges D W := by
  have hW' : ¬ ((W : Int) < 1) := by omega
  have hn : ((W : Int)).toNat = W := by omega
  have hdiv : Int.tdiv (D : Int) (W : Int) = ((D / W : Nat) : Int) := (Int.ofNat_tdiv D W).symm
  unfold threads_events
  simp only [Os.fine, if_true, if_neg hW', hn, hdiv]
  rw [List.filterMap_cons_none (by rfl), List.filterMap_append, List.filterMap_append,
    descriptors_fill_loop]
  have h1 : ∀ (n : Nat) (i : Int), (create_loop Os.fine n i).filterMap Event.descriptor = [] := by
    intro n i
    rw [List.filterMap_eq_nil_iff]
    intro e he
    obtain ⟨k, _, rfl⟩ := mem_create_loop _ _ _ _ he
    rfl
  have h2 : ∀ (n : Nat) (i : Int),
      (join_loop Os.fine [Event.free, Event.returns] n i).filterMap Event.descriptor = [] := by
    intro n i
    rw [List.filterMap_eq_nil_iff]
    intro e he
    rcases join_loop_cases Os.fine [Event.free, Event.returns] n i
      with ⟨J, g1, _, g3⟩ | ⟨J, g1, g3, _⟩
    · rw [g1] at he
      rcases List.mem_append.mp he with he | he
      · obtain ⟨_, rfl⟩ := g3 _ he
        rfl
      · simp only [List.mem_cons, List.mem_singleton, List.not_mem_nil, or_false] at he
        rcases he with rfl | rfl <;> rfl
    · rw [g1] at he
      rcases List.mem_append.mp he with he | he
      · obtain ⟨_, rfl⟩ := g3 _ he
        rfl
      · simp only [List.mem_singleton] at he
        rw [he]; rfl
  have h1' := h1 ((W : Int) - 1).toNat 0
  have h2' := h2 ((W : Int) - 1).toNat 0
  simp only [Os.fine] at h1' h2'
  rw [h1', List.filterMap_cons_none (by rfl), h2', List.append_nil, List.append_nil]
  unfold row_ranges
  obtain ⟨V, rfl⟩ : ∃ V, W = V + 1 := ⟨W - 1, by omega⟩
  rw [List.range_succ, List.map_append]
  simp only [Nat.add_sub_cancel, List.map_cons, List.map_nil]
  congr 1
  · apply List.map_congr_left
    intro k hk
    rw [List.mem_range] at hk
    have hne : ¬ ((0 : Int) + (k : Int) = ((V + 1 : Nat) : Int) - 1) := by push_cast; omega
    rw [if_neg hne]
    simp
  · have he : (0 : Int) + (V : Int) = ((V + 1 : Nat) : Int) - 1 := by push_cast; omega
    rw [if_pos he]
    simp
    ring
/-- C16. Whatever the system calls return: in `multiply_parallel_processes` the
copy of the shared region into the caller's buffer comes only after `wait` has
found no child left and has reaped as many children as were forked, and in
`multiply_parallel_threads` neither `free` nor the return comes before a join
on every worker that has been created. -/
theorem copy_and_return_after_workers (os : Os) (dim num_workers : Int) :
    (∀ pre post : List Event,
        processes_events os dim num_workers = pre ++ Event.memcpy :: post →
        Event.wait false ∈ pre ∧ pre.count (Event.wait true) = pre.countP Event.isSpawn)
      ∧ (∀ (x : Event) (pre post : List Event), (x = Event.free ∨ x = Event.returns) →
          threads_events os dim num_workers = pre ++ x :: post →
          ∀ id : Int, Event.create id true ∈ pre → Event.join id ∈ pre) :=
  ⟨fun pre post h =>
      processes_events_after_wait os dim num_workers Event.memcpy (Or.inl rfl) pre post h,
    fun x pre post hx h id hid =>
      threads_events_after_join os dim num_workers x hx pre post h id hid⟩

/-- Witness for C16: `D = 4` rows on `W = 3` workers, every call succeeding. -/
theorem copy_and_return_after_workers_witness :
    (Event.wait false ∈ [Event.mmap true, Event.fork 0 1 true, Event.fork 1 1 true,
          Event.wait true, Event.wait true, Event.wait false, Event.chunk 2 2]
        ∧ [Event.mmap true, Event.fork 0 1 true, Event.fork 1 1 true,
            Event.wait true, Event.wait true, Event.wait false,
            Event.chunk 2 2].count (Event.wait true)
          = [Event.mmap true, Event.fork 0 1 true, Event.fork 1 1 true,
            Event.wait true, Event.wait true, Event.wait false,
            Event.chunk 2 2].countP Event.isSpawn)
      ∧ Event.join 1 ∈ [Event.malloc true, Event.fill 0 0 1, Event.fill 1 1 1,
          Event.fill 2 2 2, Event.create 0 true, Event.create 1 true, Event.task 2,
          Event.join 0, Event.join 1] :=
  ⟨(copy_and_return_after_workers Os.fine 4 3).1
      [Event.mmap true, Event.fork 0 1 true, Event.fork 1 1 true,
        Event.wait true, Event.wait true, Event.wait false, Event.chunk 2 2]
      [Event.munmap true, Event.returns] (by decide),
    (copy_and_return_after_workers Os.fine 4 3).2 Event.free
      [Event.malloc true, Event.fill 0 0 1, Event.fill 1 1 1,
        Event.fill 2 2 2, Event.create 0 true, Event.create 1 true, Event.task 2,
        Event.join 0, Event.join 1]
      [Event.returns] (Or.inl rfl) (by decide) 1 (by decide)⟩

/-- C15 on the code: in `multiply_parallel_processes(a, b, c, 2, 2)` the parent
forks its child, waits until no child is left and only then runs
`multiply_chunk` on the last range; in every trace the call of `multiply_chunk`
by the parent comes after `wait` has found no child left.  The thread strategy
runs the caller's task before it joins. -/
theorem parent_chunk_after_wait :
    processes_events Os.fine 2 2
        = [Event.mmap true, Event.fork 0 1 true, Event.wait true, Event.wait false,
           Event.chunk 1 1, Event.memcpy, Event.munmap true, Event.returns]
      ∧ (∀ (os : Os) (dim num_workers r n : Int) (pre post : List Event),
          processes_events os dim num_workers = pre ++ Event.chunk r n :: post →
          Event.wait false ∈ pre ∧ pre.count (Event.wait true) = pre.countP Event.isSpawn)
      ∧ threads_events Os.fine 2 2
        = [Event.malloc true, Event.fill 0 0 1, Event.fill 1 1 1, Event.create 0 true,
           Event.task 1, Event.join 0, Event.free, Event.returns] :=
  ⟨by decide,
    fun os dim num_workers r n pre post h =>
      processes_events_after_wait os dim num_workers (Event.chunk r n) (Or.inr ⟨r, n, rfl⟩)
        pre post h,
    by decide⟩

/-- C14 on the code: in `multiply_parallel_threads(a, b, c, 2, 2)`, when
`malloc` returns the null pointer the next call stores to `arg_set[0]`, and
when `pthread_create` fails the caller runs its task and joins
`thread_set[0]`; no trace of the thread strategy holds a call to `exit`.  The
process strategy ends the process when `mmap` or `fork` fails. -/
theorem thread_failures_not_checked :
    threads_events { Os.fine with malloc_ok := false } 2 2
        = [Event.malloc false, Event.fill 0 0 1, Event.undefined]
      ∧ threads_events { Os.fine with create_ok := fun _ => false } 2 2
        = [Event.malloc true, Event.fill 0 0 1, Event.fill 1 1 1, Event.create 0 false,
           Event.task 1, Event.join 0, Event.undefined]
      ∧ (∀ (os : Os) (dim num_workers : Int), Event.exits ∉ threads_events os dim num_workers)
      ∧ processes_events { Os.fine with mmap_ok := false } 2 2
        = [Event.mmap false, Event.exits]
      ∧ processes_events { Os.fine with fork_ok := fun _ => false } 2 2
        = [Event.mmap true, Event.fork 0 1 false, Event.exits] :=
  ⟨by decide, by decide, threads_events_no_exits, by decide, by decide⟩
end Order

end MatrixMult
